import Mathlib

/-!
Verification development for the community-partitioned hypergraph
coarsening kernel (community_subhypergraph.h) and the hMetis-style
hypergraph file loader (HypergraphIO.h).

The C++ sources are shallowly embedded: integer ids and weights become
Nat, vectors become Lean lists or functions, imperative loops become
folds or structural recursion.  Machine integers are modelled as Nat;
overflow plays no role in the properties considered (all counts stay
within the mathematical range in every statement proved here).
-/

namespace KahyparProof

/-! ## Part I: the hMetis file loader (HypergraphIO.h) -/

/-- Modelled from the spec: one line of the text input file.  The C++ code
reads lines with getline and extracts integers with operator>>.  A line
beginning with the character percent is a comment line; integer extraction
from such a line yields no tokens, so a comment line carries an empty
token list.  `toks` is the sequence of integers operator>> would extract. -/
structure Line where
  isComment : Bool
  toks : List Nat
deriving DecidableEq

/-- Integer tokens obtainable from a line by stream extraction: a line whose
first character is the comment character yields none. -/
def intToks (l : Line) : List Nat :=
  if l.isComment then [] else l.toks

/-- Embedding of io::parseHGRHeader: skip leading comment lines, then read
hyperedge count, hypernode count and format flag from the first remaining
line (missing tokens behave as 0, mirroring the value-unchanged semantics of
a failed extraction on a zero-initialised variable).  Returns the parsed
header together with the unconsumed lines. -/
def parseHGRHeader (lines : List Line) : (Nat × Nat × Nat) × List Line :=
  match lines.dropWhile (fun l => l.isComment) with
  | [] => ((0, 0, 0), [])
  | l :: rest => ((l.toks.getD 0 0, l.toks.getD 1 0, l.toks.getD 2 0), rest)

/-- Result record of io::parseHypergraphFile: the caller-visible output
vectors (passed by reference in C++, assumed empty on entry). -/
structure ParseResult where
  num_hypernodes : Nat
  num_hyperedges : Nat
  index_vector : List Nat
  edge_vector : List Nat
  hyperedge_weights : List Nat
  hypernode_weights : List Nat
deriving DecidableEq

/-- One iteration of the hyperedge-reading loop of io::parseHypergraphFile:
optionally read a weight token first, then append every remaining token
decremented by one to the edge vector, and record the new edge-vector size
in the index vector.  State is (index_vector, edge_vector, hyperedge_weights). -/
def processEdgeLine (has_hyperedge_weights : Bool)
    (acc : List Nat × List Nat × List Nat) (l : Line) :
    List Nat × List Nat × List Nat :=
  let toks := intToks l
  let w := if has_hyperedge_weights then toks.headD 0 else 0
  let pins := if has_hyperedge_weights then toks.tail else toks
  let ev := acc.2.1 ++ pins.map (fun p => p - 1)
  let ew := if has_hyperedge_weights then acc.2.2 ++ [w] else acc.2.2
  (acc.1 ++ [ev.length], ev, ew)

/-- Embedding of io::parseHypergraphFile.  Reads the header, then
num_hyperedges edge lines, then (for format flags 10 and 11) one weight line
per hypernode.  Reading past the end of the file behaves like reading an
empty line, as a failed getline leaves an empty string. -/
def parseHypergraphFile (lines : List Line) : ParseResult :=
  let hd := parseHGRHeader lines
  let num_hyperedges := hd.1.1
  let num_hypernodes := hd.1.2.1
  let hypergraph_type := hd.1.2.2
  let rest := hd.2
  let has_hyperedge_weights := hypergraph_type = 1 ∨ hypergraph_type = 11
  let has_hypernode_weights := hypergraph_type = 10 ∨ hypergraph_type = 11
  let init : List Nat × List Nat × List Nat := ([0], [], [])
  let out := (List.range num_hyperedges).foldl
    (fun acc i => processEdgeLine (decide has_hyperedge_weights) acc
      (rest.getD i ⟨false, []⟩)) init
  let nw := if has_hypernode_weights then
      (List.range num_hypernodes).map
        (fun i => (intToks (rest.getD (num_hyperedges + i) ⟨false, []⟩)).headD 0)
    else []
  ⟨num_hypernodes, num_hyperedges, out.1, out.2.1, out.2.2, nw⟩

/-- Pins stored for one edge line: drop the leading weight token when the
format carries hyperedge weights, then decrement every pin id by one
(the file uses 1-based hypernode ids). -/
def pinsOfLine (weighted : Bool) (t : List Nat) : List Nat :=
  (if weighted then t.tail else t).map (fun p => p - 1)

/-- Edge vector contributed by a list of edge lines. -/
def evOf (weighted : Bool) (els : List (List Nat)) : List Nat :=
  (els.map (pinsOfLine weighted)).flatten

/-- Hyperedge-weight vector contributed by a list of edge lines. -/
def ewOf (weighted : Bool) (els : List (List Nat)) : List Nat :=
  if weighted then els.map (fun t => t.headD 0) else []

/-- The index-vector entries recorded after the initial one, given the
length of the edge vector accumulated so far. -/
def ivTail (weighted : Bool) (base : Nat) : List (List Nat) → List Nat
  | [] => []
  | t :: els =>
      (base + (pinsOfLine weighted t).length) ::
        ivTail weighted (base + (pinsOfLine weighted t).length) els

/-- Input-file shape used to state the parser claims: a header line, then
one line per hyperedge (raw token lists), then, when the format flag
announces hypernode weights, one weight line per hypernode. -/
def mkLines (numHE numHN flag : Nat) (eLines : List (List Nat)) (nWks : List Nat) :
    List Line :=
  (⟨false, [numHE, numHN, flag]⟩ : Line) ::
    (eLines.map (fun t => (⟨false, t⟩ : Line)) ++
      (if flag = 10 ∨ flag = 11 then nWks.map (fun w => (⟨false, [w]⟩ : Line)) else []))

/-! ## Part II: the coarsening-kernel data model (community_subhypergraph.h)

The generic hypergraph container (hypergraph.h) is not among the sources;
its record layout and accessor semantics are modelled from the spec
(sections 3 and 6).  Everything else is translated directly from
community_subhypergraph.h. -/

/-- Modelled from the spec: a hypernode record of the hypergraph store —
incident-net list, weight and enabled flag (spec section 3). -/
structure Hypernode where
  nets : List Nat
  weight : Nat
  enabled : Bool
deriving DecidableEq

/-- Modelled from the spec: a hyperedge record — first entry of its pin
range in the flat incidence array, active-pin count, weight, enabled flag
and the rolling pin hash (spec section 3). -/
structure Hyperedge where
  firstEntry : Nat
  size : Nat
  weight : Nat
  enabled : Bool
  hash : Nat
deriving DecidableEq

/-- firstInvalidEntry = firstEntry + size (spec section 3 invariant). -/
def Hyperedge.firstInvalidEntry (e : Hyperedge) : Nat := e.firstEntry + e.size

/-- Modelled from the spec: the shared hypergraph store.  Arrays are total
functions from ids; `edges` carries a sentinel record at id numEdges whose
firstEntry delimits the last pin range, mirroring the sentinel element of
the hyperedge vector that the C++ code reads as `_hyperedges[he + 1]`. -/
structure HGState where
  numNodes : Nat
  numEdges : Nat
  nodes : Nat → Hypernode
  edges : Nat → Hyperedge
  arr : Nat → Nat
  comm : Nat → Nat
  curNodes : Nat
  curPins : Nat
  curEdges : Nat

/-- CommunityHyperedge: the range inside the original hyperedge's pin span
reserved for one community (translated from the source struct). -/
structure CommunityHyperedge where
  original_he : Nat
  incidence_array_start : Nat
  incidence_array_end : Nat
deriving DecidableEq

/-- One contraction log record; only the absorbed hypernode `v` is read by
the merge. -/
structure ContractionMemento where
  u : Nat
  v : Nat
deriving DecidableEq

/-- The per-community input consumed by the merge: the (externally
coarsened) sub-hypergraph's records plus the mappings and boundary counters
of CommunitySubhypergraph.  `subFirstEntry` carries the sentinel at
initialNumEdges. -/
structure SubInput where
  community_id : Nat
  num_hn_not_in_community : Nat
  num_pins_not_in_community : Nat
  initialNumNodes : Nat
  initialNumEdges : Nat
  currentNumNodes : Nat
  currentNumPins : Nat
  currentNumEdges : Nat
  nodeW : Nat → Nat
  nodeEnabled : Nat → Bool
  nodeNets : Nat → List Nat
  subComm : Nat → Nat
  edgeW : Nat → Nat
  edgeEnabled : Nat → Bool
  subFirstEntry : Nat → Nat
  subArr : Nat → Nat
  hnMap : Nat → Nat
  heMap : Nat → CommunityHyperedge

/-- One community's contribution inside the PRE-PHASE loop of
mergeCommunityInducedSectionHypergraphs. -/
def prePhaseStep (M : HGState) (s : SubInput) : HGState :=
  { M with
      curNodes := M.curNodes + (s.currentNumNodes - s.num_hn_not_in_community),
      curPins := M.curPins + (s.currentNumPins - s.num_pins_not_in_community),
      curEdges := M.curEdges - (s.initialNumEdges - s.currentNumEdges) }

/-- The PRE-PHASE of mergeCommunityInducedSectionHypergraphs: zero the node
and pin counters, then accumulate every community's contribution and
subtract the edges it disabled. -/
def prePhase (M : HGState) (communities : List SubInput) : HGState :=
  communities.foldl prePhaseStep { M with curNodes := 0, curPins := 0 }

/-- Sequential write of a list into an array starting at position p
(the post-incremented pointer writes of Phase 1). -/
def writeSeq : (Nat → Nat) → Nat → List Nat → (Nat → Nat)
  | arr, _, [] => arr
  | arr, p, x :: xs => writeSeq (Function.update arr p x) (p + 1) xs

/-- The active pin list of local hyperedge `le` of a sub-hypergraph, read
from its incidence array between firstEntry(le) and firstEntry(le+1). -/
def localPins (s : SubInput) (le : Nat) : List Nat :=
  (List.range (s.subFirstEntry (le + 1) - s.subFirstEntry le)).map
    (fun k => s.subArr (s.subFirstEntry le + k))

/-- Phase 1, body of the first-visit branch for one local hyperedge:
write the community's pins into the reserved range of the original edge,
then the weight update (note: the comparison reads the original hyperedge
array at the local id `he`, exactly as the source does), then the disable
propagation. -/
def phase1Edge (M : HGState) (s : SubInput) (he : Nat) : HGState :=
  let community_hyperedge := s.heMap he
  let original_he := community_hyperedge.original_he
  let start := (M.edges original_he).firstEntry + community_hyperedge.incidence_array_start
  let ps := ((localPins s he).filter (fun pin => s.subComm pin = s.community_id)).map s.hnMap
  let M1 := { M with arr := writeSeq M.arr start ps }
  let wrec := { M1.edges original_he with weight := s.edgeW he }
  let M2 := if (M1.edges he).weight < s.edgeW he then
      { M1 with edges := Function.update M1.edges original_he wrec }
    else M1
  let drec := { M2.edges original_he with enabled := false }
  if s.edgeEnabled he then M2
  else { M2 with edges := Function.update M2.edges original_he drec }

/-- Phase 1, body for one local hypernode: skip nodes of other communities;
map incident nets back to original ids, process each incident edge on first
visit, then overwrite the original hypernode record. -/
def phase1Node (s : SubInput) (Mv : HGState × (Nat → Bool)) (hn : Nat) :
    HGState × (Nat → Bool) :=
  if s.subComm hn = s.community_id then
    let incident_nets := (s.nodeNets hn).map (fun he => (s.heMap he).original_he)
    let Mv2 := (s.nodeNets hn).foldl
      (fun (acc : HGState × (Nat → Bool)) he =>
        if acc.2 he then acc
        else (phase1Edge acc.1 s he, Function.update acc.2 he true)) Mv
    let nrec : Hypernode := ⟨incident_nets, s.nodeW hn, s.nodeEnabled hn⟩
    ({ Mv2.1 with nodes := Function.update Mv2.1.nodes (s.hnMap hn) nrec }, Mv2.2)
  else Mv

/-- Phase 1 task for one community (sequentialised; distinct communities
write disjoint ranges, so the linearisation is faithful). -/
def phase1Community (M : HGState) (s : SubInput) : HGState :=
  ((List.range s.initialNumNodes).foldl (phase1Node s) (M, fun _ => false)).1

/-- Phase 1 over all communities. -/
def phase1 (M : HGState) (communities : List SubInput) : HGState :=
  communities.foldl phase1Community M

/-- The integers of [a, b) in increasing order. -/
def rangeList (a b : Nat) : List Nat :=
  List.range' a (b - a)

/-- Phase 2 worker: record the position of each memento of [a, b) in the
contraction-index table, keyed by the absorbed hypernode. -/
def construct_contraction_index (history : List ContractionMemento)
    (t : Nat → Int) (a b : Nat) : Nat → Int :=
  (rangeList a b).foldl
    (fun t i => Function.update t (history.getD i ⟨0, 0⟩).v (Int.ofNat i)) t

/-- The range split used by Phases 2 and 3: with step = n / T, ranges
[i*step, (i+1)*step) and the remainder for the last worker; the
single-threaded fallback when step = 0 or T = 1. -/
def threadRanges (T n : Nat) : List (Nat × Nat) :=
  let step := n / T
  if 1 ≤ step ∧ T ≠ 1 then
    (List.range T).map (fun i => (i * step, if i = T - 1 then n else (i + 1) * step))
  else [(0, n)]

/-- Phase 2: the contraction-index table (initialised to -1) after all
workers ran. -/
def contractionIndexTable (history : List ContractionMemento) (T : Nat) : Nat → Int :=
  (threadRanges T history.length).foldl
    (fun t r => construct_contraction_index history t r.1 r.2) (fun _ => (-1 : Int))

/-- Modelled from the spec: the seed of the rolling pin hash
(Hypergraph::kEdgeHashSeed lives in the absent hypergraph.h). -/
def kEdgeHashSeed : Nat := 42

/-- Exchange of two array cells. -/
def swapF (arr : Nat → Nat) (i j : Nat) : Nat → Nat :=
  Function.update (Function.update arr i (arr j)) j (arr i)

/-- The Phase 3 compaction loop of one hyperedge: walk the active range,
sum the hash of enabled pins, and swap every disabled pin behind the
shrinking firstInvalidEntry.  `fuel` bounds the iteration count; the
C++ loop performs exactly stop - j steps, so fuel = initial size suffices.
Returns (array, new firstInvalidEntry, hash accumulator). -/
def compactGo (hashF : Nat → Nat) (enabled : Nat → Bool) :
    Nat → (Nat → Nat) → Nat → Nat → Nat → ((Nat → Nat) × Nat × Nat)
  | 0, arr, _, stop, acc => (arr, stop, acc)
  | fuel + 1, arr, j, stop, acc =>
    if j < stop then
      if enabled (arr j) then
        compactGo hashF enabled fuel arr (j + 1) stop (acc + hashF (arr j))
      else
        compactGo hashF enabled fuel (swapF arr j (stop - 1)) j (stop - 1) acc
    else (arr, stop, acc)

/-- The segment [a, b) of an array as a list. -/
def seg (arr : Nat → Nat) (a b : Nat) : List Nat :=
  (List.range (b - a)).map (fun k => arr (a + k))

/-- Phase 3 body for one hyperedge: temporarily enable a disabled edge,
reset the hash to the seed and recompute it over enabled pins while
compacting disabled pins into the remainder, restore the enabled state,
then sort the remainder by decreasing contraction index (std::sort with a
strict comparator is modelled by a sorting algorithm producing a
permutation ordered by the induced non-strict relation). -/
def create_contraction_hierarchy_edge (hashF : Nat → Nat) (ci : Nat → Int)
    (M : HGState) (he : Nat) : HGState :=
  let wasDisabled := !(M.edges he).enabled
  let erec := { M.edges he with enabled := true }
  let M1 := { M with edges := Function.update M.edges he erec }
  let e1 := M1.edges he
  let res := compactGo hashF (fun p => (M1.nodes p).enabled) e1.size
      M1.arr e1.firstEntry e1.firstInvalidEntry kEdgeHashSeed
  let erec2 := { e1 with size := res.2.1 - e1.firstEntry, hash := res.2.2, enabled := !wasDisabled }
  let M2 := { M1 with arr := res.1, edges := Function.update M1.edges he erec2 }
  let invalid_pins_start := (M2.edges he).firstInvalidEntry
  let invalid_pins_end := (M2.edges (he + 1)).firstEntry
  let sortedSuffix := List.insertionSort (fun u v => ci v ≤ ci u)
      (seg M2.arr invalid_pins_start invalid_pins_end)
  { M2 with arr := writeSeq M2.arr invalid_pins_start sortedSuffix }

/-- Phase 3 worker over a hyperedge range. -/
def create_contraction_hierarchy (hashF : Nat → Nat) (ci : Nat → Int)
    (M : HGState) (a b : Nat) : HGState :=
  (rangeList a b).foldl (create_contraction_hierarchy_edge hashF ci) M

/-- Phase 3 over all hyperedges with the thread-pool range split. -/
def phase3 (hashF : Nat → Nat) (ci : Nat → Int) (M : HGState) (T : Nat) : HGState :=
  (threadRanges T M.numEdges).foldl
    (fun M r => create_contraction_hierarchy hashF ci M r.1 r.2) M

/-- The full merge: pre-phase aggregate recompute, Phase 1 community
writeback, Phase 2 contraction-index table, Phase 3 compaction and
reorder.  `T` is the thread-pool size; phases are sequentialised (each
phase's tasks write disjoint state, and phase barriers order the phases). -/
def mergeCommunityInducedSectionHypergraphs (hashF : Nat → Nat) (T : Nat)
    (M : HGState) (communities : List SubInput)
    (history : List ContractionMemento) : HGState :=
  let M0 := prePhase M communities
  let M1 := phase1 M0 communities
  let ci := contractionIndexTable history T
  phase3 hashF ci M1 T

/-- The compaction result of Phase 3 on one hyperedge (abbreviation used by
the lemmas about create_contraction_hierarchy_edge). -/
def compactRes (hashF : Nat → Nat) (M : HGState) (he : Nat) : (Nat → Nat) × Nat × Nat :=
  compactGo hashF (fun p => (M.nodes p).enabled) (M.edges he).size M.arr
    (M.edges he).firstEntry ((M.edges he).firstEntry + (M.edges he).size) kEdgeHashSeed

/-! ### Community extraction (extractCommunityInducedSectionHypergraph) -/

/-- Modelled from the spec: the freshly built hypergraph store handed to
extraction, seen through its accessors — nodes() and edges() iterate ids in
increasing order, pins(e) lists the active pins of edge e, communityID and
the node/edge weights are total maps.  All entities are enabled and every
pin range is fully active at this stage. -/
structure InputHG where
  n : Nat
  m : Nat
  pins : Nat → List Nat
  comm : Nat → Nat
  nodeW : Nat → Nat
  edgeW : Nat → Nat

/-- Well-formedness of the input: pins reference existing hypernodes, an
edge never repeats a pin, and edges outside the id range are empty. -/
def InputHG.wf (H : InputHG) : Prop :=
  (∀ e, e < H.m → (∀ p ∈ H.pins e, p < H.n) ∧ (H.pins e).Nodup) ∧
  (∀ e, H.m ≤ e → H.pins e = [])

/-- Modelled from the spec: incidentEdges(hn) of the hypergraph store —
the hyperedges containing hn, in increasing id order. -/
def incidentEdges (H : InputHG) (hn : Nat) : List Nat :=
  (List.range H.m).filter (fun e => hn ∈ H.pins e)

/-- State of the first extraction loop: the visited bitset (split in two,
the C++ code offsets edge ids by initialNumNodes in a single array), the
hypernode mapping under construction, and the two boundary counters. -/
structure ExtractState where
  visitedN : Nat → Bool
  visitedE : Nat → Bool
  hnList : List Nat
  numHnNot : Nat
  numPinsNot : Nat

def initExtractState : ExtractState :=
  ⟨fun _ => false, fun _ => false, [], 0, 0⟩

/-- One pin of a newly visited hyperedge: addHypernode on first sight
(push to the mapping, count foreign hypernodes), then addPin (count
foreign pins). -/
def addPinStep (H : InputHG) (c : Nat) (s : ExtractState) (p : Nat) : ExtractState :=
  let s1 := if s.visitedN p then s
    else { s with
             hnList := s.hnList ++ [p],
             visitedN := Function.update s.visitedN p true,
             numHnNot := s.numHnNot + (if H.comm p ≠ c then 1 else 0) }
  { s1 with numPinsNot := s1.numPinsNot + (if H.comm p ≠ c then 1 else 0) }

/-- Visit one incident hyperedge: on first visit, take in all its pins and
mark it visited. -/
def visitEdgeStep (H : InputHG) (c : Nat) (s : ExtractState) (e : Nat) : ExtractState :=
  if s.visitedE e then s
  else
    let s1 := (H.pins e).foldl (addPinStep H c) s
    { s1 with visitedE := Function.update s1.visitedE e true }

/-- One hypernode of the outer loop: only community members contribute. -/
def nodeStep (H : InputHG) (c : Nat) (s : ExtractState) (hn : Nat) : ExtractState :=
  if H.comm hn = c then (incidentEdges H hn).foldl (visitEdgeStep H c) s else s

/-- The first loop of extractCommunityInducedSectionHypergraph. -/
def extractPhaseOne (H : InputHG) (c : Nat) : ExtractState :=
  (List.range H.n).foldl (nodeStep H c) initExtractState

/-- The sparse per-hyperedge community accumulator: add `v` to the entry of
key `k`, appending a fresh entry when the key is new (SparseMap semantics,
insertion-ordered). -/
def bumpAssoc : List (Nat × Nat) → Nat → Nat → List (Nat × Nat)
  | [], k, v => [(k, v)]
  | kv :: rest, k, v =>
      if kv.1 = k then (kv.1, kv.2 + v) :: rest else kv :: bumpAssoc rest k v

/-- community_sizes_in_he after scanning the pins of one hyperedge:
per community, the accumulated node weight of its pins. -/
def commSizesOf (H : InputHG) (ps : List Nat) : List (Nat × Nat) :=
  ps.foldl (fun mp p => bumpAssoc mp (H.comm p) (H.nodeW p)) []

/-- incidence_array_start: the accumulated weight of every community with
id strictly below the target. -/
def startOf (mp : List (Nat × Nat)) (c : Nat) : Nat :=
  mp.foldl (fun a kv => if kv.1 < c then a + kv.2 else a) 0

/-- community_size: the accumulated weight of the target community itself
(assignment in the source loop; keys are unique in the map). -/
def sizeOfC (mp : List (Nat × Nat)) (c : Nat) : Nat :=
  mp.foldl (fun a kv => if kv.1 = c then kv.2 else a) 0

/-- One iteration of the second extraction loop for hyperedge `e`: when the
edge was visited, append its sub-hyperedge record (pin range, weight,
rolling hash over local pin ids), copy its pins (mapped to local ids) into
the sub-incidence array, and issue the CommunityHyperedge range from the
per-community weight accumulator.  The accumulator is (subEdges,
subIncidence, communityHyperedges). -/
def edgeBuildStep (H : InputHG) (c : Nat) (L : List Nat) (hashF : Nat → Nat)
    (visitedF : Nat → Bool)
    (acc : List Hyperedge × List Nat × List CommunityHyperedge) (e : Nat) :
    List Hyperedge × List Nat × List CommunityHyperedge :=
  if visitedF e then
    let lpins := (H.pins e).map (fun p => L.indexOf p)
    let newEdge : Hyperedge :=
      ⟨acc.2.1.length, (H.pins e).length, H.edgeW e, true,
        (lpins.map hashF).sum⟩
    let mp := commSizesOf H (H.pins e)
    let st := startOf mp c
    let cs := sizeOfC mp c
    (acc.1 ++ [newEdge], acc.2.1 ++ lpins, acc.2.2 ++ [⟨e, st, st + cs⟩])
  else acc

/-- The extraction output: the CommunitySubhypergraph record together with
the materialised internal structure of its sub-hypergraph. -/
structure ExtractResult where
  community_id : Nat
  num_hn_not_in_community : Nat
  num_pins_not_in_community : Nat
  hnList : List Nat
  heList : List CommunityHyperedge
  subEdges : List Hyperedge
  subInc : List Nat
  numNodes : Nat

/-- Embedding of extractCommunityInducedSectionHypergraph: the two loops,
the optional sort of the hypernode mapping, and the empty-community early
exit (no internal structure is built when no hypernode was collected). -/
def extractCommunityInducedSectionHypergraph (hashF : Nat → Nat) (H : InputHG)
    (c : Nat) (respect_order_of_hypernodes : Bool) : ExtractResult :=
  let s := extractPhaseOne H c
  let L := if respect_order_of_hypernodes then
      List.insertionSort (fun a b => a ≤ b) s.hnList
    else s.hnList
  if 0 < L.length then
    let built := (List.range H.m).foldl
      (edgeBuildStep H c L hashF s.visitedE) ([], [], [])
    ⟨c, s.numHnNot, s.numPinsNot, L, built.2.2, built.1, built.2.1, L.length⟩
  else
    ⟨c, s.numHnNot, s.numPinsNot, L, [], [], [], 0⟩

/-- Sub-hypergraph pin-range boundary with the sentinel at the edge count
(the position past the last pin). -/
def subFE (R : ExtractResult) (le : Nat) : Nat :=
  if le < R.subEdges.length then (R.subEdges.getD le ⟨0, 0, 0, true, 0⟩).firstEntry
  else R.subInc.length

/-- Local pin list of local hyperedge `le` of an extraction result. -/
def localPinsOfR (R : ExtractResult) (le : Nat) : List Nat :=
  (List.range (subFE R (le + 1) - subFE R le)).map
    (fun k => R.subInc.getD (subFE R le + k) 0)

/-- Modelled from the spec: setupInternalStructure (declared in the absent
hypergraph.h) builds the sub-hypergraph's hypernode records — weight and
community copied from the original hypergraph through the id mapping,
every node enabled, incident nets collected over the local hyperedges in
increasing id order — and the counters.  Together with the extraction
output this is the merge input for the community when zero contractions
were performed inside it. -/
def toSubInput (H : InputHG) (R : ExtractResult) : SubInput where
  community_id := R.community_id
  num_hn_not_in_community := R.num_hn_not_in_community
  num_pins_not_in_community := R.num_pins_not_in_community
  initialNumNodes := R.numNodes
  initialNumEdges := R.subEdges.length
  currentNumNodes := R.numNodes
  currentNumPins := R.subInc.length
  currentNumEdges := R.subEdges.length
  nodeW := fun lid => H.nodeW (R.hnList.getD lid 0)
  nodeEnabled := fun _ => true
  nodeNets := fun lid =>
    (List.range R.subEdges.length).filter (fun le => lid ∈ localPinsOfR R le)
  subComm := fun lid => H.comm (R.hnList.getD lid 0)
  edgeW := fun le => (R.subEdges.getD le ⟨0, 0, 0, true, 0⟩).weight
  edgeEnabled := fun le => (R.subEdges.getD le ⟨0, 0, 0, true, 0⟩).enabled
  subFirstEntry := fun le => subFE R le
  subArr := fun i => R.subInc.getD i 0
  hnMap := fun lid => R.hnList.getD lid 0
  heMap := fun le => R.heList.getD le ⟨0, 0, 0⟩

/-- Invariant of the first extraction loop: the visited-node bitset mirrors
membership in the hypernode mapping, the mapping is duplicate-free, and it
holds exactly the pins of the visited hyperedges. -/
def ExtInv (H : InputHG) (s : ExtractState) : Prop :=
  (∀ p, s.visitedN p = true ↔ p ∈ s.hnList) ∧
  s.hnList.Nodup ∧
  (∀ p, p ∈ s.hnList ↔ ∃ e, s.visitedE e = true ∧ p ∈ H.pins e)

/-- Node weight of the pins of community id strictly below c in one edge. -/
def weightBelow (H : InputHG) (c e : Nat) : Nat :=
  (((H.pins e).filter (fun p => H.comm p < c)).map H.nodeW).sum

/-- Node weight of the pins of community id exactly c in one edge. -/
def weightAt (H : InputHG) (c e : Nat) : Nat :=
  (((H.pins e).filter (fun p => H.comm p = c)).map H.nodeW).sum

/-! ### The round-trip pipeline (C3) -/

/-- firstEntry of edge e in the freshly built hypergraph store: the total
pin count of the preceding edges. -/
def feOf (H : InputHG) (e : Nat) : Nat :=
  ((List.range e).map (fun i => (H.pins i).length)).sum

/-- The flat incidence array of the freshly built hypergraph store. -/
def flatPins (H : InputHG) : List Nat :=
  ((List.range H.m).map H.pins).flatten

/-- Modelled from the spec: the hypergraph store built from the input — all
entities enabled, every edge's pin range fully active and packed
back-to-back in the flat incidence array. -/
def fromInput (H : InputHG) : HGState where
  numNodes := H.n
  numEdges := H.m
  nodes := fun hn => ⟨incidentEdges H hn, H.nodeW hn, true⟩
  edges := fun e => ⟨feOf H e, (H.pins e).length, H.edgeW e, true, 0⟩
  arr := fun i => (flatPins H).getD i 0
  comm := H.comm
  curNodes := H.n
  curPins := (flatPins H).length
  curEdges := H.m

/-- The distinct communities of the hypergraph, in some order. -/
def commsOf (H : InputHG) : List Nat :=
  ((List.range H.n).map H.comm).dedup

/-- The pins of edge e grouped by community in increasing community-id
order: the pin order that the merge's community-range assignment can
produce. -/
def bucketed (H : InputHG) (e : Nat) : List Nat :=
  (((((H.pins e).map H.comm).dedup).insertionSort (fun a b => a ≤ b)).map
    (fun c => (H.pins e).filter (fun p => H.comm p = c))).flatten

/-- The round trip: extract every community, perform zero contractions,
merge back with an empty contraction history. -/
def roundTrip (hashF : Nat → Nat) (T : Nat) (H : InputHG) (respect : Bool) : HGState :=
  mergeCommunityInducedSectionHypergraphs hashF T (fromInput H)
    ((commsOf H).map
      (fun c => toSubInput H (extractCommunityInducedSectionHypergraph hashF H c respect)))
    []

/-- The sub-hyperedge records of the second extraction loop as a pure
function of the starting pin index (characterisation helper). -/
def builtEdges (H : InputHG) (hashF : Nat → Nat) (L : List Nat) : Nat → List Nat → List Hyperedge
  | _, [] => []
  | base, e :: es =>
      ⟨base, (H.pins e).length, H.edgeW e, true,
        (((H.pins e).map (fun p => L.indexOf p)).map hashF).sum⟩
      :: builtEdges H hashF L (base + (H.pins e).length) es

/-- The hyperedges visited by the extraction of community c, in increasing
id order (the iteration order of the second extraction loop). -/
def vesOf (H : InputHG) (c : Nat) : List Nat :=
  (List.range H.m).filter (fun e => (extractPhaseOne H c).visitedE e)

/-- The hypernode mapping used by the second extraction loop (sorted when
the caller asks to respect the order of hypernodes). -/
def hnL (H : InputHG) (c : Nat) (respect : Bool) : List Nat :=
  if respect then List.insertionSort (fun a b => a ≤ b) (extractPhaseOne H c).hnList
  else (extractPhaseOne H c).hnList

/-- Total pin count of a list of hyperedges. -/
def sumLens (H : InputHG) (es : List Nat) : Nat :=
  (es.map (fun e => (H.pins e).length)).sum

/-- Number of pins of edge e whose community id is strictly below c. -/
def cntLt (H : InputHG) (c e : Nat) : Nat :=
  ((H.pins e).filter (fun p => H.comm p < c)).length

/-- Number of pins of edge e whose community id is exactly c. -/
def cntEq (H : InputHG) (c e : Nat) : Nat :=
  ((H.pins e).filter (fun p => H.comm p = c)).length

/-- The pins of edge e that belong to community c, in original order. -/
def contentOf (H : InputHG) (c e : Nat) : List Nat :=
  (H.pins e).filter (fun p => H.comm p = c)

/-- Invariant of the Phase 1 fold of one community's round-trip task:
edges and node weight/enable flags stay at their fresh-store values, every
marked local hyperedge's reserved slice holds the community's pins, and
every slot outside the marked slices still holds its value from the task's
start state M0. -/
def RTInv (H : InputHG) (c : Nat) (M0 : HGState) (P : HGState × (Nat → Bool)) : Prop :=
  P.1.edges = (fromInput H).edges ∧
  (∀ hn, (P.1.nodes hn).weight = H.nodeW hn ∧ (P.1.nodes hn).enabled = true) ∧
  P.1.numNodes = M0.numNodes ∧
  P.1.numEdges = M0.numEdges ∧
  (∀ le, P.2 le = true → le < (vesOf H c).length ∧
    (∀ k, k < cntEq H c ((vesOf H c).getD le 0) →
      P.1.arr (feOf H ((vesOf H c).getD le 0) + cntLt H c ((vesOf H c).getD le 0) + k)
        = (contentOf H c ((vesOf H c).getD le 0)).getD k 0)) ∧
  (∀ q, (∀ le, P.2 le = true →
      ¬ (feOf H ((vesOf H c).getD le 0) + cntLt H c ((vesOf H c).getD le 0) ≤ q ∧
         q < feOf H ((vesOf H c).getD le 0) + cntLt H c ((vesOf H c).getD le 0)
            + cntEq H c ((vesOf H c).getD le 0))) →
    P.1.arr q = M0.arr q)

/-! ### Concrete instances used by the counterexample and bug theorems -/

/-- Weighted instance refuting the round-trip claim: node 0 has weight 2, so
community 1's reserved range inside edge 0 starts at offset 2 and its
write-back overruns into edge 1's span. -/
def C3_H : InputHG where
  n := 3
  m := 2
  pins := fun e => if e = 0 then [0, 1, 2] else if e = 1 then [2] else []
  comm := fun hn => if hn = 0 then 0 else 1
  nodeW := fun hn => if hn = 0 then 2 else 1
  edgeW := fun _ => 1

/-- A single edge {0, 1} where node 0 (community 0) has weight 2 and node 1
(community 1) weight 1: the weight-based range assignment leaves the
active pin span. -/
def C2_H : InputHG where
  n := 2
  m := 1
  pins := fun e => if e = 0 then [0, 1] else []
  comm := fun p => p
  nodeW := fun p => if p = 0 then 2 else 1
  edgeW := fun _ => 1

/-- A single edge {0, 1} with unit node weights and one node per
community; used as the C2 witness instance. -/
def C2_W : InputHG where
  n := 2
  m := 1
  pins := fun e => if e = 0 then [0, 1] else []
  comm := fun p => p
  nodeW := fun _ => 1
  edgeW := fun _ => 1

/-- A single 4-pin hyperedge over nodes 0..3 with node 1 disabled, used to
exhibit the instability of the swap-to-back compaction. -/
def C4_M : HGState where
  numNodes := 4
  numEdges := 1
  nodes := fun p => ⟨[], 1, decide (p ≠ 1)⟩
  edges := fun i => if i = 0 then ⟨0, 4, 1, true, 0⟩ else ⟨4, 0, 0, true, 0⟩
  arr := fun i => i
  comm := fun _ => 0
  curNodes := 4
  curPins := 4
  curEdges := 1

/-- One 3-pin hyperedge with pins 1, 2, 3 where nodes 2 and 3 were
contracted away (disabled); used as the C5 witness instance. -/
def C5_M : HGState where
  numNodes := 4
  numEdges := 1
  nodes := fun p => ⟨[], 1, decide (p = 1)⟩
  edges := fun i => if i = 0 then ⟨0, 3, 1, true, 0⟩ else ⟨3, 0, 0, true, 0⟩
  arr := fun i => i + 1
  comm := fun _ => 0
  curNodes := 2
  curPins := 1
  curEdges := 1

/-- A two-node, two-edge hypergraph: node 0 (community 0) in edge 0, node 1
(community 1) in edge 1; edge 0 has weight 10, edge 1 weight 0. -/
def C1_M : HGState where
  numNodes := 2
  numEdges := 2
  nodes := fun _ => ⟨[], 1, true⟩
  edges := fun i =>
    if i = 0 then ⟨0, 1, 10, true, 0⟩
    else if i = 1 then ⟨1, 1, 0, true, 0⟩
    else ⟨2, 0, 0, true, 0⟩
  arr := fun i => if i = 0 then 0 else 1
  comm := fun i => if i = 0 then 0 else 1
  curNodes := 2
  curPins := 2
  curEdges := 2

/-- Community 1's coarsened sub-hypergraph for C1_M: one local node (the
original node 1), one local edge mapped to original edge 1, coarsened edge
weight 5. -/
def C1_sub : SubInput where
  community_id := 1
  num_hn_not_in_community := 0
  num_pins_not_in_community := 0
  initialNumNodes := 1
  initialNumEdges := 1
  currentNumNodes := 1
  currentNumPins := 1
  currentNumEdges := 1
  nodeW := fun _ => 1
  nodeEnabled := fun _ => true
  nodeNets := fun hn => if hn = 0 then [0] else []
  subComm := fun _ => 1
  edgeW := fun _ => 5
  edgeEnabled := fun _ => true
  subFirstEntry := fun le => le
  subArr := fun _ => 0
  hnMap := fun _ => 1
  heMap := fun _ => ⟨1, 0, 1⟩

theorem ivTail_length (weighted : Bool) :
    ∀ (els : List (List Nat)) (base : Nat), (ivTail weighted base els).length = els.length := by
  intro els
  induction els with
  | nil => intro b; rfl
  | cons t r ih => intro b; simp [ivTail, ih]

theorem getD_succ_tail (l : List Line) (i : Nat) (d : Line) :
    l.getD (i + 1) d = l.tail.getD i d := by
  cases l <;> simp [List.getD]

theorem getD_map_mk (els : List (List Nat)) (i : Nat) (h : i < els.length) :
    (els.map (fun t => (⟨false, t⟩ : Line))).getD i ⟨false, []⟩ = ⟨false, els.getD i []⟩ := by
  induction els generalizing i with
  | nil => simp at h
  | cons t r ih =>
      cases i with
      | zero => rfl
      | succ j =>
          simp only [List.map_cons, List.getD_cons_succ]
          exact ih j (by simpa using h)

/-- Characterisation of the hyperedge-reading loop of parseHypergraphFile. -/
theorem parse_fold_spec (weighted : Bool) :
    ∀ (els : List (List Nat)) (ls : List Line) (acc : List Nat × List Nat × List Nat),
    (∀ i, i < els.length → ls.getD i ⟨false, []⟩ = ⟨false, els.getD i []⟩) →
    (List.range els.length).foldl
        (fun a i => processEdgeLine weighted a (ls.getD i ⟨false, []⟩)) acc
      = (acc.1 ++ ivTail weighted acc.2.1.length els,
         acc.2.1 ++ evOf weighted els,
         acc.2.2 ++ ewOf weighted els) := by
  intro els
  induction els with
  | nil =>
      intro ls acc _
      simp [ivTail, evOf, ewOf]
  | cons t r ih =>
      intro ls acc hls
      have h0 : ls.getD 0 ⟨false, []⟩ = ⟨false, t⟩ := by
        simpa using hls 0 (by simp)
      have hstep :
          processEdgeLine weighted acc (ls.getD 0 ⟨false, []⟩)
            = (acc.1 ++ [acc.2.1.length + (pinsOfLine weighted t).length],
               acc.2.1 ++ pinsOfLine weighted t,
               acc.2.2 ++ (if weighted then [t.headD 0] else [])) := by
        rw [h0]
        cases weighted <;> simp [processEdgeLine, intToks, pinsOfLine]
      have htail : ∀ i, i < r.length → ls.tail.getD i ⟨false, []⟩ = ⟨false, r.getD i []⟩ := by
        intro i hi
        have := hls (i + 1) (by simpa using Nat.succ_lt_succ hi)
        rwa [getD_succ_tail] at this
      have step1 :
          (List.range (t :: r).length).foldl
              (fun a i => processEdgeLine weighted a (ls.getD i ⟨false, []⟩)) acc
            = (List.range r.length).foldl
                (fun a i => processEdgeLine weighted a (ls.tail.getD i ⟨false, []⟩))
                (processEdgeLine weighted acc (ls.getD 0 ⟨false, []⟩)) := by
        simp only [List.length_cons, List.range_succ_eq_map, List.foldl_cons,
          List.foldl_map]
        congr 1
        funext a i
        rw [getD_succ_tail]
      rw [step1, hstep, ih ls.tail _ htail]
      cases weighted <;>
        simp [ivTail, evOf, ewOf, List.append_assoc, Nat.add_assoc]

theorem ivTail_getD (weighted : Bool) :
    ∀ (els : List (List Nat)) (b i : Nat), i < els.length →
    (ivTail weighted b els).getD i 0 = b + (evOf weighted (els.take (i + 1))).length := by
  intro els
  induction els with
  | nil => intro b i hi; simp at hi
  | cons t r ih =>
      intro b i hi
      cases i with
      | zero => simp [ivTail, evOf]
      | succ j =>
          simp only [ivTail, List.getD_cons_succ]
          rw [ih _ j (by simpa using hi)]
          simp [evOf, Nat.add_assoc]

theorem parseHGRHeader_cons (ts : List Nat) (rest : List Line) :
    parseHGRHeader (⟨false, ts⟩ :: rest) = ((ts.getD 0 0, ts.getD 1 0, ts.getD 2 0), rest) := by
  simp [parseHGRHeader, List.dropWhile]

theorem map_range_getD : ∀ L : List Nat, (List.range L.length).map (fun i => L.getD i 0) = L := by
  intro L
  induction L with
  | nil => rfl
  | cons x xs ih =>
      rw [List.length_cons, List.range_succ_eq_map, List.map_cons, List.map_map]
      simp only [List.getD_cons_zero, Function.comp_def, List.getD_cons_succ]
      rw [ih]

theorem getD_map_wline (ws : List Nat) (i : Nat) (h : i < ws.length) :
    (ws.map (fun w => (⟨false, [w]⟩ : Line))).getD i ⟨false, []⟩ = ⟨false, [ws.getD i 0]⟩ := by
  induction ws generalizing i with
  | nil => simp at h
  | cons x xs ih =>
      cases i with
      | zero => rfl
      | succ j =>
          simp only [List.map_cons, List.getD_cons_succ]
          exact ih j (by simpa using h)

theorem iv_getD (w : Bool) (els : List (List Nat)) (i : Nat) (h : i ≤ els.length) :
    ((0 : Nat) :: ivTail w 0 els).getD i 0 = (evOf w (els.take i)).length := by
  cases i with
  | zero => simp [evOf]
  | succ j =>
      simp only [List.getD_cons_succ]
      rw [ivTail_getD w els 0 j (Nat.lt_of_succ_le h)]
      exact Nat.zero_add _

theorem flatten_take_succ (L : List (List Nat)) (i : Nat) (h : i < L.length) :
    (L.take (i + 1)).flatten = (L.take i).flatten ++ L.getD i [] := by
  have h2 : L.take (i + 1) = L.take i ++ [L[i]] := by
    rw [List.take_succ, List.getElem?_eq_getElem h]
    rfl
  rw [List.getD_eq_getElem _ _ h, h2, List.flatten_append]
  simp

theorem flatten_split (L : List (List Nat)) (i : Nat) (h : i < L.length) :
    L.flatten = (L.take i).flatten ++ (L.getD i [] ++ (L.drop (i + 1)).flatten) := by
  have h2 : L = L.take i ++ (L[i] :: L.drop (i + 1)) := by
    conv_lhs => rw [← List.take_append_drop i L, List.drop_eq_getElem_cons h]
  rw [List.getD_eq_getElem _ _ h]
  conv_lhs => rw [h2, List.flatten_append, List.flatten_cons]

theorem getD_map_pins (w : Bool) (els : List (List Nat)) (i : Nat) (h : i < els.length) :
    (els.map (pinsOfLine w)).getD i [] = pinsOfLine w (els.getD i []) := by
  rw [List.getD_eq_getElem _ _ (by simpa using h), List.getElem_map,
    List.getD_eq_getElem _ _ h]

theorem evOf_take_succ (w : Bool) (els : List (List Nat)) (i : Nat) (h : i < els.length) :
    evOf w (els.take (i + 1)) = evOf w (els.take i) ++ pinsOfLine w (els.getD i []) := by
  simp only [evOf, List.map_take]
  rw [flatten_take_succ _ i (by simpa using h), getD_map_pins w els i h]

theorem evOf_split (w : Bool) (els : List (List Nat)) (i : Nat) (h : i < els.length) :
    evOf w els
      = evOf w (els.take i) ++ (pinsOfLine w (els.getD i []) ++ evOf w (els.drop (i + 1))) := by
  simp only [evOf, List.map_take, List.map_drop]
  rw [← getD_map_pins w els i h]
  exact flatten_split _ i (by simpa using h)

/-- Claim C9: on a well-formed input, parseHypergraphFile converts 1-based
pin ids to 0-based by decrementing each stored pin, reads a per-edge weight
before the pins exactly for format flags 1 and 11, reads trailing per-node
weights exactly for flags 10 and 11, and produces an index vector with
num_hyperedges + 1 entries delimiting each edge's pins inside the edge
vector. -/
theorem C9_parseHypergraphFile (numHE numHN flag : Nat)
    (eLines : List (List Nat)) (nWks : List Nat)
    (hflag : flag = 0 ∨ flag = 1 ∨ flag = 10 ∨ flag = 11)
    (hlen : eLines.length = numHE)
    (hnw : nWks.length = numHN)
    (hwt : (flag = 1 ∨ flag = 11) → ∀ t ∈ eLines, t ≠ [])
    (hpins : ∀ t ∈ eLines, ∀ p ∈ (if flag = 1 ∨ flag = 11 then t.tail else t), 1 ≤ p) :
    (parseHypergraphFile (mkLines numHE numHN flag eLines nWks)).num_hyperedges = numHE ∧
    (parseHypergraphFile (mkLines numHE numHN flag eLines nWks)).num_hypernodes = numHN ∧
    (parseHypergraphFile (mkLines numHE numHN flag eLines nWks)).edge_vector
      = evOf (decide (flag = 1 ∨ flag = 11)) eLines ∧
    (parseHypergraphFile (mkLines numHE numHN flag eLines nWks)).hyperedge_weights
      = ewOf (decide (flag = 1 ∨ flag = 11)) eLines ∧
    (parseHypergraphFile (mkLines numHE numHN flag eLines nWks)).hypernode_weights
      = (if flag = 10 ∨ flag = 11 then nWks else []) ∧
    (parseHypergraphFile (mkLines numHE numHN flag eLines nWks)).index_vector.length
      = numHE + 1 ∧
    (∀ i, i < numHE →
      (((parseHypergraphFile (mkLines numHE numHN flag eLines nWks)).edge_vector.drop
          ((parseHypergraphFile (mkLines numHE numHN flag eLines nWks)).index_vector.getD i 0)).take
        ((parseHypergraphFile (mkLines numHE numHN flag eLines nWks)).index_vector.getD (i+1) 0
          - (parseHypergraphFile (mkLines numHE numHN flag eLines nWks)).index_vector.getD i 0))
        = pinsOfLine (decide (flag = 1 ∨ flag = 11)) (eLines.getD i [])) := by
  have hdr :
      parseHGRHeader (mkLines numHE numHN flag eLines nWks)
        = ((numHE, numHN, flag),
           eLines.map (fun t => (⟨false, t⟩ : Line)) ++
             (if flag = 10 ∨ flag = 11 then nWks.map (fun w => (⟨false, [w]⟩ : Line)) else [])) := by
    rw [mkLines, parseHGRHeader_cons]; rfl
  have hbody : ∀ i, i < eLines.length →
      (eLines.map (fun t => (⟨false, t⟩ : Line)) ++
        (if flag = 10 ∨ flag = 11 then nWks.map (fun w => (⟨false, [w]⟩ : Line)) else [])).getD
          i ⟨false, []⟩
        = ⟨false, eLines.getD i []⟩ := by
    intro i hi
    rw [List.getD_append _ _ _ _ (by simpa using hi)]
    exact getD_map_mk eLines i hi
  have hfold := parse_fold_spec (decide (flag = 1 ∨ flag = 11)) eLines
    (eLines.map (fun t => (⟨false, t⟩ : Line)) ++
      (if flag = 10 ∨ flag = 11 then nWks.map (fun w => (⟨false, [w]⟩ : Line)) else []))
    ([0], [], []) hbody
  have hres :
      parseHypergraphFile (mkLines numHE numHN flag eLines nWks)
        = ⟨numHN, numHE,
           (0 : Nat) :: ivTail (decide (flag = 1 ∨ flag = 11)) 0 eLines,
           evOf (decide (flag = 1 ∨ flag = 11)) eLines,
           ewOf (decide (flag = 1 ∨ flag = 11)) eLines,
           if flag = 10 ∨ flag = 11 then
             (List.range numHN).map
               (fun i =>
                 (intToks (((eLines.map (fun t => (⟨false, t⟩ : Line)) ++
                   (if flag = 10 ∨ flag = 11 then
                     nWks.map (fun w => (⟨false, [w]⟩ : Line)) else []))).getD
                       (numHE + i) ⟨false, []⟩)).headD 0)
           else []⟩ := by
    rw [parseHypergraphFile, hdr]
    simp only []
    rw [hlen] at hfold
    rw [hfold]
    rfl
  rw [hres]
  refine ⟨rfl, rfl, rfl, rfl, ?_, ?_, ?_⟩
  · by_cases hw : flag = 10 ∨ flag = 11
    · simp only [if_pos hw]
      have hmap : ∀ i ∈ List.range numHN,
          (intToks ((eLines.map (fun t => (⟨false, t⟩ : Line)) ++
            nWks.map (fun w => (⟨false, [w]⟩ : Line))).getD
                (numHE + i) ⟨false, []⟩)).headD 0
            = nWks.getD i 0 := by
        intro i hi
        have hi' : i < numHN := List.mem_range.mp hi
        rw [List.getD_append_right _ _ _ _
          (by rw [List.length_map, hlen]; exact Nat.le_add_right _ _)]
        rw [List.length_map, hlen, Nat.add_sub_cancel_left]
        rw [getD_map_wline nWks i (by rw [hnw]; exact hi')]
        rfl
      rw [List.map_congr_left hmap, ← hnw, map_range_getD]
    · simp [if_neg hw]
  · simp [ivTail_length, hlen]
  · intro i hi
    have hi' : i < eLines.length := by rw [hlen]; exact hi
    have h1 : ((0 : Nat) :: ivTail (decide (flag = 1 ∨ flag = 11)) 0 eLines).getD i 0
        = (evOf (decide (flag = 1 ∨ flag = 11)) (eLines.take i)).length :=
      iv_getD _ _ _ (Nat.le_of_lt hi')
    have h2 : ((0 : Nat) :: ivTail (decide (flag = 1 ∨ flag = 11)) 0 eLines).getD (i+1) 0
        = (evOf (decide (flag = 1 ∨ flag = 11)) (eLines.take (i+1))).length :=
      iv_getD _ _ _ hi'
    rw [h1, h2, evOf_take_succ _ _ _ hi', evOf_split _ eLines i hi']
    rw [List.length_append, Nat.add_sub_cancel_left, List.drop_left, List.take_left]

/-- Claim C10: parseHGRHeader skips every leading comment line and parses
the header from the first line not beginning with the comment character;
a comment line between hyperedge lines is not skipped but consumed as a
(pin-less) hyperedge line, so comments are tolerated only before the
header. -/
theorem C10_parseHGRHeader_comments :
    (∀ (cs rest : List Line), (∀ l ∈ cs, l.isComment = true) →
        parseHGRHeader (cs ++ rest) = parseHGRHeader rest) ∧
    (parseHypergraphFile
        (⟨false, [2, 3, 0]⟩ :: [(⟨false, [1, 2]⟩ : Line), ⟨true, [1, 2]⟩,
          ⟨false, [2, 3]⟩])).edge_vector = [0, 1] ∧
    (parseHypergraphFile
        (⟨false, [2, 3, 0]⟩ :: [(⟨false, [1, 2]⟩ : Line),
          ⟨false, [2, 3]⟩])).edge_vector = [0, 1, 1, 2] := by
  refine ⟨?_, by decide, by decide⟩
  intro cs rest hcs
  unfold parseHGRHeader
  have : (cs ++ rest).dropWhile (fun l => l.isComment) = rest.dropWhile (fun l => l.isComment) := by
    induction cs with
    | nil => rfl
    | cons c cs ih =>
        have h1 : c.isComment = true := hcs c (List.mem_cons_self c cs)
        simp only [List.cons_append, List.dropWhile_cons, h1, if_true]
        exact ih (fun l hl => hcs l (List.mem_cons_of_mem _ hl))
  rw [this]

/-- Witness for C9 at a concrete weighted file: 2 edges, 3 nodes, flag 11. -/
theorem C9_parseHypergraphFile_witness :
    ((0 : Nat) = 11 ∨ (11 : Nat) = 1 ∨ (11 : Nat) = 10 ∨ (11 : Nat) = 11) ∧
    (parseHypergraphFile (mkLines 2 3 11 [[7, 1, 2], [4, 2, 3]] [5, 6, 9])).edge_vector
      = evOf (decide ((11 : Nat) = 1 ∨ (11 : Nat) = 11)) [[7, 1, 2], [4, 2, 3]] := by
  have h := C9_parseHypergraphFile 2 3 11 [[7, 1, 2], [4, 2, 3]] [5, 6, 9]
    (by decide) (by decide) (by decide) (by decide) (by decide)
  exact ⟨Or.inr (Or.inr (Or.inr rfl)), h.2.2.1⟩

/-- Witness for C10: the comment-skipping clause applied to one comment line. -/
theorem C10_parseHGRHeader_comments_witness :
    parseHGRHeader ([(⟨true, [9]⟩ : Line)] ++ [⟨false, [1, 1, 0]⟩])
      = parseHGRHeader [⟨false, [1, 1, 0]⟩] :=
  C10_parseHGRHeader_comments.1 [⟨true, [9]⟩] [⟨false, [1, 1, 0]⟩] (by decide)

/-! ### Pre-phase aggregates (C8) -/

theorem prePhase_fold (communities : List SubInput) :
    ∀ M : HGState,
      (communities.foldl prePhaseStep M).curNodes
          = M.curNodes + (communities.map
              (fun s => s.currentNumNodes - s.num_hn_not_in_community)).sum ∧
      (communities.foldl prePhaseStep M).curPins
          = M.curPins + (communities.map
              (fun s => s.currentNumPins - s.num_pins_not_in_community)).sum ∧
      (communities.foldl prePhaseStep M).curEdges
          = M.curEdges - (communities.map
              (fun s => s.initialNumEdges - s.currentNumEdges)).sum := by
  induction communities with
  | nil => intro M; simp
  | cons s rest ih =>
      intro M
      obtain ⟨h1, h2, h3⟩ := ih (prePhaseStep M s)
      refine ⟨?_, ?_, ?_⟩
      · rw [List.foldl_cons, h1]; simp [prePhaseStep, Nat.add_assoc]
      · rw [List.foldl_cons, h2]; simp [prePhaseStep, Nat.add_assoc]
      · rw [List.foldl_cons, h3]; simp [prePhaseStep, Nat.sub_sub]

/-- Claim C8: after the single-threaded pre-phase, the current node count is
the sum over communities of (currentNumNodes - num_hn_not_in_community), the
current pin count the sum of (currentNumPins - num_pins_not_in_community),
and the current edge count the previous value minus the number of edges
disabled during each community's coarsening. -/
theorem C8_prePhase_aggregates (M : HGState) (communities : List SubInput) :
    (prePhase M communities).curNodes
        = (communities.map (fun s => s.currentNumNodes - s.num_hn_not_in_community)).sum ∧
    (prePhase M communities).curPins
        = (communities.map (fun s => s.currentNumPins - s.num_pins_not_in_community)).sum ∧
    (prePhase M communities).curEdges
        = M.curEdges - (communities.map (fun s => s.initialNumEdges - s.currentNumEdges)).sum := by
  obtain ⟨h1, h2, h3⟩ := prePhase_fold communities { M with curNodes := 0, curPins := 0 }
  exact ⟨by simpa using h1, by simpa using h2, by simpa using h3⟩

/-! ### Thread-range split and the contraction-index table (C6) -/

theorem rangeList_append (a b c : Nat) (hab : a ≤ b) (hbc : b ≤ c) :
    rangeList a b ++ rangeList b c = rangeList a c := by
  unfold rangeList
  have h := List.range'_append a (b - a) (c - b) 1
  have h2 : a + 1 * (b - a) = b := by omega
  rw [h2] at h
  have h3 : c - a = (c - b) + (b - a) := by omega
  rw [h3]
  exact h

theorem rangeList_nil (a b : Nat) (h : b ≤ a) : rangeList a b = [] := by
  unfold rangeList
  have : b - a = 0 := by omega
  simp [this]

theorem rangeList_zero (n : Nat) : rangeList 0 n = List.range n := by
  unfold rangeList
  rw [List.range_eq_range']
  simp

/-- The concatenation of the split ranges is the full range. -/
theorem threadRanges_flatten (T n : Nat) :
    ((threadRanges T n).map (fun r => rangeList r.1 r.2)).flatten = rangeList 0 n := by
  unfold threadRanges
  by_cases h : 1 ≤ n / T ∧ T ≠ 1
  · simp only [if_pos h]
    obtain ⟨hstep, hT1⟩ := h
    have hT : 1 ≤ T := by
      by_contra hT0
      have : T = 0 := by omega
      rw [this] at hstep; simp at hstep
    set step := n / T with hstepdef
    have hTstep : T * step ≤ n := by
      have hd := Nat.div_mul_le_self n T
      calc T * step = step * T := Nat.mul_comm _ _
        _ = n / T * T := by rw [hstepdef]
        _ ≤ n := hd
    -- main: flatten over range T with last range ending at n
    have key : ∀ m : Nat, m ≥ 1 → m ≤ T →
        (((List.range m).map
            (fun i => (i * step, if i = T - 1 then n else (i + 1) * step))).map
          (fun r => rangeList r.1 r.2)).flatten
          = rangeList 0 (if m - 1 = T - 1 then n else m * step) := by
      intro m hm1
      induction m with
      | zero => omega
      | succ k ihk =>
          intro hmT
          rw [List.range_succ, List.map_append, List.map_append, List.flatten_append]
          rcases Nat.eq_zero_or_pos k with hk0 | hkpos
          · subst hk0
            simp [rangeList_nil]
          · rw [ihk hkpos (Nat.le_of_succ_le hmT)]
            have hkne : ¬ (k - 1 = T - 1) := by omega
            rw [if_neg hkne]
            simp only [List.map_cons, List.map_nil, List.flatten_cons, List.flatten_nil,
              List.append_nil, Nat.add_sub_cancel]
            by_cases hlast : k = T - 1
            · rw [if_pos hlast]
              refine rangeList_append 0 (k * step) n (Nat.zero_le _) ?_
              calc k * step ≤ (T - 1) * step := by
                    exact Nat.mul_le_mul_right _ (by omega)
                _ ≤ T * step := Nat.mul_le_mul_right _ (by omega)
                _ ≤ n := hTstep
            · rw [if_neg hlast]
              refine rangeList_append 0 (k * step) ((k + 1) * step) (Nat.zero_le _) ?_
              exact Nat.mul_le_mul_right _ (by omega)
    have := key T hT (le_refl T)
    rw [this]
    simp
  · simp [if_neg h, rangeList]

/-- Folding a function over the split ranges equals folding it over the
whole index range. -/
theorem threadRanges_foldl {α : Type} (f : α → Nat → α) (T n : Nat) (init : α) :
    (threadRanges T n).foldl (fun a r => (rangeList r.1 r.2).foldl f a) init
      = (List.range n).foldl f init := by
  have h1 : (threadRanges T n).foldl (fun a r => (rangeList r.1 r.2).foldl f a) init
      = (((threadRanges T n).map (fun r => rangeList r.1 r.2)).flatten).foldl f init := by
    rw [List.foldl_flatten, List.foldl_map]
  rw [h1, threadRanges_flatten, rangeList_zero]

theorem fold_update_other (history : List ContractionMemento) (idxs : List Nat)
    (t : Nat → Int) (x : Nat)
    (hx : ∀ i ∈ idxs, (history.getD i ⟨0, 0⟩).v ≠ x) :
    (idxs.foldl (fun t i => Function.update t (history.getD i ⟨0, 0⟩).v (Int.ofNat i)) t) x
      = t x := by
  induction idxs generalizing t with
  | nil => rfl
  | cons i rest ih =>
      rw [List.foldl_cons, ih _ (fun j hj => hx j (List.mem_cons_of_mem _ hj))]
      exact Function.update_noteq (Ne.symm (hx i (List.mem_cons_self i rest))) _ _

theorem fold_update_hit (history : List ContractionMemento) (idxs : List Nat)
    (t : Nat → Int)
    (hnd : (idxs.map (fun i => (history.getD i ⟨0, 0⟩).v)).Nodup) :
    ∀ i ∈ idxs,
      (idxs.foldl (fun t i => Function.update t (history.getD i ⟨0, 0⟩).v (Int.ofNat i)) t)
          ((history.getD i ⟨0, 0⟩).v)
        = Int.ofNat i := by
  induction idxs generalizing t with
  | nil => intro i hi; simp at hi
  | cons j rest ih =>
      intro i hi
      rw [List.map_cons, List.nodup_cons] at hnd
      rcases List.mem_cons.mp hi with rfl | hrest
      · rw [List.foldl_cons]
        have hother : ∀ k ∈ rest,
            (history.getD k ⟨0, 0⟩).v ≠ (history.getD i ⟨0, 0⟩).v := by
          intro k hk heq
          exact hnd.1
            (heq ▸ List.mem_map_of_mem (fun j => (history.getD j ⟨0, 0⟩).v) hk)
        rw [fold_update_other history rest _ _ hother]
        exact Function.update_same _ _ _
      · rw [List.foldl_cons]
        exact ih _ hnd.2 i hrest

theorem map_range_getD_poly {α : Type} (d : α) :
    ∀ L : List α, (List.range L.length).map (fun i => L.getD i d) = L := by
  intro L
  induction L with
  | nil => rfl
  | cons x xs ih =>
      rw [List.length_cons, List.range_succ_eq_map, List.map_cons, List.map_map]
      simp only [List.getD_cons_zero, Function.comp_def, List.getD_cons_succ]
      rw [ih]

theorem contractionIndexTable_eq_seq (history : List ContractionMemento) (T : Nat) :
    contractionIndexTable history T
      = (List.range history.length).foldl
          (fun t i => Function.update t (history.getD i ⟨0, 0⟩).v (Int.ofNat i))
          (fun _ => (-1 : Int)) := by
  unfold contractionIndexTable construct_contraction_index
  exact threadRanges_foldl _ T history.length _

theorem range_map_getD_v (history : List ContractionMemento) :
    (List.range history.length).map (fun i => (history.getD i ⟨0, 0⟩).v)
      = history.map (fun m => m.v) := by
  have h1 : (List.range history.length).map (fun i => history.getD i ⟨0, 0⟩) = history :=
    map_range_getD_poly ⟨0, 0⟩ history
  calc (List.range history.length).map (fun i => (history.getD i ⟨0, 0⟩).v)
      = ((List.range history.length).map (fun i => history.getD i ⟨0, 0⟩)).map
          (fun m => m.v) := by rw [List.map_map]; rfl
    _ = history.map (fun m => m.v) := by rw [h1]

/-- The contraction-index table maps the absorbed hypernode of the memento
at position i to exactly i. -/
theorem contractionIndexTable_get (history : List ContractionMemento) (T : Nat)
    (hnd : (history.map (fun m => m.v)).Nodup)
    (i : Nat) (hi : i < history.length) :
    contractionIndexTable history T ((history.get ⟨i, hi⟩).v) = Int.ofNat i := by
  have htab := contractionIndexTable_eq_seq history T
  have hnd' : ((List.range history.length).map
      (fun i => (history.getD i ⟨0, 0⟩).v)).Nodup := by
    rw [range_map_getD_v]; exact hnd
  rw [htab]
  have hmem : i ∈ List.range history.length := List.mem_range.mpr hi
  have h := fold_update_hit history (List.range history.length)
    (fun _ => (-1 : Int)) hnd' i hmem
  have hge : history.getD i ⟨0, 0⟩ = history.get ⟨i, hi⟩ := List.getD_eq_get _ _ hi
  rwa [hge] at h

theorem contractionIndexTable_unset (history : List ContractionMemento) (T : Nat)
    (hn : Nat) (hhn : hn ∉ history.map (fun m => m.v)) :
    contractionIndexTable history T hn = -1 := by
  rw [contractionIndexTable_eq_seq history T]
  refine fold_update_other history _ _ _ ?_
  intro i hirange heq
  refine hhn ?_
  rw [← range_map_getD_v history, ← heq]
  exact List.mem_map_of_mem _ hirange

theorem history_get_inj (history : List ContractionMemento)
    (hnd : (history.map (fun m => m.v)).Nodup)
    (i j : Nat) (hi : i < history.length) (hj : j < history.length)
    (heq : (history.get ⟨i, hi⟩).v = (history.get ⟨j, hj⟩).v) : i = j := by
  have hi' : i < (history.map (fun m => m.v)).length := by simpa using hi
  have hj' : j < (history.map (fun m => m.v)).length := by simpa using hj
  have hg : (history.map (fun m => m.v)).get ⟨i, hi'⟩
      = (history.map (fun m => m.v)).get ⟨j, hj'⟩ := by
    simp only [List.get_eq_getElem, List.getElem_map]
    simpa [List.get_eq_getElem] using heq
  have hfin := hnd.get_inj_iff.mp hg
  simpa using congrArg Fin.val hfin

/-- The contraction-index table separates distinct hypernodes that both
occur in the history. -/
theorem contractionIndexTable_inj (history : List ContractionMemento) (T : Nat)
    (hnd : (history.map (fun m => m.v)).Nodup)
    (p q : Nat) (hp : p ∈ history.map (fun m => m.v))
    (hq : q ∈ history.map (fun m => m.v)) (hne : p ≠ q) :
    contractionIndexTable history T p ≠ contractionIndexTable history T q := by
  obtain ⟨mp, hmp, hmpv⟩ := List.mem_map.mp hp
  obtain ⟨mq, hmq, hmqv⟩ := List.mem_map.mp hq
  obtain ⟨⟨i, hi⟩, hgi⟩ := List.mem_iff_get.mp hmp
  obtain ⟨⟨j, hj⟩, hgj⟩ := List.mem_iff_get.mp hmq
  have hvp : (history.get ⟨i, hi⟩).v = p := by rw [hgi, hmpv]
  have hvq : (history.get ⟨j, hj⟩).v = q := by rw [hgj, hmqv]
  intro habs
  rw [← hvp, ← hvq, contractionIndexTable_get history T hnd i hi,
    contractionIndexTable_get history T hnd j hj] at habs
  have hij : i = j := Int.ofNat.inj habs
  have hgg : history.get ⟨i, hi⟩ = history.get ⟨j, hj⟩ := by
    subst hij
    rfl
  exact hne (by rw [← hvp, ← hvq, hgg])

/-- Claim C6: after Phase 2, for a history without duplicated absorbed
hypernodes and any positive thread-pool size, the contraction-index table
maps the absorbed hypernode of the memento at position i to exactly i,
every hypernode outside the history keeps the unset value -1, and positions
with equal absorbed hypernodes coincide (bijection with [0, |history|)). -/
theorem C6_contraction_index (history : List ContractionMemento) (T : Nat)
    (hT : 1 ≤ T)
    (hnd : (history.map (fun m => m.v)).Nodup) :
    (∀ i, (hi : i < history.length) →
        contractionIndexTable history T ((history.get ⟨i, hi⟩).v) = Int.ofNat i) ∧
    (∀ hn, hn ∉ history.map (fun m => m.v) → contractionIndexTable history T hn = -1) ∧
    (∀ i j, (hi : i < history.length) → (hj : j < history.length) →
        (history.get ⟨i, hi⟩).v = (history.get ⟨j, hj⟩).v → i = j) :=
  ⟨fun i hi => contractionIndexTable_get history T hnd i hi,
   fun hn hhn => contractionIndexTable_unset history T hn hhn,
   fun i j hi hj heq => history_get_inj history hnd i j hi hj heq⟩

/-- Witness for C6 at a concrete two-entry history and pool size 2. -/
theorem C6_contraction_index_witness :
    (1 ≤ 2) ∧
    ((([⟨5, 2⟩, ⟨5, 3⟩] : List ContractionMemento)).map (fun m => m.v)).Nodup ∧
    contractionIndexTable [⟨5, 2⟩, ⟨5, 3⟩] 2 3 = Int.ofNat 1 := by
  refine ⟨by decide, by decide, ?_⟩
  exact (C6_contraction_index [⟨5, 2⟩, ⟨5, 3⟩] 2 (by decide) (by decide)).1 1 (by decide)

/-- Claim C1 (code bug): Phase 1's weight update is claimed to set the
original hyperedge's weight to the coarsened weight exactly when the
coarsened weight exceeds the original hyperedge's current weight.  In the
source the comparison reads the original hyperedge array at the local edge
id (hypergraph._hyperedges[he] instead of [original_he]).  Here community
1's local edge 0 is original edge 1; the coarsened weight 5 exceeds edge
1's weight 0, yet the merge leaves edge 1 at weight 0 because the guard
compared against edge 0's weight 10. -/
theorem C1_weight_update_misindexed :
    (C1_M.edges 1).weight = 0 ∧
    C1_sub.edgeW 0 = 5 ∧
    (C1_M.edges 0).weight = 10 ∧
    ((phase1Community C1_M C1_sub).edges 1).weight = 0 ∧
    ¬ ((phase1Community C1_M C1_sub).edges 1).weight = C1_sub.edgeW 0 := by
  refine ⟨rfl, rfl, rfl, by decide, by decide⟩

/-! ### Segment, write and swap lemmas (Phase 3) -/

theorem seg_eq_map_rangeList (arr : Nat → Nat) (a b : Nat) :
    seg arr a b = (rangeList a b).map arr := by
  unfold seg rangeList
  rw [List.range'_eq_map_range, List.map_map]
  rfl

theorem seg_nil (arr : Nat → Nat) (a b : Nat) (h : b ≤ a) : seg arr a b = [] := by
  unfold seg
  have hb : b - a = 0 := by omega
  simp [hb]

theorem seg_length (arr : Nat → Nat) (a b : Nat) : (seg arr a b).length = b - a := by
  simp [seg]

theorem seg_cons (arr : Nat → Nat) (a b : Nat) (h : a < b) :
    seg arr a b = arr a :: seg arr (a + 1) b := by
  unfold seg
  have hb : b - a = (b - (a + 1)) + 1 := by omega
  rw [hb, List.range_succ_eq_map, List.map_cons, List.map_map]
  refine congrArg₂ _ (by rw [Nat.add_zero]) ?_
  apply List.map_congr_left
  intro k _
  simp only [Function.comp_apply]
  congr 1
  omega

theorem seg_snoc (arr : Nat → Nat) (a b : Nat) (h : a < b) :
    seg arr a b = seg arr a (b - 1) ++ [arr (b - 1)] := by
  unfold seg
  have hb : b - a = (b - 1 - a) + 1 := by omega
  rw [hb, List.range_succ, List.map_append, List.map_cons, List.map_nil]
  refine congrArg₂ _ rfl ?_
  have : a + (b - 1 - a) = b - 1 := by omega
  rw [this]

theorem seg_congr (f g : Nat → Nat) (a b : Nat)
    (h : ∀ x, a ≤ x → x < b → f x = g x) : seg f a b = seg g a b := by
  unfold seg
  apply List.map_congr_left
  intro k hk
  exact h (a + k) (Nat.le_add_right _ _) (by have := List.mem_range.mp hk; omega)

theorem seg_append (arr : Nat → Nat) (a b c : Nat) (hab : a ≤ b) (hbc : b ≤ c) :
    seg arr a b ++ seg arr b c = seg arr a c := by
  rw [seg_eq_map_rangeList, seg_eq_map_rangeList, seg_eq_map_rangeList,
    ← List.map_append, rangeList_append a b c hab hbc]

theorem writeSeq_outside :
    ∀ (L : List Nat) (arr : Nat → Nat) (p x : Nat),
      (x < p ∨ p + L.length ≤ x) → writeSeq arr p L x = arr x := by
  intro L
  induction L with
  | nil => intro arr p x _; rfl
  | cons y ys ih =>
      intro arr p x hx
      rw [writeSeq, ih _ _ _ (by rcases hx with h | h; · omega
                                 · right; simp at h ⊢; omega)]
      exact Function.update_noteq (by rcases hx with h | h <;> simp at h ⊢ <;> omega) _ _

theorem seg_writeSeq :
    ∀ (L : List Nat) (arr : Nat → Nat) (p : Nat),
      seg (writeSeq arr p L) p (p + L.length) = L := by
  intro L
  induction L with
  | nil => intro arr p; exact seg_nil _ _ _ (Nat.le_of_eq (by simp))
  | cons y ys ih =>
      intro arr p
      rw [writeSeq]
      rw [seg_cons (writeSeq (Function.update arr p y) (p + 1) ys) p
        (p + (y :: ys).length) (by simp)]
      refine congrArg₂ _ ?_ ?_
      · rw [writeSeq_outside ys _ (p + 1) p (Or.inl (Nat.lt_succ_self p))]
        exact Function.update_same _ _ _
      · have harith : p + (y :: ys).length = (p + 1) + ys.length := by simp; omega
        rw [harith]
        exact ih _ _

theorem swapF_apply (arr : Nat → Nat) (i j x : Nat) :
    swapF arr i j x = if x = j then arr i else if x = i then arr j else arr x := by
  unfold swapF
  by_cases hj : x = j
  · rw [if_pos hj]
    subst hj
    rw [Function.update_same]
  · rw [if_neg hj, Function.update_noteq hj]
    by_cases hi : x = i
    · rw [if_pos hi]
      subst hi
      rw [Function.update_same]
    · rw [if_neg hi, Function.update_noteq hi]

theorem swapF_self (arr : Nat → Nat) (i : Nat) : swapF arr i i = arr := by
  funext x
  rw [swapF_apply]
  by_cases h : x = i <;> simp [h]

/-- Main characterisation of the Phase 3 compaction loop: bounds of the new
firstInvalidEntry, untouched cells outside [j, stop), and the kept/removed
segments as permutations of the enabled/disabled pins of the input
segment. -/
theorem compactGo_spec (hashF : Nat → Nat) (en : Nat → Bool) :
    ∀ (fuel : Nat) (arr : Nat → Nat) (j stop acc : Nat),
      j ≤ stop → stop - j ≤ fuel →
      (j ≤ (compactGo hashF en fuel arr j stop acc).2.1 ∧
        (compactGo hashF en fuel arr j stop acc).2.1 ≤ stop) ∧
      (∀ x, x < j ∨ stop ≤ x → (compactGo hashF en fuel arr j stop acc).1 x = arr x) ∧
      List.Perm
        (seg (compactGo hashF en fuel arr j stop acc).1 j
          (compactGo hashF en fuel arr j stop acc).2.1)
        ((seg arr j stop).filter (fun p => en p)) ∧
      List.Perm
        (seg (compactGo hashF en fuel arr j stop acc).1
          (compactGo hashF en fuel arr j stop acc).2.1 stop)
        ((seg arr j stop).filter (fun p => !en p)) := by
  intro fuel
  induction fuel with
  | zero =>
      intro arr j stop acc hji hfuel
      have hj : j = stop := by omega
      subst hj
      refine ⟨⟨?_, ?_⟩, ?_, ?_, ?_⟩
      · simp [compactGo]
      · simp [compactGo]
      · intro x hx
        simp [compactGo]
      · simp [compactGo, seg_nil]
      · simp [compactGo, seg_nil]
  | succ fuel ih =>
      intro arr j stop acc hji hfuel
      by_cases hjs : j < stop
      · by_cases hen : en (arr j) = true
        · -- enabled pin: keep it, advance j
          have hunf : compactGo hashF en (fuel + 1) arr j stop acc
              = compactGo hashF en fuel arr (j + 1) stop (acc + hashF (arr j)) := by
            rw [compactGo, if_pos hjs, if_pos hen]
          rw [hunf]
          obtain ⟨⟨hb1, hb2⟩, hout, hkeep, hrem⟩ :=
            ih arr (j + 1) stop (acc + hashF (arr j)) (by omega) (by omega)
          set R := compactGo hashF en fuel arr (j + 1) stop (acc + hashF (arr j)) with hR
          refine ⟨⟨by omega, hb2⟩, ?_, ?_, ?_⟩
          · intro x hx
            exact hout x (by omega)
          · rw [seg_cons R.1 j R.2.1 (by omega), hout j (by omega),
              seg_cons arr j stop hjs]
            simp only [List.filter_cons, hen]
            exact hkeep.cons (arr j)
          · rw [seg_cons arr j stop hjs]
            simp only [List.filter_cons, hen]
            simpa using hrem
        · -- disabled pin: swap to the back, shrink the active range
          have hen' : en (arr j) = false := by
            cases h : en (arr j)
            · rfl
            · exact absurd h hen
          have hunf : compactGo hashF en (fuel + 1) arr j stop acc
              = compactGo hashF en fuel (swapF arr j (stop - 1)) j (stop - 1) acc := by
            rw [compactGo, if_pos hjs, if_neg hen]
          rw [hunf]
          obtain ⟨⟨hb1, hb2⟩, hout, hkeep, hrem⟩ :=
            ih (swapF arr j (stop - 1)) j (stop - 1) acc (by omega) (by omega)
          set arr2 := swapF arr j (stop - 1) with harr2
          set R := compactGo hashF en fuel arr2 j (stop - 1) acc with hR
          by_cases hj1 : j < stop - 1
          · -- the swap brings a distinct last cell to position j
            have hswp : ∀ x, j + 1 ≤ x → x < stop - 1 → arr2 x = arr x := by
              intro x hx1 hx2
              rw [harr2, swapF_apply]
              rw [if_neg (by omega), if_neg (by omega)]
            have hseg2 : seg arr2 j (stop - 1)
                = arr (stop - 1) :: seg arr (j + 1) (stop - 1) := by
              rw [seg_cons arr2 j (stop - 1) hj1]
              refine congrArg₂ _ ?_ (seg_congr _ _ _ _ hswp)
              rw [harr2, swapF_apply, if_neg (by omega), if_pos rfl]
            have hsegarr : seg arr j stop
                = arr j :: (seg arr (j + 1) (stop - 1) ++ [arr (stop - 1)]) := by
              rw [seg_cons arr j stop hjs, seg_snoc arr (j + 1) stop (by omega)]
            have hperm2 : List.Perm (seg arr2 j (stop - 1))
                (seg arr (j + 1) (stop - 1) ++ [arr (stop - 1)]) := by
              rw [hseg2]
              exact (List.perm_append_singleton _ _).symm
            refine ⟨⟨hb1, by omega⟩, ?_, ?_, ?_⟩
            · intro x hx
              rw [hout x (by omega), harr2, swapF_apply,
                if_neg (by omega), if_neg (by omega)]
            · refine hkeep.trans ?_
              refine (hperm2.filter _).trans ?_
              rw [hsegarr]
              simp only [List.filter_cons, hen']
              exact List.Perm.refl _
            · -- removed side: the swapped-out arr j lands at stop - 1
              have hsplit : seg R.1 R.2.1 stop
                  = seg R.1 R.2.1 (stop - 1) ++ [R.1 (stop - 1)] := by
                rw [seg_snoc R.1 R.2.1 stop (by omega)]
              have hlast : R.1 (stop - 1) = arr j := by
                rw [hout (stop - 1) (by omega), harr2, swapF_apply, if_pos rfl]
              rw [hsplit, hlast, hsegarr]
              simp only [List.filter_cons, hen', Bool.not_false, List.filter_append]
              refine ((hrem.append (List.Perm.refl [arr j])).trans ?_)
              refine ((hperm2.filter _).append (List.Perm.refl [arr j])).trans ?_
              simp only [List.filter_append]
              refine List.Perm.trans (List.perm_append_singleton _ _) ?_
              refine List.Perm.cons _ ?_
              simp only [List.filter_cons, List.filter_nil]
              exact List.Perm.refl _
          · -- j = stop - 1: the singleton disabled pin case
            have hjeq : j = stop - 1 := by omega
            have harr2id : arr2 = arr := by rw [harr2, hjeq, swapF_self]
            have hR21 : R.2.1 = j := by omega
            refine ⟨⟨hb1, by omega⟩, ?_, ?_, ?_⟩
            · intro x hx
              rw [hout x (by omega), harr2id]
            · rw [seg_nil R.1 j R.2.1 (by omega),
                seg_cons arr j stop hjs, seg_nil arr (j + 1) stop (by omega)]
              simp [hen']
            · have hsegR : seg R.1 R.2.1 stop = seg arr j stop := by
                rw [hR21]
                refine seg_congr _ _ _ _ ?_
                intro x hx1 hx2
                rw [hout x ?_, harr2id]
                omega
              rw [hsegR, seg_cons arr j stop hjs, seg_nil arr (j + 1) stop (by omega)]
              simp [hen']
      · -- j = stop: loop exit
        have hj : j = stop := by omega
        subst hj
        have hunf : compactGo hashF en (fuel + 1) arr j j acc = (arr, j, acc) := by
          rw [compactGo, if_neg hjs]
        rw [hunf]
        refine ⟨⟨?_, ?_⟩, ?_, ?_, ?_⟩
        · simp
        · simp
        · intro x hx
          rfl
        · simp [seg_nil]
        · simp [seg_nil]

theorem cche_nodes (hashF : Nat → Nat) (ci : Nat → Int) (M : HGState) (he : Nat) :
    (create_contraction_hierarchy_edge hashF ci M he).nodes = M.nodes := rfl

theorem cche_edges (hashF : Nat → Nat) (ci : Nat → Int) (M : HGState) (he : Nat) :
    (create_contraction_hierarchy_edge hashF ci M he).edges
      = Function.update M.edges he
          { M.edges he with
              size := (compactRes hashF M he).2.1 - (M.edges he).firstEntry,
              hash := (compactRes hashF M he).2.2 } := by
  unfold create_contraction_hierarchy_edge compactRes
  simp only [Function.update_same, Function.update_idem, Bool.not_not]
  rfl

theorem cche_arr (hashF : Nat → Nat) (ci : Nat → Int) (M : HGState) (he : Nat) :
    (create_contraction_hierarchy_edge hashF ci M he).arr
      = writeSeq (compactRes hashF M he).1
          ((M.edges he).firstEntry
            + ((compactRes hashF M he).2.1 - (M.edges he).firstEntry))
          (List.insertionSort (fun u v => ci v ≤ ci u)
            (seg (compactRes hashF M he).1
              ((M.edges he).firstEntry
                + ((compactRes hashF M he).2.1 - (M.edges he).firstEntry))
              ((M.edges (he + 1)).firstEntry))) := by
  unfold create_contraction_hierarchy_edge compactRes Hyperedge.firstInvalidEntry
  simp only [Function.update_same, Function.update_idem, Bool.not_not,
    Function.update_noteq (Nat.succ_ne_self he)]

/-- Claim C4 (amended): Phase 3's in-place compaction leaves the active
range [firstEntry, firstInvalidEntry) of each hyperedge holding exactly
those previously-active pins whose hypernodes are enabled (as a multiset),
every pin kept there is enabled — but the relative order of the remaining
pins is, in general, not preserved (see the counterexample theorem). -/
theorem C4_compaction_exact (hashF : Nat → Nat) (ci : Nat → Int) (M : HGState) (he : Nat) :
    List.Perm
      (seg (create_contraction_hierarchy_edge hashF ci M he).arr
        (M.edges he).firstEntry
        (((create_contraction_hierarchy_edge hashF ci M he).edges he).firstInvalidEntry))
      ((seg M.arr (M.edges he).firstEntry
          ((M.edges he).firstInvalidEntry)).filter (fun p => (M.nodes p).enabled)) ∧
    (∀ p ∈ seg (create_contraction_hierarchy_edge hashF ci M he).arr
        (M.edges he).firstEntry
        (((create_contraction_hierarchy_edge hashF ci M he).edges he).firstInvalidEntry),
      (M.nodes p).enabled = true) := by
  obtain ⟨⟨hb1, hb2⟩, hout, hkeep, hrem⟩ :=
    compactGo_spec hashF (fun p => (M.nodes p).enabled) (M.edges he).size M.arr
      (M.edges he).firstEntry ((M.edges he).firstEntry + (M.edges he).size) kEdgeHashSeed
      (Nat.le_add_right _ _) (by omega)
  have hfi : ((create_contraction_hierarchy_edge hashF ci M he).edges he).firstInvalidEntry
      = (compactRes hashF M he).2.1 := by
    rw [cche_edges, Function.update_same, Hyperedge.firstInvalidEntry]
    show (M.edges he).firstEntry + ((compactRes hashF M he).2.1 - (M.edges he).firstEntry)
      = (compactRes hashF M he).2.1
    unfold compactRes
    omega
  have hpre : seg (create_contraction_hierarchy_edge hashF ci M he).arr
      (M.edges he).firstEntry ((compactRes hashF M he).2.1)
      = seg (compactRes hashF M he).1
          (M.edges he).firstEntry ((compactRes hashF M he).2.1) := by
    rw [cche_arr]
    refine seg_congr _ _ _ _ ?_
    intro x hx1 hx2
    refine writeSeq_outside _ _ _ _ (Or.inl ?_)
    unfold compactRes at hx2 ⊢
    omega
  have hmain : List.Perm
      (seg (create_contraction_hierarchy_edge hashF ci M he).arr
        (M.edges he).firstEntry
        (((create_contraction_hierarchy_edge hashF ci M he).edges he).firstInvalidEntry))
      ((seg M.arr (M.edges he).firstEntry
          ((M.edges he).firstInvalidEntry)).filter (fun p => (M.nodes p).enabled)) := by
    rw [hfi, hpre, Hyperedge.firstInvalidEntry]
    exact hkeep
  refine ⟨hmain, ?_⟩
  intro p hp
  have hp2 := hmain.mem_iff.mp hp
  exact (List.mem_filter.mp hp2).2

/-- Claim C4 (refuted as stated): the swap-to-back removal is not stable.
On the edge [0, 1, 2, 3] with node 1 disabled, compaction keeps exactly
the enabled pins but produces the prefix [0, 3, 2], not the
order-preserving [0, 2, 3]. -/
theorem C4_compaction_not_stable :
    (seg C4_M.arr 0 4).filter (fun p => (C4_M.nodes p).enabled) = [0, 2, 3] ∧
    ((create_contraction_hierarchy_edge (fun x => x) (fun _ => -1) C4_M 0).edges 0).firstInvalidEntry = 3 ∧
    seg (create_contraction_hierarchy_edge (fun x => x) (fun _ => -1) C4_M 0).arr 0 3
      = [0, 3, 2] ∧
    ([0, 3, 2] : List Nat) ≠ [0, 2, 3] := by
  refine ⟨by decide, by decide, by decide, by decide⟩

/-- When every pin of the range is enabled the compaction loop changes
nothing (used for the round-trip claim). -/
theorem compactGo_all_enabled (hashF : Nat → Nat) (en : Nat → Bool) :
    ∀ (fuel : Nat) (arr : Nat → Nat) (j stop acc : Nat),
      stop - j ≤ fuel → (∀ x, j ≤ x → x < stop → en (arr x) = true) →
      (compactGo hashF en fuel arr j stop acc).1 = arr ∧
      (compactGo hashF en fuel arr j stop acc).2.1 = stop := by
  intro fuel
  induction fuel with
  | zero =>
      intro arr j stop acc hf _
      exact ⟨rfl, rfl⟩
  | succ fuel ih =>
      intro arr j stop acc hf hen
      by_cases hjs : j < stop
      · have h1 : en (arr j) = true := hen j (le_refl j) hjs
        have hunf : compactGo hashF en (fuel + 1) arr j stop acc
            = compactGo hashF en fuel arr (j + 1) stop (acc + hashF (arr j)) := by
          rw [compactGo, if_pos hjs, if_pos h1]
        rw [hunf]
        exact ih arr (j + 1) stop _ (by omega) (fun x hx1 hx2 => hen x (by omega) hx2)
      · have hunf : compactGo hashF en (fuel + 1) arr j stop acc = (arr, stop, acc) := by
          rw [compactGo, if_neg hjs]
        rw [hunf]
        exact ⟨rfl, rfl⟩

theorem cche_firstInvalid (hashF : Nat → Nat) (ci : Nat → Int) (M : HGState) (he : Nat) :
    ((create_contraction_hierarchy_edge hashF ci M he).edges he).firstInvalidEntry
      = (compactRes hashF M he).2.1 := by
  obtain ⟨⟨hb1, _⟩, _, _, _⟩ :=
    compactGo_spec hashF (fun p => (M.nodes p).enabled) (M.edges he).size M.arr
      (M.edges he).firstEntry ((M.edges he).firstEntry + (M.edges he).size) kEdgeHashSeed
      (Nat.le_add_right _ _) (by omega)
  rw [cche_edges, Function.update_same, Hyperedge.firstInvalidEntry]
  show (M.edges he).firstEntry + ((compactRes hashF M he).2.1 - (M.edges he).firstEntry)
    = (compactRes hashF M he).2.1
  unfold compactRes
  omega

/-- The final remainder of a hyperedge after Phase 3 is exactly the sorted
remainder produced by the sort step. -/
theorem cche_suffix_sorted (hashF : Nat → Nat) (ci : Nat → Int) (M : HGState) (he : Nat)
    (hfe : (M.edges he).firstEntry + (M.edges he).size ≤ (M.edges (he + 1)).firstEntry) :
    seg (create_contraction_hierarchy_edge hashF ci M he).arr
      (((create_contraction_hierarchy_edge hashF ci M he).edges he).firstInvalidEntry)
      ((M.edges (he + 1)).firstEntry)
    = List.insertionSort (fun u v => ci v ≤ ci u)
        (seg (compactRes hashF M he).1 (compactRes hashF M he).2.1
          ((M.edges (he + 1)).firstEntry)) := by
  obtain ⟨⟨hb1, hb2⟩, _, _, _⟩ :=
    compactGo_spec hashF (fun p => (M.nodes p).enabled) (M.edges he).size M.arr
      (M.edges he).firstEntry ((M.edges he).firstEntry + (M.edges he).size) kEdgeHashSeed
      (Nat.le_add_right _ _) (by omega)
  have hdef : compactRes hashF M he
      = compactGo hashF (fun p => (M.nodes p).enabled) (M.edges he).size M.arr
          (M.edges he).firstEntry ((M.edges he).firstEntry + (M.edges he).size)
          kEdgeHashSeed := rfl
  rw [cche_firstInvalid, cche_arr, hdef]
  set R := compactGo hashF (fun p => (M.nodes p).enabled) (M.edges he).size M.arr
      (M.edges he).firstEntry ((M.edges he).firstEntry + (M.edges he).size)
      kEdgeHashSeed with hR
  have hcollapse : (M.edges he).firstEntry + (R.2.1 - (M.edges he).firstEntry) = R.2.1 := by
    omega
  rw [hcollapse]
  set L := List.insertionSort (fun u v => ci v ≤ ci u)
      (seg R.1 R.2.1 ((M.edges (he + 1)).firstEntry)) with hL
  have hlen : L.length = (M.edges (he + 1)).firstEntry - R.2.1 := by
    rw [hL, (List.perm_insertionSort _ _).length_eq, seg_length]
  have hws := seg_writeSeq L R.1 R.2.1
  rw [hlen] at hws
  have harith : R.2.1 + ((M.edges (he + 1)).firstEntry - R.2.1)
      = (M.edges (he + 1)).firstEntry := by omega
  rw [harith] at hws
  exact hws

/-- Claim C5: after Phase 3, the contraction indices of the pins in the
invalid remainder [firstInvalidEntry, nextEdge.firstEntry) are strictly
decreasing, provided no hypernode is absorbed twice in the merged history,
the edge's reserved range holds distinct pins, and every disabled pin of
the range was absorbed by some contraction of the history (the merge-time
source of disabled pins). -/
theorem C5_suffix_decreasing (hashF : Nat → Nat) (history : List ContractionMemento)
    (T : Nat) (M : HGState) (he : Nat)
    (hT : 1 ≤ T)
    (hnd : (history.map (fun m => m.v)).Nodup)
    (hspan_nodup : (seg M.arr (M.edges he).firstEntry ((M.edges (he + 1)).firstEntry)).Nodup)
    (hfe : (M.edges he).firstInvalidEntry ≤ (M.edges (he + 1)).firstEntry)
    (hdis_hist : ∀ p ∈ seg M.arr (M.edges he).firstEntry ((M.edges (he + 1)).firstEntry),
      (M.nodes p).enabled = false → p ∈ history.map (fun m => m.v))
    (hsuffdis : ∀ p ∈ seg M.arr ((M.edges he).firstInvalidEntry) ((M.edges (he + 1)).firstEntry),
      (M.nodes p).enabled = false) :
    List.Pairwise
      (fun u v => contractionIndexTable history T v < contractionIndexTable history T u)
      (seg (create_contraction_hierarchy_edge hashF (contractionIndexTable history T) M he).arr
        (((create_contraction_hierarchy_edge hashF
            (contractionIndexTable history T) M he).edges he).firstInvalidEntry)
        ((M.edges (he + 1)).firstEntry)) := by
  have hfi0 : (M.edges he).firstInvalidEntry
      = (M.edges he).firstEntry + (M.edges he).size := rfl
  rw [hfi0] at hfe hsuffdis
  rw [cche_suffix_sorted hashF (contractionIndexTable history T) M he hfe]
  obtain ⟨⟨hb1, hb2⟩, hout, hkeep, hrem⟩ :=
    compactGo_spec hashF (fun p => (M.nodes p).enabled) (M.edges he).size M.arr
      (M.edges he).firstEntry ((M.edges he).firstEntry + (M.edges he).size) kEdgeHashSeed
      (Nat.le_add_right _ _) (by omega)
  have hcrdef : compactRes hashF M he
      = compactGo hashF (fun p => (M.nodes p).enabled) (M.edges he).size M.arr
          (M.edges he).firstEntry ((M.edges he).firstEntry + (M.edges he).size)
          kEdgeHashSeed := rfl
  rw [← hcrdef] at hb1 hb2 hout hkeep hrem
  set ci := contractionIndexTable history T with hci
  set cr := compactRes hashF M he with hcr
  set fe := (M.edges he).firstEntry with hfedef
  set stop := fe + (M.edges he).size with hstop
  set nend := (M.edges (he + 1)).firstEntry with hnend
  have hstopnend : stop ≤ nend := hfe
  have hr : cr.2.1 ≤ nend := le_trans hb2 hstopnend
  set S := seg cr.1 cr.2.1 nend with hS
  set sorted := List.insertionSort (fun u v => ci v ≤ ci u) S with hsortdef
  -- structure of the pre-sort remainder
  have htail : seg cr.1 stop nend = seg M.arr stop nend := by
    refine seg_congr _ _ _ _ ?_
    intro x hx1 hx2
    exact hout x (Or.inr hx1)
  have hSsplit : S = seg cr.1 cr.2.1 stop ++ seg M.arr stop nend := by
    rw [hS, ← seg_append cr.1 cr.2.1 stop nend hb2 hstopnend, htail]
  have hspansplit : seg M.arr fe nend = seg M.arr fe stop ++ seg M.arr stop nend :=
    (seg_append M.arr fe stop nend (by omega) hstopnend).symm
  -- every remainder pin appears in the history
  have hSmem : ∀ p ∈ S, p ∈ history.map (fun m => m.v) := by
    intro p hp
    rw [hSsplit] at hp
    rcases List.mem_append.mp hp with hpl | hpr
    · have hp2 := hrem.mem_iff.mp hpl
      have hmem := List.mem_of_mem_filter hp2
      have hdisb := (List.mem_filter.mp hp2).2
      have hdis : (M.nodes p).enabled = false := by
        cases h : (M.nodes p).enabled
        · rfl
        · rw [h] at hdisb; exact absurd hdisb (by simp)
      refine hdis_hist p ?_ hdis
      rw [hspansplit]
      exact List.mem_append_left _ hmem
    · refine hdis_hist p ?_ (hsuffdis p hpr)
      rw [hspansplit]
      exact List.mem_append_right _ hpr
  -- the remainder holds pairwise-distinct pins
  have hSnodup : S.Nodup := by
    have hspan2 : (seg M.arr fe stop ++ seg M.arr stop nend).Nodup := by
      rw [← hspansplit]; exact hspan_nodup
    obtain ⟨hA, hB, hdisj⟩ := List.nodup_append.mp hspan2
    rw [hSsplit]
    refine List.Nodup.append ?_ hB ?_
    · exact hrem.nodup_iff.mpr (hA.filter _)
    · refine List.disjoint_of_subset_left ?_ hdisj
      intro x hx
      exact List.mem_of_mem_filter (hrem.mem_iff.mp hx)
  have hsorted_nodup : sorted.Nodup :=
    (List.perm_insertionSort _ S).nodup_iff.mpr hSnodup
  have hsorted_mem : ∀ p ∈ sorted, p ∈ history.map (fun m => m.v) := by
    intro p hp
    exact hSmem p ((List.perm_insertionSort _ S).mem_iff.mp hp)
  -- sortedness and strictness
  haveI : IsTotal Nat (fun u v => ci v ≤ ci u) := ⟨fun a b => le_total (ci b) (ci a)⟩
  haveI : IsTrans Nat (fun u v => ci v ≤ ci u) :=
    ⟨fun a b c hab hbc => le_trans hbc hab⟩
  have hSorted : List.Pairwise (fun u v => ci v ≤ ci u) sorted :=
    List.sorted_insertionSort (fun u v => ci v ≤ ci u) S
  refine List.Pairwise.imp_of_mem ?_ (hSorted.and hsorted_nodup)
  intro a b ha hb hab
  obtain ⟨hle, hne⟩ := hab
  refine lt_of_le_of_ne hle ?_
  exact contractionIndexTable_inj history T hnd b a (hsorted_mem b hb)
    (hsorted_mem a ha) (Ne.symm hne)


/-- Witness for C5: edge [1, 2, 3] with 2 and 3 contracted (in that order);
the remainder comes out sorted by decreasing contraction index. -/
theorem C5_suffix_decreasing_witness :
    ((1 : Nat) ≤ 1) ∧
    ((([⟨1, 2⟩, ⟨1, 3⟩] : List ContractionMemento).map (fun m => m.v)).Nodup) ∧
    (seg C5_M.arr (C5_M.edges 0).firstEntry ((C5_M.edges 1).firstEntry)).Nodup ∧
    List.Pairwise
      (fun u v => contractionIndexTable [⟨1, 2⟩, ⟨1, 3⟩] 1 v
        < contractionIndexTable [⟨1, 2⟩, ⟨1, 3⟩] 1 u)
      (seg (create_contraction_hierarchy_edge (fun x => x)
          (contractionIndexTable [⟨1, 2⟩, ⟨1, 3⟩] 1) C5_M 0).arr
        (((create_contraction_hierarchy_edge (fun x => x)
            (contractionIndexTable [⟨1, 2⟩, ⟨1, 3⟩] 1) C5_M 0).edges 0).firstInvalidEntry)
        ((C5_M.edges 1).firstEntry)) := by
  refine ⟨by decide, by decide, by decide, ?_⟩
  exact C5_suffix_decreasing (fun x => x) [⟨1, 2⟩, ⟨1, 3⟩] 1 C5_M 0
    (by decide) (by decide) (by decide) (by decide) (by decide) (by decide)

/-! ### Empty-community extraction (C7) -/

theorem extractPhaseOne_empty (H : InputHG) (c : Nat)
    (hempty : ∀ hn, hn < H.n → H.comm hn ≠ c) :
    extractPhaseOne H c = initExtractState := by
  unfold extractPhaseOne
  have h : ∀ (ns : List Nat), (∀ x ∈ ns, x < H.n) →
      ns.foldl (nodeStep H c) initExtractState = initExtractState := by
    intro ns hns
    induction ns with
    | nil => rfl
    | cons a l ih =>
        rw [List.foldl_cons]
        rw [nodeStep, if_neg (hempty a (hns a (List.mem_cons_self a l)))]
        exact ih (fun x hx => hns x (List.mem_cons_of_mem _ hx))
  exact h (List.range H.n) (fun x hx => List.mem_range.mp hx)

/-- Claim C7: extracting a community with zero member hypernodes yields an
empty CommunitySubhypergraph (no hypernodes, hyperedges or pins
materialised, zero boundary counters), and both the pre-phase contribution
and the Phase 1 task of the merge are no-ops for it. -/
theorem C7_empty_community (hashF : Nat → Nat) (H : InputHG) (c : Nat)
    (respect : Bool) (M : HGState)
    (hempty : ∀ hn, hn < H.n → H.comm hn ≠ c) :
    (extractCommunityInducedSectionHypergraph hashF H c respect).hnList = [] ∧
    (extractCommunityInducedSectionHypergraph hashF H c respect).numNodes = 0 ∧
    (extractCommunityInducedSectionHypergraph hashF H c respect).subEdges = [] ∧
    (extractCommunityInducedSectionHypergraph hashF H c respect).subInc = [] ∧
    (extractCommunityInducedSectionHypergraph hashF H c respect).heList = [] ∧
    (extractCommunityInducedSectionHypergraph hashF H c respect).num_hn_not_in_community = 0 ∧
    (extractCommunityInducedSectionHypergraph hashF H c respect).num_pins_not_in_community = 0 ∧
    phase1Community M
      (toSubInput H (extractCommunityInducedSectionHypergraph hashF H c respect)) = M ∧
    prePhaseStep M
      (toSubInput H (extractCommunityInducedSectionHypergraph hashF H c respect)) = M := by
  have hres : extractCommunityInducedSectionHypergraph hashF H c respect
      = ⟨c, 0, 0, [], [], [], [], 0⟩ := by
    unfold extractCommunityInducedSectionHypergraph
    rw [extractPhaseOne_empty H c hempty]
    cases respect <;> rfl
  rw [hres]
  refine ⟨rfl, rfl, rfl, rfl, rfl, rfl, rfl, ?_, ?_⟩
  · rfl
  · show prePhaseStep M (toSubInput H ⟨c, 0, 0, [], [], [], [], 0⟩) = M
    simp [prePhaseStep, toSubInput]

/-- Witness for C7: a one-node hypergraph whose single node lives in
community 0, queried for community 5. -/
theorem C7_empty_community_witness :
    (∀ hn, hn < 1 → (⟨1, 1, fun _ => [0], fun _ => 0, fun _ => 1, fun _ => 1⟩ :
        InputHG).comm hn ≠ 5) ∧
    (extractCommunityInducedSectionHypergraph (fun x => x)
      ⟨1, 1, fun _ => [0], fun _ => 0, fun _ => 1, fun _ => 1⟩ 5 true).hnList = [] := by
  have hemp : ∀ hn, hn < 1 →
      (⟨1, 1, fun _ => [0], fun _ => 0, fun _ => 1, fun _ => 1⟩ : InputHG).comm hn ≠ 5 := by
    intro hn _
    show (0 : Nat) ≠ 5
    decide
  refine ⟨hemp, ?_⟩
  exact (C7_empty_community (fun x => x)
    ⟨1, 1, fun _ => [0], fun _ => 0, fun _ => 1, fun _ => 1⟩ 5 true C1_M hemp).1

/-! ### SparseMap accumulator lemmas -/

theorem startOf_shift (c : Nat) : ∀ (mp : List (Nat × Nat)) (a : Nat),
    mp.foldl (fun a kv => if kv.1 < c then a + kv.2 else a) a
      = a + mp.foldl (fun a kv => if kv.1 < c then a + kv.2 else a) 0 := by
  intro mp
  induction mp with
  | nil => intro a; simp
  | cons kv rest ih =>
      intro a
      rw [List.foldl_cons, List.foldl_cons, ih, ih (if kv.1 < c then 0 + kv.2 else 0)]
      by_cases h : kv.1 < c <;> simp [h] <;> omega

theorem startOf_cons (kv : Nat × Nat) (mp : List (Nat × Nat)) (c : Nat) :
    startOf (kv :: mp) c = (if kv.1 < c then kv.2 else 0) + startOf mp c := by
  unfold startOf
  rw [List.foldl_cons, startOf_shift]
  by_cases h : kv.1 < c <;> simp [h]

theorem startOf_bump (mp : List (Nat × Nat)) (k v c : Nat) :
    startOf (bumpAssoc mp k v) c = startOf mp c + (if k < c then v else 0) := by
  induction mp with
  | nil =>
      show startOf [(k, v)] c = startOf [] c + (if k < c then v else 0)
      rw [startOf_cons]
      by_cases h : k < c <;> simp [h, startOf]
  | cons kv rest ih =>
      show startOf (if kv.1 = k then (kv.1, kv.2 + v) :: rest
          else kv :: bumpAssoc rest k v) c = _
      by_cases hk : kv.1 = k
      · rw [if_pos hk, startOf_cons, startOf_cons]
        subst hk
        by_cases h : kv.1 < c <;> simp [h] <;> omega
      · rw [if_neg hk, startOf_cons, ih, startOf_cons]
        omega

theorem bump_keys (k v : Nat) : ∀ (mp : List (Nat × Nat)),
    (bumpAssoc mp k v).map Prod.fst
      = if k ∈ mp.map Prod.fst then mp.map Prod.fst else mp.map Prod.fst ++ [k] := by
  intro mp
  induction mp with
  | nil => simp [bumpAssoc]
  | cons kv rest ih =>
      show ((if kv.1 = k then (kv.1, kv.2 + v) :: rest
          else kv :: bumpAssoc rest k v).map Prod.fst) = _
      by_cases hk : kv.1 = k
      · rw [if_pos hk]
        simp [hk]
      · rw [if_neg hk, List.map_cons, ih]
        by_cases hmem : k ∈ rest.map Prod.fst
        · simp [hmem, Ne.symm hk]
        · simp [hmem, Ne.symm hk]

theorem bump_keys_nodup (mp : List (Nat × Nat)) (k v : Nat)
    (h : (mp.map Prod.fst).Nodup) : ((bumpAssoc mp k v).map Prod.fst).Nodup := by
  rw [bump_keys]
  by_cases hmem : k ∈ mp.map Prod.fst
  · rwa [if_pos hmem]
  · rw [if_neg hmem]
    exact ((List.perm_append_singleton k _).nodup_iff).mpr (List.nodup_cons.mpr ⟨hmem, h⟩)

theorem assignFold_const (c : Nat) : ∀ (mp : List (Nat × Nat)) (a : Nat),
    c ∉ mp.map Prod.fst →
    mp.foldl (fun a kv => if kv.1 = c then kv.2 else a) a = a := by
  intro mp
  induction mp with
  | nil => intro a _; rfl
  | cons kv rest ih =>
      intro a hmem
      rw [List.foldl_cons]
      have hk : kv.1 ≠ c := by
        intro h; exact hmem (by simp [← h])
      rw [if_neg hk]
      exact ih a (fun h => hmem (List.mem_cons_of_mem _ h))

theorem assignFold_indep (c : Nat) : ∀ (mp : List (Nat × Nat)) (a b : Nat),
    c ∈ mp.map Prod.fst →
    mp.foldl (fun a kv => if kv.1 = c then kv.2 else a) a
      = mp.foldl (fun a kv => if kv.1 = c then kv.2 else a) b := by
  intro mp
  induction mp with
  | nil => intro a b h; simp at h
  | cons kv rest ih =>
      intro a b hmem
      rw [List.foldl_cons, List.foldl_cons]
      by_cases hk : kv.1 = c
      · rw [if_pos hk, if_pos hk]
      · rw [if_neg hk, if_neg hk]
        have hcr : c ∈ rest.map Prod.fst := by
          rcases List.mem_map.mp hmem with ⟨x, hx, hxc⟩
          rcases List.mem_cons.mp hx with rfl | hx2
          · exact absurd hxc hk
          · rw [← hxc]
            exact List.mem_map_of_mem Prod.fst hx2
        exact ih a b hcr

theorem sizeOfC_nil (c : Nat) : sizeOfC [] c = 0 := rfl

theorem sizeOfC_zero (c : Nat) (mp : List (Nat × Nat)) (h : c ∉ mp.map Prod.fst) :
    sizeOfC mp c = 0 :=
  assignFold_const c mp 0 h

theorem sizeOfC_cons (kv : Nat × Nat) (mp : List (Nat × Nat)) (c : Nat) :
    sizeOfC (kv :: mp) c
      = if c ∈ mp.map Prod.fst then sizeOfC mp c
        else if kv.1 = c then kv.2 else 0 := by
  unfold sizeOfC
  rw [List.foldl_cons]
  by_cases hmem : c ∈ mp.map Prod.fst
  · rw [if_pos hmem]
    exact assignFold_indep c mp _ 0 hmem
  · rw [if_neg hmem, assignFold_const c mp _ hmem]

theorem sizeOfC_bump (k v c : Nat) : ∀ (mp : List (Nat × Nat)),
    (mp.map Prod.fst).Nodup →
    sizeOfC (bumpAssoc mp k v) c = sizeOfC mp c + (if k = c then v else 0) := by
  intro mp
  induction mp with
  | nil =>
      intro _
      show sizeOfC [(k, v)] c = sizeOfC [] c + _
      rw [sizeOfC_cons, sizeOfC_nil]
      simp
  | cons kv rest ih =>
      intro hnd
      rw [List.map_cons, List.nodup_cons] at hnd
      obtain ⟨hkv, hndr⟩ := hnd
      show sizeOfC (if kv.1 = k then (kv.1, kv.2 + v) :: rest
          else kv :: bumpAssoc rest k v) c = _
      by_cases hk : kv.1 = k
      · rw [if_pos hk, sizeOfC_cons, sizeOfC_cons]
        by_cases hcm : c ∈ rest.map Prod.fst
        · rw [if_pos hcm, if_pos hcm]
          have hkc : ¬ (k = c) := by
            intro h
            exact hkv ((hk.trans h) ▸ hcm)
          simp [hkc]
        · rw [if_neg hcm, if_neg hcm, ← hk]
          by_cases hc : kv.1 = c
          · simp [hc]
          · have : ¬ (kv.1 = c) := hc
            simp [this]
      · rw [if_neg hk, sizeOfC_cons, sizeOfC_cons]
        by_cases hcm : c ∈ rest.map Prod.fst
        · have hcb : c ∈ (bumpAssoc rest k v).map Prod.fst := by
            rw [bump_keys]
            by_cases hm : k ∈ rest.map Prod.fst
            · rwa [if_pos hm]
            · rw [if_neg hm]
              exact List.mem_append_left _ hcm
          rw [if_pos hcb, if_pos hcm, ih hndr]
        · by_cases hck : c = k
          · have hcb : c ∈ (bumpAssoc rest k v).map Prod.fst := by
              rw [bump_keys, if_neg (hck ▸ hcm)]
              exact List.mem_append_right _ (by simp [hck])
            rw [if_pos hcb, if_neg hcm, ih hndr, sizeOfC_zero c rest hcm]
            have hkc : kv.1 ≠ c := by
              intro h
              exact hk (h.trans hck)
            simp [hkc]
          · have hcb : c ∉ (bumpAssoc rest k v).map Prod.fst := by
              rw [bump_keys]
              by_cases hm : k ∈ rest.map Prod.fst
              · rwa [if_pos hm]
              · rw [if_neg hm]
                intro hin
                rcases List.mem_append.mp hin with h1 | h2
                · exact hcm h1
                · exact hck (by simpa using h2)
            rw [if_neg hcb, if_neg hcm]
            have hkc : ¬ (k = c) := fun h => hck h.symm
            simp [hkc]

theorem commSizes_keys_nodup (H : InputHG) : ∀ (ps : List Nat) (mp : List (Nat × Nat)),
    (mp.map Prod.fst).Nodup →
    ((ps.foldl (fun mp p => bumpAssoc mp (H.comm p) (H.nodeW p)) mp).map Prod.fst).Nodup := by
  intro ps
  induction ps with
  | nil => intro mp h; exact h
  | cons p rest ih =>
      intro mp h
      rw [List.foldl_cons]
      exact ih _ (bump_keys_nodup mp _ _ h)

theorem startOf_commSizes_fold (H : InputHG) (c : Nat) :
    ∀ (ps : List Nat) (mp : List (Nat × Nat)),
    startOf (ps.foldl (fun mp p => bumpAssoc mp (H.comm p) (H.nodeW p)) mp) c
      = startOf mp c + ((ps.filter (fun p => H.comm p < c)).map H.nodeW).sum := by
  intro ps
  induction ps with
  | nil => intro mp; simp
  | cons p rest ih =>
      intro mp
      rw [List.foldl_cons, ih, startOf_bump, List.filter_cons]
      by_cases h : H.comm p < c
      · have hd : decide (H.comm p < c) = true := by simpa using h
        rw [if_pos h, if_pos hd, List.map_cons, List.sum_cons]
        omega
      · have hd : ¬ (decide (H.comm p < c) = true) := by simpa using h
        rw [if_neg h, if_neg hd]
        omega

theorem sizeOfC_commSizes_fold (H : InputHG) (c : Nat) :
    ∀ (ps : List Nat) (mp : List (Nat × Nat)),
    (mp.map Prod.fst).Nodup →
    sizeOfC (ps.foldl (fun mp p => bumpAssoc mp (H.comm p) (H.nodeW p)) mp) c
      = sizeOfC mp c + ((ps.filter (fun p => H.comm p = c)).map H.nodeW).sum := by
  intro ps
  induction ps with
  | nil => intro mp _; simp
  | cons p rest ih =>
      intro mp hnd
      rw [List.foldl_cons, ih _ (bump_keys_nodup mp _ _ hnd),
        sizeOfC_bump _ _ _ mp hnd, List.filter_cons]
      by_cases h : H.comm p = c
      · have hd : decide (H.comm p = c) = true := by simpa using h
        rw [if_pos h, if_pos hd, List.map_cons, List.sum_cons]
        omega
      · have hd : ¬ (decide (H.comm p = c) = true) := by simpa using h
        rw [if_neg h, if_neg hd]
        omega

theorem startOf_commSizesOf (H : InputHG) (c : Nat) (ps : List Nat) :
    startOf (commSizesOf H ps) c = ((ps.filter (fun p => H.comm p < c)).map H.nodeW).sum := by
  unfold commSizesOf
  rw [startOf_commSizes_fold]
  simp [startOf]

theorem sizeOfC_commSizesOf (H : InputHG) (c : Nat) (ps : List Nat) :
    sizeOfC (commSizesOf H ps) c = ((ps.filter (fun p => H.comm p = c)).map H.nodeW).sum := by
  unfold commSizesOf
  rw [sizeOfC_commSizes_fold _ _ _ _ (by simp)]
  simp [sizeOfC]

/-! ### Invariants of the first extraction loop -/

theorem addPinStep_fields (H : InputHG) (c : Nat) (s : ExtractState) (p : Nat) :
    (addPinStep H c s p).visitedE = s.visitedE ∧
    ((addPinStep H c s p).hnList, (addPinStep H c s p).visitedN)
      = if s.visitedN p = true then (s.hnList, s.visitedN)
        else (s.hnList ++ [p], Function.update s.visitedN p true) := by
  by_cases h : s.visitedN p = true
  · simp [addPinStep, h]
  · simp [addPinStep, h]

theorem pinsFold_spec (H : InputHG) (c : Nat) :
    ∀ (ps : List Nat) (s : ExtractState),
    (∀ q, s.visitedN q = true ↔ q ∈ s.hnList) → s.hnList.Nodup →
    (ps.foldl (addPinStep H c) s).visitedE = s.visitedE ∧
    (∀ q, (ps.foldl (addPinStep H c) s).visitedN q = true
        ↔ q ∈ (ps.foldl (addPinStep H c) s).hnList) ∧
    (ps.foldl (addPinStep H c) s).hnList.Nodup ∧
    (∀ q, q ∈ (ps.foldl (addPinStep H c) s).hnList ↔ q ∈ s.hnList ∨ q ∈ ps) := by
  intro ps
  induction ps with
  | nil =>
      intro s hb hc
      refine ⟨rfl, hb, hc, ?_⟩
      intro q
      simp
  | cons p rest ih =>
      intro s hb hc
      rw [List.foldl_cons]
      obtain ⟨hfE, hfLN⟩ := addPinStep_fields H c s p
      by_cases h : s.visitedN p = true
      · rw [if_pos h] at hfLN
        have hL : (addPinStep H c s p).hnList = s.hnList := congrArg Prod.fst hfLN
        have hN : (addPinStep H c s p).visitedN = s.visitedN := congrArg Prod.snd hfLN
        obtain ⟨h1, h2, h3, h4⟩ := ih (addPinStep H c s p)
          (by rw [hN, hL]; exact hb) (by rw [hL]; exact hc)
        refine ⟨h1.trans hfE, h2, h3, ?_⟩
        intro q
        rw [h4 q, hL]
        constructor
        · rintro (hq | hq)
          · exact Or.inl hq
          · exact Or.inr (List.mem_cons_of_mem _ hq)
        · rintro (hq | hq)
          · exact Or.inl hq
          · rcases List.mem_cons.mp hq with rfl | hq2
            · exact Or.inl ((hb q).mp h)
            · exact Or.inr hq2
      · rw [if_neg h] at hfLN
        have hL : (addPinStep H c s p).hnList = s.hnList ++ [p] := congrArg Prod.fst hfLN
        have hN : (addPinStep H c s p).visitedN = Function.update s.visitedN p true :=
          congrArg Prod.snd hfLN
        have hpnot : p ∉ s.hnList := fun hmem => h ((hb p).mpr hmem)
        have hb' : ∀ q, (addPinStep H c s p).visitedN q = true
            ↔ q ∈ (addPinStep H c s p).hnList := by
          intro q
          rw [hN, hL]
          by_cases hq : q = p
          · subst hq
            simp [Function.update_same]
          · rw [Function.update_noteq hq]
            rw [hb q]
            simp [hq]
        have hc' : (addPinStep H c s p).hnList.Nodup := by
          rw [hL]
          exact ((List.perm_append_singleton p _).nodup_iff).mpr
            (List.nodup_cons.mpr ⟨hpnot, hc⟩)
        obtain ⟨h1, h2, h3, h4⟩ := ih (addPinStep H c s p) hb' hc'
        refine ⟨h1.trans hfE, h2, h3, ?_⟩
        intro q
        rw [h4 q, hL]
        constructor
        · rintro (hq | hq)
          · rcases List.mem_append.mp hq with hq1 | hq2
            · exact Or.inl hq1
            · exact Or.inr (by simpa using Or.inl (by simpa using hq2))
          · exact Or.inr (List.mem_cons_of_mem _ hq)
        · rintro (hq | hq)
          · exact Or.inl (List.mem_append_left _ hq)
          · rcases List.mem_cons.mp hq with rfl | hq2
            · exact Or.inl (List.mem_append_right _ (by simp))
            · exact Or.inr hq2

theorem visitEdgeStep_spec (H : InputHG) (c e : Nat) (s : ExtractState)
    (hInv : ExtInv H s) :
    ExtInv H (visitEdgeStep H c s e) ∧
    (∀ e', (visitEdgeStep H c s e).visitedE e' = true
        ↔ s.visitedE e' = true ∨ e' = e) := by
  obtain ⟨hb, hc, hd⟩ := hInv
  by_cases h : s.visitedE e = true
  · have hstep : visitEdgeStep H c s e = s := by
      unfold visitEdgeStep
      rw [if_pos h]
    rw [hstep]
    refine ⟨⟨hb, hc, hd⟩, ?_⟩
    intro e'
    constructor
    · exact Or.inl
    · rintro (h2 | rfl)
      · exact h2
      · exact h
  · obtain ⟨h1, h2, h3, h4⟩ := pinsFold_spec H c (H.pins e) s hb hc
    have hstep : visitEdgeStep H c s e
        = { (H.pins e).foldl (addPinStep H c) s with
            visitedE := Function.update
              ((H.pins e).foldl (addPinStep H c) s).visitedE e true } := by
      unfold visitEdgeStep
      rw [if_neg h]
    rw [hstep]
    have hvE : ∀ e', (Function.update
        ((H.pins e).foldl (addPinStep H c) s).visitedE e true) e' = true
        ↔ s.visitedE e' = true ∨ e' = e := by
      intro e'
      by_cases he' : e' = e
      · subst he'
        simp [Function.update_same]
      · rw [Function.update_noteq he', h1]
        simp [he']
    refine ⟨⟨h2, h3, ?_⟩, hvE⟩
    intro q
    rw [h4 q]
    constructor
    · rintro (hq | hq)
      · obtain ⟨e', he1, he2⟩ := (hd q).mp hq
        exact ⟨e', (hvE e').mpr (Or.inl he1), he2⟩
      · exact ⟨e, (hvE e).mpr (Or.inr rfl), hq⟩
    · rintro ⟨e', he1, he2⟩
      rcases (hvE e').mp he1 with hv | rfl
      · exact Or.inl ((hd q).mpr ⟨e', hv, he2⟩)
      · exact Or.inr he2

theorem edgesFold_spec (H : InputHG) (c : Nat) :
    ∀ (es : List Nat) (s : ExtractState), ExtInv H s →
    ExtInv H (es.foldl (visitEdgeStep H c) s) ∧
    (∀ e', (es.foldl (visitEdgeStep H c) s).visitedE e' = true
        ↔ s.visitedE e' = true ∨ e' ∈ es) := by
  intro es
  induction es with
  | nil =>
      intro s hInv
      refine ⟨hInv, ?_⟩
      intro e'
      simp
  | cons e rest ih =>
      intro s hInv
      rw [List.foldl_cons]
      obtain ⟨hInv1, hv1⟩ := visitEdgeStep_spec H c e s hInv
      obtain ⟨hInv2, hv2⟩ := ih (visitEdgeStep H c s e) hInv1
      refine ⟨hInv2, ?_⟩
      intro e'
      rw [hv2 e', hv1 e']
      constructor
      · rintro ((hv | rfl) | hm)
        · exact Or.inl hv
        · exact Or.inr (List.mem_cons_self _ _)
        · exact Or.inr (List.mem_cons_of_mem _ hm)
      · rintro (hv | hm)
        · exact Or.inl (Or.inl hv)
        · rcases List.mem_cons.mp hm with rfl | hm2
          · exact Or.inl (Or.inr rfl)
          · exact Or.inr hm2

theorem nodesFold_spec (H : InputHG) (c : Nat) :
    ∀ (ns : List Nat) (s : ExtractState), ExtInv H s →
    ExtInv H (ns.foldl (nodeStep H c) s) ∧
    (∀ e, (ns.foldl (nodeStep H c) s).visitedE e = true
        ↔ s.visitedE e = true ∨ ∃ hn ∈ ns, H.comm hn = c ∧ e ∈ incidentEdges H hn) := by
  intro ns
  induction ns with
  | nil =>
      intro s hInv
      refine ⟨hInv, ?_⟩
      intro e
      simp
  | cons hn rest ih =>
      intro s hInv
      rw [List.foldl_cons]
      by_cases hcm : H.comm hn = c
      · have hstep : nodeStep H c s hn = (incidentEdges H hn).foldl (visitEdgeStep H c) s := by
          unfold nodeStep
          rw [if_pos hcm]
        obtain ⟨hInv1, hv1⟩ := edgesFold_spec H c (incidentEdges H hn) s hInv
        rw [hstep]
        obtain ⟨hInv2, hv2⟩ := ih _ hInv1
        refine ⟨hInv2, ?_⟩
        intro e
        rw [hv2 e, hv1 e]
        constructor
        · rintro ((hv | hm) | ⟨x, hx, hxc, hxe⟩)
          · exact Or.inl hv
          · exact Or.inr ⟨hn, List.mem_cons_self _ _, hcm, hm⟩
          · exact Or.inr ⟨x, List.mem_cons_of_mem _ hx, hxc, hxe⟩
        · rintro (hv | ⟨x, hx, hxc, hxe⟩)
          · exact Or.inl (Or.inl hv)
          · rcases List.mem_cons.mp hx with rfl | hx2
            · exact Or.inl (Or.inr hxe)
            · exact Or.inr ⟨x, hx2, hxc, hxe⟩
      · have hstep : nodeStep H c s hn = s := by
          unfold nodeStep
          rw [if_neg hcm]
        rw [hstep]
        obtain ⟨hInv2, hv2⟩ := ih s hInv
        refine ⟨hInv2, ?_⟩
        intro e
        rw [hv2 e]
        constructor
        · rintro (hv | ⟨x, hx, hxc, hxe⟩)
          · exact Or.inl hv
          · exact Or.inr ⟨x, List.mem_cons_of_mem _ hx, hxc, hxe⟩
        · rintro (hv | ⟨x, hx, hxc, hxe⟩)
          · exact Or.inl hv
          · rcases List.mem_cons.mp hx with rfl | hx2
            · exact absurd hxc hcm
            · exact Or.inr ⟨x, hx2, hxc, hxe⟩

theorem initExtractState_inv (H : InputHG) : ExtInv H initExtractState := by
  refine ⟨?_, ?_, ?_⟩
  · intro p
    simp [initExtractState]
  · exact List.nodup_nil
  · intro p
    simp [initExtractState]

theorem extractPhaseOne_inv (H : InputHG) (c : Nat) : ExtInv H (extractPhaseOne H c) :=
  (nodesFold_spec H c (List.range H.n) initExtractState (initExtractState_inv H)).1

theorem extractPhaseOne_visitedE (H : InputHG) (c e : Nat) :
    (extractPhaseOne H c).visitedE e = true
      ↔ ∃ hn, hn < H.n ∧ H.comm hn = c ∧ e ∈ incidentEdges H hn := by
  have h := (nodesFold_spec H c (List.range H.n) initExtractState
    (initExtractState_inv H)).2 e
  rw [extractPhaseOne, h]
  constructor
  · rintro (hv | ⟨hn, hmem, hc2, he2⟩)
    · exact absurd hv (by simp [initExtractState])
    · exact ⟨hn, List.mem_range.mp hmem, hc2, he2⟩
  · rintro ⟨hn, hlt, hc2, he2⟩
    exact Or.inr ⟨hn, List.mem_range.mpr hlt, hc2, he2⟩

/-- An edge is visited by extraction of community c exactly when it holds a
pin of that community. -/
theorem extractPhaseOne_visitedE_iff (H : InputHG) (hwf : H.wf) (c e : Nat) :
    (extractPhaseOne H c).visitedE e = true
      ↔ e < H.m ∧ ∃ p ∈ H.pins e, H.comm p = c := by
  rw [extractPhaseOne_visitedE]
  constructor
  · rintro ⟨hn, _, hc2, he2⟩
    have := List.mem_filter.mp he2
    refine ⟨List.mem_range.mp this.1, hn, by simpa using this.2, hc2⟩
  · rintro ⟨hm, p, hp, hc2⟩
    refine ⟨p, (hwf.1 e hm).1 p hp, hc2, ?_⟩
    rw [incidentEdges, List.mem_filter]
    exact ⟨List.mem_range.mpr hm, by simpa using hp⟩

theorem extractPhaseOne_hnList_mem (H : InputHG) (c q : Nat) :
    q ∈ (extractPhaseOne H c).hnList
      ↔ ∃ e, (extractPhaseOne H c).visitedE e = true ∧ q ∈ H.pins e :=
  (extractPhaseOne_inv H c).2.2 q

theorem extractPhaseOne_hnList_nodup (H : InputHG) (c : Nat) :
    (extractPhaseOne H c).hnList.Nodup :=
  (extractPhaseOne_inv H c).2.1

/-! ### The second extraction loop: issued ranges -/

theorem buildFold_heList (H : InputHG) (c : Nat) (L : List Nat) (hashF : Nat → Nat)
    (vF : Nat → Bool) :
    ∀ (es : List Nat) (acc : List Hyperedge × List Nat × List CommunityHyperedge),
    (es.foldl (edgeBuildStep H c L hashF vF) acc).2.2
      = acc.2.2 ++ (es.filter (fun e => vF e)).map
          (fun e => (⟨e, startOf (commSizesOf H (H.pins e)) c,
            startOf (commSizesOf H (H.pins e)) c
              + sizeOfC (commSizesOf H (H.pins e)) c⟩ : CommunityHyperedge)) := by
  intro es
  induction es with
  | nil => intro acc; simp
  | cons e rest ih =>
      intro acc
      rw [List.foldl_cons, List.filter_cons]
      by_cases h : vF e = true
      · have hstep : edgeBuildStep H c L hashF vF acc e
            = (acc.1 ++ [⟨acc.2.1.length, (H.pins e).length, H.edgeW e, true,
                 (((H.pins e).map (fun p => L.indexOf p)).map hashF).sum⟩],
               acc.2.1 ++ (H.pins e).map (fun p => L.indexOf p),
               acc.2.2 ++ [⟨e, startOf (commSizesOf H (H.pins e)) c,
                 startOf (commSizesOf H (H.pins e)) c
                   + sizeOfC (commSizesOf H (H.pins e)) c⟩]) := by
          unfold edgeBuildStep
          rw [if_pos h]
        rw [hstep, ih, if_pos h, List.map_cons]
        simp
      · have hstep : edgeBuildStep H c L hashF vF acc e = acc := by
          unfold edgeBuildStep
          rw [if_neg h]
        rw [hstep, ih, if_neg h]

theorem extract_heList (hashF : Nat → Nat) (H : InputHG) (c : Nat) (respect : Bool) :
    (extractCommunityInducedSectionHypergraph hashF H c respect).heList
      = ((List.range H.m).filter (fun e => (extractPhaseOne H c).visitedE e)).map
          (fun e => ⟨e, weightBelow H c e, weightBelow H c e + weightAt H c e⟩) := by
  unfold extractCommunityInducedSectionHypergraph
  by_cases hlen : 0 < (if respect then
      List.insertionSort (fun a b => a ≤ b) (extractPhaseOne H c).hnList
    else (extractPhaseOne H c).hnList).length
  · rw [if_pos hlen]
    show ((List.range H.m).foldl (edgeBuildStep H c _ hashF
        (extractPhaseOne H c).visitedE) ([], [], [])).2.2 = _
    rw [buildFold_heList]
    rw [List.nil_append]
    refine List.map_congr_left ?_
    intro e _
    rw [startOf_commSizesOf, sizeOfC_commSizesOf]
    rfl
  · rw [if_neg hlen]
    show ([] : List CommunityHyperedge) = _
    have hempt : (extractPhaseOne H c).hnList = [] := by
      by_cases hr : respect
      · rw [if_pos hr] at hlen
        have := (List.perm_insertionSort (fun a b => a ≤ b)
          (extractPhaseOne H c).hnList).length_eq
        have h0 : (extractPhaseOne H c).hnList.length = 0 := by omega
        exact List.length_eq_zero.mp h0
      · rw [if_neg hr] at hlen
        exact List.length_eq_zero.mp (by omega)
    have hnovisit : ∀ e ∈ List.range H.m,
        ¬ ((extractPhaseOne H c).visitedE e = true) := by
      intro e _ hv
      obtain ⟨hn, _, hcm, hinc⟩ := (extractPhaseOne_visitedE H c e).mp hv
      have hpin : hn ∈ H.pins e := by
        have := List.mem_filter.mp hinc
        simpa using this.2
      have : hn ∈ (extractPhaseOne H c).hnList :=
        (extractPhaseOne_hnList_mem H c hn).mpr ⟨e, hv, hpin⟩
      rw [hempt] at this
      simp at this
    rw [List.filter_eq_nil.mpr hnovisit]
    simp

/-! ### Counting lemmas for the unit-weight range partition -/

theorem sum_map_one (f : Nat → Nat) :
    ∀ (l : List Nat), (∀ p ∈ l, f p = 1) → (l.map f).sum = l.length := by
  intro l
  induction l with
  | nil => intro _; rfl
  | cons x xs ih =>
      intro h
      rw [List.map_cons, List.sum_cons, h x (List.mem_cons_self x xs),
        ih (fun p hp => h p (List.mem_cons_of_mem _ hp)), List.length_cons]
      omega

theorem filter_lt_add_eq (commf : Nat → Nat) (c : Nat) :
    ∀ (ps : List Nat),
    (ps.filter (fun p => commf p < c)).length + (ps.filter (fun p => commf p = c)).length
      = (ps.filter (fun p => commf p ≤ c)).length := by
  intro ps
  induction ps with
  | nil => rfl
  | cons p rest ih =>
      rw [List.filter_cons, List.filter_cons, List.filter_cons]
      rcases Nat.lt_trichotomy (commf p) c with h | h | h
      · rw [if_pos (by simpa using h), if_neg (by simp; omega),
          if_pos (by simp; omega)]
        simp only [List.length_cons]
        omega
      · rw [if_neg (by simp; omega), if_pos (by simpa using h),
          if_pos (by simp; omega)]
        simp only [List.length_cons]
        omega
      · rw [if_neg (by simp; omega), if_neg (by simp; omega),
          if_neg (by simp; omega)]
        exact ih

theorem filter_le_length_mono (commf : Nat → Nat) (c₁ c₂ : Nat) (h : c₁ < c₂) :
    ∀ (ps : List Nat),
    (ps.filter (fun p => commf p ≤ c₁)).length ≤ (ps.filter (fun p => commf p < c₂)).length := by
  intro ps
  induction ps with
  | nil => exact le_refl _
  | cons p rest ih =>
      rw [List.filter_cons, List.filter_cons]
      by_cases hp : commf p ≤ c₁
      · rw [if_pos (by simpa using hp), if_pos (by simp; omega)]
        simpa using ih
      · rw [if_neg (by simpa using hp)]
        by_cases hp2 : commf p < c₂
        · rw [if_pos (by simpa using hp2)]
          simp only [List.length_cons]
          omega
        · rw [if_neg (by simpa using hp2)]
          exact ih

theorem filter_lt_eq_le_pred (commf : Nat → Nat) (c : Nat) (hc : 1 ≤ c) (ps : List Nat) :
    ps.filter (fun p => commf p < c) = ps.filter (fun p => commf p ≤ c - 1) := by
  refine List.filter_congr ?_
  intro p _
  refine decide_eq_decide.mpr ?_
  omega

theorem le_foldr_max (commf : Nat → Nat) :
    ∀ (ps : List Nat) (p : Nat), p ∈ ps →
      commf p ≤ ps.foldr (fun p m => max (commf p) m) 0 := by
  intro ps
  induction ps with
  | nil => intro p hp; simp at hp
  | cons q rest ih =>
      intro p hp
      rcases List.mem_cons.mp hp with rfl | hp2
      · exact le_max_left _ _
      · exact le_trans (ih p hp2) (le_max_right _ _)

theorem exists_comm_cover (commf : Nat → Nat) (ps : List Nat) (k : Nat)
    (hk : k < ps.length) :
    ∃ c, k < (ps.filter (fun p => commf p ≤ c)).length := by
  refine ⟨ps.foldr (fun p m => max (commf p) m) 0, ?_⟩
  rw [List.filter_eq_self.mpr (fun p hp => by simpa using le_foldr_max commf ps p hp)]
  exact hk

/-! ### The range-partition claim (C2) -/

theorem heList_mem_char (hashF : Nat → Nat) (H : InputHG) (respect : Bool)
    (hwf : H.wf) (c : Nat) (ch : CommunityHyperedge)
    (hch : ch ∈ (extractCommunityInducedSectionHypergraph hashF H c respect).heList) :
    ch.original_he < H.m ∧ (∃ p ∈ H.pins ch.original_he, H.comm p = c) ∧
    ch = ⟨ch.original_he, weightBelow H c ch.original_he,
      weightBelow H c ch.original_he + weightAt H c ch.original_he⟩ := by
  rw [extract_heList] at hch
  obtain ⟨e, he, hch2⟩ := List.mem_map.mp hch
  obtain ⟨hrange, hvf⟩ := List.mem_filter.mp he
  have hm : e < H.m := List.mem_range.mp hrange
  have hvis := (extractPhaseOne_visitedE_iff H hwf c e).mp (by simpa using hvf)
  subst hch2
  exact ⟨hm, hvis.2, rfl⟩

theorem heList_mem_of_visited (hashF : Nat → Nat) (H : InputHG) (respect : Bool)
    (hwf : H.wf) (c e : Nat) (hm : e < H.m) (hp : ∃ p ∈ H.pins e, H.comm p = c) :
    (⟨e, weightBelow H c e, weightBelow H c e + weightAt H c e⟩ : CommunityHyperedge)
      ∈ (extractCommunityInducedSectionHypergraph hashF H c respect).heList := by
  rw [extract_heList]
  refine List.mem_map_of_mem _ ?_
  rw [List.mem_filter]
  refine ⟨List.mem_range.mpr hm, ?_⟩
  simpa using (extractPhaseOne_visitedE_iff H hwf c e).mpr ⟨hm, hp⟩

theorem weightBelow_unit (H : InputHG) (hwf : H.wf)
    (hunit : ∀ hn, hn < H.n → H.nodeW hn = 1) (c e : Nat) (hm : e < H.m) :
    weightBelow H c e = ((H.pins e).filter (fun p => H.comm p < c)).length := by
  unfold weightBelow
  refine sum_map_one _ _ ?_
  intro p hp
  exact hunit p ((hwf.1 e hm).1 p (List.mem_of_mem_filter hp))

theorem weightAt_unit (H : InputHG) (hwf : H.wf)
    (hunit : ∀ hn, hn < H.n → H.nodeW hn = 1) (c e : Nat) (hm : e < H.m) :
    weightAt H c e = ((H.pins e).filter (fun p => H.comm p = c)).length := by
  unfold weightAt
  refine sum_map_one _ _ ?_
  intro p hp
  exact hunit p ((hwf.1 e hm).1 p (List.mem_of_mem_filter hp))

/-- Claim C2 (amended: all hypernode weights are 1): for every original
hyperedge, the CommunityHyperedge ranges issued to the communities are in
increasing order of community id and pairwise disjoint, each range lies
inside [0, activePinCount), and every position below activePinCount is
covered by some community's range — the ranges tile the active pin span. -/
theorem C2_range_partition (hashF : Nat → Nat) (H : InputHG) (respect : Bool)
    (hwf : H.wf) (hunit : ∀ hn, hn < H.n → H.nodeW hn = 1)
    (e : Nat) (he : e < H.m) :
    (∀ c₁ c₂ ch₁ ch₂,
      ch₁ ∈ (extractCommunityInducedSectionHypergraph hashF H c₁ respect).heList →
      ch₂ ∈ (extractCommunityInducedSectionHypergraph hashF H c₂ respect).heList →
      ch₁.original_he = e → ch₂.original_he = e → c₁ < c₂ →
      ch₁.incidence_array_end ≤ ch₂.incidence_array_start) ∧
    (∀ c ch, ch ∈ (extractCommunityInducedSectionHypergraph hashF H c respect).heList →
      ch.original_he = e →
      ch.incidence_array_start ≤ ch.incidence_array_end ∧
      ch.incidence_array_end ≤ (H.pins e).length) ∧
    (∀ k, k < (H.pins e).length →
      ∃ c ch, ch ∈ (extractCommunityInducedSectionHypergraph hashF H c respect).heList ∧
        ch.original_he = e ∧
        ch.incidence_array_start ≤ k ∧ k < ch.incidence_array_end) := by
  refine ⟨?_, ?_, ?_⟩
  · intro c₁ c₂ ch₁ ch₂ h1 h2 ho1 ho2 hc
    obtain ⟨_, _, hch1⟩ := heList_mem_char hashF H respect hwf c₁ ch₁ h1
    obtain ⟨_, _, hch2⟩ := heList_mem_char hashF H respect hwf c₂ ch₂ h2
    have hend1 : ch₁.incidence_array_end
        = weightBelow H c₁ ch₁.original_he + weightAt H c₁ ch₁.original_he :=
      congrArg CommunityHyperedge.incidence_array_end hch1
    have hstart2 : ch₂.incidence_array_start = weightBelow H c₂ ch₂.original_he :=
      congrArg CommunityHyperedge.incidence_array_start hch2
    rw [hend1, hstart2, ho1, ho2,
      weightBelow_unit H hwf hunit c₁ e he, weightAt_unit H hwf hunit c₁ e he,
      weightBelow_unit H hwf hunit c₂ e he, filter_lt_add_eq]
    exact filter_le_length_mono H.comm c₁ c₂ hc (H.pins e)
  · intro c ch hch ho
    obtain ⟨_, _, hch2⟩ := heList_mem_char hashF H respect hwf c ch hch
    have hst : ch.incidence_array_start = weightBelow H c ch.original_he :=
      congrArg CommunityHyperedge.incidence_array_start hch2
    have hend : ch.incidence_array_end
        = weightBelow H c ch.original_he + weightAt H c ch.original_he :=
      congrArg CommunityHyperedge.incidence_array_end hch2
    constructor
    · rw [hst, hend]
      omega
    · rw [hend, ho, weightBelow_unit H hwf hunit c e he,
        weightAt_unit H hwf hunit c e he, filter_lt_add_eq]
      exact List.length_filter_le _ _
  · intro k hk
    obtain ⟨cex, hcex⟩ := exists_comm_cover H.comm (H.pins e) k hk
    have hfind := Nat.find_spec (⟨cex, hcex⟩ :
      ∃ c, k < ((H.pins e).filter (fun p => H.comm p ≤ c)).length)
    set c₀ := Nat.find (⟨cex, hcex⟩ :
      ∃ c, k < ((H.pins e).filter (fun p => H.comm p ≤ c)).length) with hc0
    have hlow : ((H.pins e).filter (fun p => H.comm p < c₀)).length ≤ k := by
      rcases Nat.eq_zero_or_pos c₀ with h0 | hpos
      · rw [h0]
        have : (H.pins e).filter (fun p => H.comm p < 0) = [] := by
          refine List.filter_eq_nil.mpr ?_
          intro p _
          simp
        rw [this]
        exact Nat.zero_le k
      · have hmin := Nat.find_min (⟨cex, hcex⟩ :
          ∃ c, k < ((H.pins e).filter (fun p => H.comm p ≤ c)).length)
          (show c₀ - 1 < c₀ by omega)
        rw [filter_lt_eq_le_pred H.comm c₀ hpos]
        omega
    have hcpin : ∃ p ∈ H.pins e, H.comm p = c₀ := by
      have hparts := filter_lt_add_eq H.comm c₀ (H.pins e)
      have hpos : 0 < ((H.pins e).filter (fun p => H.comm p = c₀)).length := by omega
      obtain ⟨p, hp⟩ := List.exists_mem_of_length_pos hpos
      exact ⟨p, List.mem_of_mem_filter hp, by simpa using (List.mem_filter.mp hp).2⟩
    refine ⟨c₀, ⟨e, weightBelow H c₀ e, weightBelow H c₀ e + weightAt H c₀ e⟩,
      heList_mem_of_visited hashF H respect hwf c₀ e he hcpin, rfl, ?_, ?_⟩
    · show weightBelow H c₀ e ≤ k
      rw [weightBelow_unit H hwf hunit c₀ e he]
      exact hlow
    · show k < weightBelow H c₀ e + weightAt H c₀ e
      rw [weightBelow_unit H hwf hunit c₀ e he, weightAt_unit H hwf hunit c₀ e he,
        filter_lt_add_eq]
      exact hfind

/-- Claim C2 (refuted as stated): with a node of weight 2 the issued range
ends at 3 although the edge has only 2 active pins, so the union of the
issued ranges is not [0, activePinCount). -/
theorem C2_range_partition_weighted_violation :
    (extractCommunityInducedSectionHypergraph (fun x => x) C2_H 1 true).heList
      = [⟨0, 2, 3⟩] ∧
    (C2_H.pins 0).length = 2 ∧
    ¬ ((3 : Nat) ≤ 2) := by
  refine ⟨by decide, by decide, by decide⟩

/-- Witness for C2 on a two-pin unit-weight edge split between communities
0 and 1: community 1's range starts where community 0's ends. -/
theorem C2_range_partition_witness :
    C2_W.wf ∧ (∀ hn, hn < C2_W.n → C2_W.nodeW hn = 1) ∧ (0 : Nat) < C2_W.m ∧
    (∀ k, k < (C2_W.pins 0).length →
      ∃ c ch, ch ∈ (extractCommunityInducedSectionHypergraph (fun x => x) C2_W c true).heList ∧
        ch.original_he = 0 ∧
        ch.incidence_array_start ≤ k ∧ k < ch.incidence_array_end) := by
  have hwf : C2_W.wf := by
    constructor
    · intro e he
      have he1 : e < 1 := he
      have he0 : e = 0 := by omega
      subst he0
      exact ⟨by decide, by decide⟩
    · intro e he
      have he1 : 1 ≤ e := he
      have hne : e ≠ 0 := by omega
      simp [C2_W, hne]
  have hunit : ∀ hn, hn < C2_W.n → C2_W.nodeW hn = 1 := by
    intro hn _
    rfl
  exact ⟨hwf, hunit, by decide,
    (C2_range_partition (fun x => x) C2_W true hwf hunit 0 (by decide)).2.2⟩

/-! ### Round-trip (C3): arithmetic of the fresh store and generic helpers -/

theorem sumLens_nil (H : InputHG) : sumLens H [] = 0 := rfl

theorem sumLens_cons (H : InputHG) (e : Nat) (l : List Nat) :
    sumLens H (e :: l) = (H.pins e).length + sumLens H l := by
  unfold sumLens
  rw [List.map_cons, List.sum_cons]

theorem sumLens_take_succ (H : InputHG) :
    ∀ (es : List Nat) (i : Nat), i < es.length →
      sumLens H (es.take (i + 1)) = sumLens H (es.take i) + (H.pins (es.getD i 0)).length := by
  intro es
  induction es with
  | nil => intro i hi; simp at hi
  | cons e rest ih =>
      intro i hi
      cases i with
      | zero => simp [sumLens_cons, sumLens_nil]
      | succ j =>
          rw [List.take_succ_cons, List.take_succ_cons, sumLens_cons, sumLens_cons,
            ih j (by simpa using hi), List.getD_cons_succ]
          omega

theorem feOf_succ (H : InputHG) (e : Nat) :
    feOf H (e + 1) = feOf H e + (H.pins e).length := by
  unfold feOf
  rw [List.range_succ e, List.map_append, List.sum_append]
  simp

theorem feOf_mono (H : InputHG) (a : Nat) : ∀ d, feOf H a ≤ feOf H (a + d) := by
  intro d
  induction d with
  | zero => exact le_refl _
  | succ k ih =>
      have : a + (k + 1) = (a + k) + 1 := by omega
      rw [this, feOf_succ]
      omega

theorem feOf_add_le (H : InputHG) (e e' : Nat) (h : e < e') :
    feOf H e + (H.pins e).length ≤ feOf H e' := by
  rw [← feOf_succ]
  have h2 : e' = (e + 1) + (e' - (e + 1)) := by omega
  rw [h2]
  exact feOf_mono H (e + 1) (e' - (e + 1))

theorem writeSeq_inside :
    ∀ (L : List Nat) (arr : Nat → Nat) (p k : Nat), k < L.length →
      writeSeq arr p L (p + k) = L.getD k 0 := by
  intro L
  induction L with
  | nil => intro arr p k hk; simp at hk
  | cons y ys ih =>
      intro arr p k hk
      cases k with
      | zero =>
          rw [writeSeq]
          show writeSeq (Function.update arr p y) (p + 1) ys p = y
          rw [writeSeq_outside ys _ (p + 1) p (Or.inl (Nat.lt_succ_self p))]
          exact Function.update_same _ _ _
      | succ j =>
          rw [writeSeq]
          have harith : p + (j + 1) = (p + 1) + j := by omega
          rw [harith, ih _ (p + 1) j (by simpa using hk)]
          rfl

theorem seg_getD (arr : Nat → Nat) (a b k : Nat) (h : k < b - a) :
    (seg arr a b).getD k 0 = arr (a + k) := by
  unfold seg
  rw [List.getD_eq_getElem _ _ (by simpa using h)]
  simp

theorem getD_map_of_lt {α β : Type} (f : α → β) (l : List α) (i : Nat) (d : β) (d₀ : α)
    (h : i < l.length) : (l.map f).getD i d = f (l.getD i d₀) := by
  rw [List.getD_eq_getElem _ _ (by simpa using h), List.getD_eq_getElem _ _ h,
    List.getElem_map]

theorem getD_mem_of_lt {α : Type} (l : List α) (i : Nat) (d : α) (h : i < l.length) :
    l.getD i d ∈ l := by
  rw [List.getD_eq_getElem _ _ h]
  exact List.getElem_mem h

theorem getD_inj_of_nodup {α : Type} (l : List α) (hnd : l.Nodup) (i j : Nat) (d : α)
    (hi : i < l.length) (hj : j < l.length) (heq : l.getD i d = l.getD j d) : i = j := by
  rw [List.getD_eq_getElem _ _ hi, List.getD_eq_getElem _ _ hj] at heq
  have h2 : l.get ⟨i, hi⟩ = l.get ⟨j, hj⟩ := heq
  have h3 := (List.Nodup.get_inj_iff hnd).mp h2
  exact congrArg Fin.val h3

theorem vesOf_nodup (H : InputHG) (c : Nat) : (vesOf H c).Nodup :=
  List.Nodup.filter _ (List.nodup_range H.m)

theorem vesOf_mem (H : InputHG) (c e : Nat) :
    e ∈ vesOf H c ↔ e < H.m ∧ (extractPhaseOne H c).visitedE e = true := by
  unfold vesOf
  rw [List.mem_filter, List.mem_range]

theorem hnL_mem (H : InputHG) (c : Nat) (respect : Bool) (q : Nat) :
    q ∈ hnL H c respect ↔ q ∈ (extractPhaseOne H c).hnList := by
  unfold hnL
  by_cases hr : respect
  · rw [if_pos hr]
    exact List.mem_insertionSort _
  · rw [if_neg hr]

theorem hnL_nodup (H : InputHG) (c : Nat) (respect : Bool) : (hnL H c respect).Nodup := by
  unfold hnL
  by_cases hr : respect
  · rw [if_pos hr]
    exact (List.perm_insertionSort _ _).nodup_iff.mpr (extractPhaseOne_hnList_nodup H c)
  · rw [if_neg hr]
    exact extractPhaseOne_hnList_nodup H c

/-! ### Round-trip (C3): the second extraction loop in closed form -/

theorem builtEdges_length (H : InputHG) (hashF : Nat → Nat) (L : List Nat) :
    ∀ (es : List Nat) (base : Nat), (builtEdges H hashF L base es).length = es.length := by
  intro es
  induction es with
  | nil => intro base; rfl
  | cons e rest ih =>
      intro base
      rw [builtEdges, List.length_cons, List.length_cons, ih]

theorem builtEdges_getD (H : InputHG) (hashF : Nat → Nat) (L : List Nat) (d : Hyperedge) :
    ∀ (es : List Nat) (base i : Nat), i < es.length →
      (builtEdges H hashF L base es).getD i d
        = ⟨base + sumLens H (es.take i), (H.pins (es.getD i 0)).length,
            H.edgeW (es.getD i 0), true,
            (((H.pins (es.getD i 0)).map (fun p => L.indexOf p)).map hashF).sum⟩ := by
  intro es
  induction es with
  | nil => intro base i hi; simp at hi
  | cons e rest ih =>
      intro base i hi
      cases i with
      | zero =>
          rw [builtEdges]
          show (⟨base, (H.pins e).length, H.edgeW e, true,
            (((H.pins e).map (fun p => L.indexOf p)).map hashF).sum⟩ : Hyperedge) = _
          have h0 : base + sumLens H ((e :: rest).take 0) = base := by
            rw [List.take_zero, sumLens_nil]
            omega
          rw [h0]
          rfl
      | succ j =>
          rw [builtEdges, List.getD_cons_succ, List.getD_cons_succ,
            ih (base + (H.pins e).length) j (by simpa using hi)]
          have h1 : base + (H.pins e).length + sumLens H (rest.take j)
              = base + sumLens H ((e :: rest).take (j + 1)) := by
            rw [List.take_succ_cons, sumLens_cons]
            omega
          rw [h1]

theorem buildFold_pair (H : InputHG) (c : Nat) (L : List Nat) (hashF : Nat → Nat)
    (vF : Nat → Bool) :
    ∀ (es : List Nat) (acc : List Hyperedge × List Nat × List CommunityHyperedge),
      (es.foldl (edgeBuildStep H c L hashF vF) acc).1
          = acc.1 ++ builtEdges H hashF L acc.2.1.length (es.filter (fun e => vF e))
      ∧ (es.foldl (edgeBuildStep H c L hashF vF) acc).2.1
          = acc.2.1 ++ ((es.filter (fun e => vF e)).map
              (fun e => (H.pins e).map (fun p => L.indexOf p))).flatten := by
  intro es
  induction es with
  | nil => intro acc; simp [builtEdges]
  | cons e rest ih =>
      intro acc
      rw [List.foldl_cons, List.filter_cons]
      by_cases h : vF e = true
      · have hstep : edgeBuildStep H c L hashF vF acc e
            = (acc.1 ++ [⟨acc.2.1.length, (H.pins e).length, H.edgeW e, true,
                 (((H.pins e).map (fun p => L.indexOf p)).map hashF).sum⟩],
               acc.2.1 ++ (H.pins e).map (fun p => L.indexOf p),
               acc.2.2 ++ [⟨e, startOf (commSizesOf H (H.pins e)) c,
                 startOf (commSizesOf H (H.pins e)) c
                   + sizeOfC (commSizesOf H (H.pins e)) c⟩]) := by
          unfold edgeBuildStep
          rw [if_pos h]
        obtain ⟨ih1, ih2⟩ := ih (edgeBuildStep H c L hashF vF acc e)
        rw [if_pos h]
        constructor
        · rw [ih1, hstep]
          show (acc.1 ++ [_]) ++ builtEdges H hashF L
              (acc.2.1 ++ (H.pins e).map (fun p => L.indexOf p)).length
              (rest.filter (fun e => vF e)) = _
          rw [builtEdges]
          have hlen : (acc.2.1 ++ (H.pins e).map (fun p => L.indexOf p)).length
              = acc.2.1.length + (H.pins e).length := by
            rw [List.length_append, List.length_map]
          rw [hlen, List.append_assoc]
          rfl
        · rw [ih2, hstep]
          show (acc.2.1 ++ (H.pins e).map (fun p => L.indexOf p)) ++ _ = _
          rw [List.map_cons, List.flatten_cons, List.append_assoc]
      · have hstep : edgeBuildStep H c L hashF vF acc e = acc := by
          unfold edgeBuildStep
          rw [if_neg h]
        rw [hstep, if_neg h]
        exact ih acc

theorem extract_hnList (hashF : Nat → Nat) (H : InputHG) (c : Nat) (respect : Bool) :
    (extractCommunityInducedSectionHypergraph hashF H c respect).hnList
      = hnL H c respect := by
  unfold extractCommunityInducedSectionHypergraph hnL
  by_cases hlen : 0 < (if respect then
      List.insertionSort (fun a b => a ≤ b) (extractPhaseOne H c).hnList
    else (extractPhaseOne H c).hnList).length
  · rw [if_pos hlen]
  · rw [if_neg hlen]

theorem extract_numNodes (hashF : Nat → Nat) (H : InputHG) (c : Nat) (respect : Bool) :
    (extractCommunityInducedSectionHypergraph hashF H c respect).numNodes
      = (hnL H c respect).length := by
  unfold extractCommunityInducedSectionHypergraph hnL
  by_cases hlen : 0 < (if respect then
      List.insertionSort (fun a b => a ≤ b) (extractPhaseOne H c).hnList
    else (extractPhaseOne H c).hnList).length
  · rw [if_pos hlen]
  · rw [if_neg hlen]
    show 0 = _
    omega

theorem extract_commId (hashF : Nat → Nat) (H : InputHG) (c : Nat) (respect : Bool) :
    (extractCommunityInducedSectionHypergraph hashF H c respect).community_id = c := by
  unfold extractCommunityInducedSectionHypergraph
  by_cases hlen : 0 < (if respect then
      List.insertionSort (fun a b => a ≤ b) (extractPhaseOne H c).hnList
    else (extractPhaseOne H c).hnList).length
  · rw [if_pos hlen]
  · rw [if_neg hlen]

theorem extract_subEdges (hashF : Nat → Nat) (H : InputHG) (c : Nat) (respect : Bool)
    (hpos : 0 < (hnL H c respect).length) :
    (extractCommunityInducedSectionHypergraph hashF H c respect).subEdges
      = builtEdges H hashF (hnL H c respect) 0 (vesOf H c) := by
  unfold extractCommunityInducedSectionHypergraph
  rw [if_pos (show 0 < (if respect then
      List.insertionSort (fun a b => a ≤ b) (extractPhaseOne H c).hnList
    else (extractPhaseOne H c).hnList).length from hpos)]
  show ((List.range H.m).foldl (edgeBuildStep H c _ hashF
      (extractPhaseOne H c).visitedE) ([], [], [])).1 = _
  rw [(buildFold_pair H c _ hashF (extractPhaseOne H c).visitedE (List.range H.m)
    ([], [], [])).1]
  rfl

theorem extract_subInc (hashF : Nat → Nat) (H : InputHG) (c : Nat) (respect : Bool)
    (hpos : 0 < (hnL H c respect).length) :
    (extractCommunityInducedSectionHypergraph hashF H c respect).subInc
      = ((vesOf H c).map
          (fun e => (H.pins e).map (fun p => (hnL H c respect).indexOf p))).flatten := by
  unfold extractCommunityInducedSectionHypergraph
  rw [if_pos (show 0 < (if respect then
      List.insertionSort (fun a b => a ≤ b) (extractPhaseOne H c).hnList
    else (extractPhaseOne H c).hnList).length from hpos)]
  show ((List.range H.m).foldl (edgeBuildStep H c _ hashF
      (extractPhaseOne H c).visitedE) ([], [], [])).2.1 = _
  rw [(buildFold_pair H c _ hashF (extractPhaseOne H c).visitedE (List.range H.m)
    ([], [], [])).2]
  rfl

theorem length_flatten_map_pins (H : InputHG) (L : List Nat) (es : List Nat) :
    ((es.map (fun e => (H.pins e).map (fun p => L.indexOf p))).flatten).length
      = sumLens H es := by
  rw [List.length_flatten, List.map_map]
  unfold sumLens
  congr 1
  apply List.map_congr_left
  intro e _
  simp

theorem subFE_rt (hashF : Nat → Nat) (H : InputHG) (c : Nat) (respect : Bool)
    (hpos : 0 < (hnL H c respect).length) (le : Nat) (hle : le ≤ (vesOf H c).length) :
    subFE (extractCommunityInducedSectionHypergraph hashF H c respect) le
      = sumLens H ((vesOf H c).take le) := by
  unfold subFE
  rw [extract_subEdges hashF H c respect hpos, extract_subInc hashF H c respect hpos,
    builtEdges_length]
  by_cases h : le < (vesOf H c).length
  · rw [if_pos h, builtEdges_getD H hashF _ _ (vesOf H c) 0 le h]
    show 0 + sumLens H ((vesOf H c).take le) = _
    omega
  · rw [if_neg h]
    have hlen : le = (vesOf H c).length := by omega
    rw [length_flatten_map_pins, hlen, List.take_length]

theorem extract_subEdges_getD (hashF : Nat → Nat) (H : InputHG) (c : Nat) (respect : Bool)
    (hpos : 0 < (hnL H c respect).length) (le : Nat) (hle : le < (vesOf H c).length) :
    (extractCommunityInducedSectionHypergraph hashF H c respect).subEdges.getD le
        ⟨0, 0, 0, true, 0⟩
      = ⟨sumLens H ((vesOf H c).take le), (H.pins ((vesOf H c).getD le 0)).length,
          H.edgeW ((vesOf H c).getD le 0), true,
          (((H.pins ((vesOf H c).getD le 0)).map
              (fun p => (hnL H c respect).indexOf p)).map hashF).sum⟩ := by
  rw [extract_subEdges hashF H c respect hpos,
    builtEdges_getD H hashF _ _ (vesOf H c) 0 le hle]
  have h0 : (0 : Nat) + sumLens H ((vesOf H c).take le)
      = sumLens H ((vesOf H c).take le) := by omega
  rw [h0]

theorem extract_heMap_rt (hashF : Nat → Nat) (H : InputHG) (c : Nat) (respect : Bool)
    (le : Nat) (hle : le < (vesOf H c).length) :
    (extractCommunityInducedSectionHypergraph hashF H c respect).heList.getD le ⟨0, 0, 0⟩
      = ⟨(vesOf H c).getD le 0, weightBelow H c ((vesOf H c).getD le 0),
          weightBelow H c ((vesOf H c).getD le 0)
            + weightAt H c ((vesOf H c).getD le 0)⟩ := by
  rw [extract_heList]
  unfold vesOf at hle ⊢
  exact getD_map_of_lt _ _ le _ 0 hle

theorem localPinsOfR_rt (hashF : Nat → Nat) (H : InputHG) (c : Nat) (respect : Bool)
    (hpos : 0 < (hnL H c respect).length) (le : Nat) (hle : le < (vesOf H c).length) :
    localPinsOfR (extractCommunityInducedSectionHypergraph hashF H c respect) le
      = (H.pins ((vesOf H c).getD le 0)).map (fun p => (hnL H c respect).indexOf p) := by
  unfold localPinsOfR
  rw [subFE_rt hashF H c respect hpos (le + 1) (by omega),
    subFE_rt hashF H c respect hpos le (by omega),
    sumLens_take_succ H (vesOf H c) le hle, Nat.add_sub_cancel_left,
    extract_subInc hashF H c respect hpos]
  have hlm : le < ((vesOf H c).map
      (fun e => (H.pins e).map (fun p => (hnL H c respect).indexOf p))).length := by
    rw [List.length_map]
    exact hle
  have htake : ((((vesOf H c).map
      (fun e => (H.pins e).map (fun p => (hnL H c respect).indexOf p))).take le).flatten).length
      = sumLens H ((vesOf H c).take le) := by
    rw [← List.map_take, length_flatten_map_pins]
  have hblock : ((vesOf H c).map
      (fun e => (H.pins e).map (fun p => (hnL H c respect).indexOf p))).getD le []
      = (H.pins ((vesOf H c).getD le 0)).map (fun p => (hnL H c respect).indexOf p) :=
    getD_map_of_lt _ _ le [] 0 hle
  have hpoint : ∀ k, k < (H.pins ((vesOf H c).getD le 0)).length →
      (((vesOf H c).map
        (fun e => (H.pins e).map (fun p => (hnL H c respect).indexOf p))).flatten).getD
          (sumLens H ((vesOf H c).take le) + k) 0
        = ((H.pins ((vesOf H c).getD le 0)).map
            (fun p => (hnL H c respect).indexOf p)).getD k 0 := by
    intro k hk
    rw [flatten_split _ le hlm,
      List.getD_append_right _ _ 0 _ (by rw [htake]; omega), htake,
      Nat.add_sub_cancel_left,
      List.getD_append _ _ 0 k (by rw [hblock, List.length_map]; omega), hblock]
  have hfin : (List.range (H.pins ((vesOf H c).getD le 0)).length).map
      (fun k => (((vesOf H c).map
        (fun e => (H.pins e).map (fun p => (hnL H c respect).indexOf p))).flatten).getD
          (sumLens H ((vesOf H c).take le) + k) 0)
      = (List.range (H.pins ((vesOf H c).getD le 0)).length).map
          (fun k => ((H.pins ((vesOf H c).getD le 0)).map
            (fun p => (hnL H c respect).indexOf p)).getD k 0) := by
    apply List.map_congr_left
    intro k hk
    exact hpoint k (List.mem_range.mp hk)
  rw [hfin]
  have hlen2 : (H.pins ((vesOf H c).getD le 0)).length
      = ((H.pins ((vesOf H c).getD le 0)).map
          (fun p => (hnL H c respect).indexOf p)).length := by
    rw [List.length_map]
  rw [hlen2, map_range_getD]

theorem getD_indexOf (l : List Nat) (p : Nat) (hp : p ∈ l) :
    l.getD (l.indexOf p) 0 = p := by
  have hlt : l.indexOf p < l.length := List.indexOf_lt_length.mpr hp
  rw [List.getD_eq_getElem _ _ hlt]
  show l.get ⟨l.indexOf p, hlt⟩ = p
  exact List.indexOf_get hlt

/-- Phase 1 edge body in the benign case: the write-back of the community's
pins is the only effect when the weight comparison would write back the
unchanged weight and the local edge is still enabled. -/
theorem phase1Edge_generic (M : HGState) (s : SubInput) (he : Nat)
    (hwrec : { M.edges (s.heMap he).original_he with weight := s.edgeW he }
        = M.edges (s.heMap he).original_he)
    (hen : s.edgeEnabled he = true) :
    phase1Edge M s he
      = { M with
          arr := writeSeq M.arr ((M.edges (s.heMap he).original_he).firstEntry + (s.heMap he).incidence_array_start) (((localPins s he).filter (fun pin => s.subComm pin = s.community_id)).map s.hnMap) } := by
  unfold phase1Edge
  rw [hen, if_pos rfl]
  split
  · show { M with
        arr := writeSeq M.arr ((M.edges (s.heMap he).original_he).firstEntry + (s.heMap he).incidence_array_start) (((localPins s he).filter (fun pin => s.subComm pin = s.community_id)).map s.hnMap),
        edges := Function.update M.edges (s.heMap he).original_he { M.edges (s.heMap he).original_he with weight := s.edgeW he } } = _
    rw [hwrec, Function.update_eq_self]
  · rfl

/-- In the round trip with unit weights, processing one first-visited local
hyperedge writes the community's pins into the reserved slice of the
original edge's span and changes nothing else. -/
theorem phase1Edge_rt (hashF : Nat → Nat) (H : InputHG) (c : Nat) (respect : Bool)
    (hwf : H.wf) (hunit : ∀ hn, hn < H.n → H.nodeW hn = 1)
    (M : HGState) (hedges : M.edges = (fromInput H).edges)
    (le : Nat) (hle : le < (vesOf H c).length) :
    phase1Edge M (toSubInput H (extractCommunityInducedSectionHypergraph hashF H c respect)) le
      = { M with
          arr := writeSeq M.arr (feOf H ((vesOf H c).getD le 0) + cntLt H c ((vesOf H c).getD le 0)) (contentOf H c ((vesOf H c).getD le 0)) } := by
  have hmem : (vesOf H c).getD le 0 ∈ vesOf H c := getD_mem_of_lt _ le 0 hle
  obtain ⟨hm, hvis⟩ := (vesOf_mem H c _).mp hmem
  obtain ⟨hm', p0, hp0, hc0⟩ := (extractPhaseOne_visitedE_iff H hwf c _).mp hvis
  have hinL : ∀ p ∈ H.pins ((vesOf H c).getD le 0), p ∈ hnL H c respect := by
    intro p hp
    exact (hnL_mem H c respect p).mpr
      ((extractPhaseOne_hnList_mem H c p).mpr ⟨(vesOf H c).getD le 0, hvis, hp⟩)
  have hpos : 0 < (hnL H c respect).length :=
    List.length_pos.mpr (List.ne_nil_of_mem (hinL p0 hp0))
  have hheMapEq : (toSubInput H
      (extractCommunityInducedSectionHypergraph hashF H c respect)).heMap le
      = ⟨(vesOf H c).getD le 0, weightBelow H c ((vesOf H c).getD le 0),
          weightBelow H c ((vesOf H c).getD le 0)
            + weightAt H c ((vesOf H c).getD le 0)⟩ := by
    show (extractCommunityInducedSectionHypergraph hashF H c respect).heList.getD le
        ⟨0, 0, 0⟩ = _
    exact extract_heMap_rt hashF H c respect le hle
  have hOrig : ((toSubInput H
      (extractCommunityInducedSectionHypergraph hashF H c respect)).heMap le).original_he
      = (vesOf H c).getD le 0 := by
    rw [hheMapEq]
  have hStart : ((toSubInput H
      (extractCommunityInducedSectionHypergraph hashF H c respect)).heMap
        le).incidence_array_start
      = cntLt H c ((vesOf H c).getD le 0) := by
    rw [hheMapEq]
    show weightBelow H c ((vesOf H c).getD le 0) = _
    rw [weightBelow_unit H hwf hunit c _ hm]
    rfl
  have hW : (toSubInput H
      (extractCommunityInducedSectionHypergraph hashF H c respect)).edgeW le
      = H.edgeW ((vesOf H c).getD le 0) := by
    show ((extractCommunityInducedSectionHypergraph hashF H c respect).subEdges.getD le
        ⟨0, 0, 0, true, 0⟩).weight = _
    rw [extract_subEdges_getD hashF H c respect hpos le hle]
  have hen : (toSubInput H
      (extractCommunityInducedSectionHypergraph hashF H c respect)).edgeEnabled le
      = true := by
    show ((extractCommunityInducedSectionHypergraph hashF H c respect).subEdges.getD le
        ⟨0, 0, 0, true, 0⟩).enabled = true
    rw [extract_subEdges_getD hashF H c respect hpos le hle]
  have hcid : (toSubInput H
      (extractCommunityInducedSectionHypergraph hashF H c respect)).community_id = c := by
    show (extractCommunityInducedSectionHypergraph hashF H c respect).community_id = c
    exact extract_commId hashF H c respect
  have hlp : localPins (toSubInput H
      (extractCommunityInducedSectionHypergraph hashF H c respect)) le
      = (H.pins ((vesOf H c).getD le 0)).map (fun p => (hnL H c respect).indexOf p) := by
    show localPinsOfR (extractCommunityInducedSectionHypergraph hashF H c respect) le = _
    exact localPinsOfR_rt hashF H c respect hpos le hle
  have hwrec : { M.edges ((toSubInput H
        (extractCommunityInducedSectionHypergraph hashF H c respect)).heMap
          le).original_he with
      weight := (toSubInput H
        (extractCommunityInducedSectionHypergraph hashF H c respect)).edgeW le }
      = M.edges ((toSubInput H
          (extractCommunityInducedSectionHypergraph hashF H c respect)).heMap
            le).original_he := by
    rw [hOrig, hW, hedges]
    rfl
  rw [phase1Edge_generic M _ le hwrec hen]
  have hps : (((localPins (toSubInput H
        (extractCommunityInducedSectionHypergraph hashF H c respect)) le).filter
          (fun pin => (toSubInput H
            (extractCommunityInducedSectionHypergraph hashF H c respect)).subComm pin
            = (toSubInput H
                (extractCommunityInducedSectionHypergraph hashF H c respect)).community_id)).map
        (toSubInput H (extractCommunityInducedSectionHypergraph hashF H c respect)).hnMap)
      = contentOf H c ((vesOf H c).getD le 0) := by
    rw [hcid, hlp, List.map_filter, List.map_map]
    have hfilt : (H.pins ((vesOf H c).getD le 0)).filter
        ((fun pin => decide ((toSubInput H
          (extractCommunityInducedSectionHypergraph hashF H c respect)).subComm pin = c))
          ∘ (fun p => (hnL H c respect).indexOf p))
        = contentOf H c ((vesOf H c).getD le 0) := by
      unfold contentOf
      refine List.filter_congr ?_
      intro p hp
      show decide ((toSubInput H
          (extractCommunityInducedSectionHypergraph hashF H c respect)).subComm
            ((hnL H c respect).indexOf p) = c)
        = decide (H.comm p = c)
      have hsc : (toSubInput H
          (extractCommunityInducedSectionHypergraph hashF H c respect)).subComm
            ((hnL H c respect).indexOf p) = H.comm p := by
        show H.comm ((extractCommunityInducedSectionHypergraph hashF H c
            respect).hnList.getD ((hnL H c respect).indexOf p) 0) = _
        rw [extract_hnList, getD_indexOf _ p (hinL p hp)]
      rw [hsc]
    rw [hfilt]
    have hid : ∀ p ∈ contentOf H c ((vesOf H c).getD le 0),
        ((toSubInput H (extractCommunityInducedSectionHypergraph hashF H c respect)).hnMap
          ∘ (fun p => (hnL H c respect).indexOf p)) p = p := by
      intro p hp
      show (extractCommunityInducedSectionHypergraph hashF H c respect).hnList.getD
          ((hnL H c respect).indexOf p) 0 = p
      rw [extract_hnList]
      exact getD_indexOf _ p (hinL p (List.mem_of_mem_filter hp))
    rw [List.map_congr_left hid, List.map_id']
  rw [hps, hOrig, hStart, hedges]
  rfl

theorem cnt_le_len (H : InputHG) (c e : Nat) :
    cntLt H c e + cntEq H c e ≤ (H.pins e).length := by
  unfold cntLt cntEq
  rw [filter_lt_add_eq]
  exact List.length_filter_le _ _

theorem region_disjoint_edges (H : InputHG) (c c' e e' : Nat) (hne : e ≠ e') (q : Nat)
    (h1 : feOf H e + cntLt H c e ≤ q ∧ q < feOf H e + cntLt H c e + cntEq H c e)
    (h2 : feOf H e' + cntLt H c' e' ≤ q ∧
      q < feOf H e' + cntLt H c' e' + cntEq H c' e') :
    False := by
  have hs1 := cnt_le_len H c e
  have hs2 := cnt_le_len H c' e'
  rcases Nat.lt_or_ge e e' with h | h
  · have := feOf_add_le H e e' h
    omega
  · have he' : e' < e := by omega
    have := feOf_add_le H e' e he'
    omega

theorem region_disjoint_comms (H : InputHG) (c c' e : Nat) (hne : c ≠ c') (q : Nat)
    (h1 : feOf H e + cntLt H c e ≤ q ∧ q < feOf H e + cntLt H c e + cntEq H c e)
    (h2 : feOf H e + cntLt H c' e ≤ q ∧ q < feOf H e + cntLt H c' e + cntEq H c' e) :
    False := by
  rcases Nat.lt_or_ge c c' with h | h
  · have hm := filter_le_length_mono H.comm c c' h (H.pins e)
    have ha := filter_lt_add_eq H.comm c (H.pins e)
    unfold cntLt cntEq at h1 h2
    omega
  · have hcc : c' < c := by omega
    have hm := filter_le_length_mono H.comm c' c hcc (H.pins e)
    have ha := filter_lt_add_eq H.comm c' (H.pins e)
    unfold cntLt cntEq at h1 h2
    omega

theorem contentOf_length (H : InputHG) (c e : Nat) :
    (contentOf H c e).length = cntEq H c e := rfl

theorem netsFold_rt (hashF : Nat → Nat) (H : InputHG) (c : Nat) (respect : Bool)
    (hwf : H.wf) (hunit : ∀ hn, hn < H.n → H.nodeW hn = 1) (M0 : HGState) :
    ∀ (nets : List Nat), (∀ le ∈ nets, le < (vesOf H c).length) →
    ∀ P, RTInv H c M0 P →
      RTInv H c M0 (nets.foldl
        (fun (acc : HGState × (Nat → Bool)) he =>
          if acc.2 he then acc
          else (phase1Edge acc.1
              (toSubInput H (extractCommunityInducedSectionHypergraph hashF H c respect)) he,
            Function.update acc.2 he true)) P) ∧
      (∀ le, (nets.foldl
        (fun (acc : HGState × (Nat → Bool)) he =>
          if acc.2 he then acc
          else (phase1Edge acc.1
              (toSubInput H (extractCommunityInducedSectionHypergraph hashF H c respect)) he,
            Function.update acc.2 he true)) P).2 le = true
        ↔ P.2 le = true ∨ le ∈ nets) := by
  intro nets
  induction nets with
  | nil =>
      intro _ P hInv
      refine ⟨hInv, ?_⟩
      intro le
      simp
  | cons le₀ rest ih =>
      intro hb P hInv
      have hle₀ : le₀ < (vesOf H c).length := hb le₀ (List.mem_cons_self le₀ rest)
      rw [List.foldl_cons]
      by_cases hvis : P.2 le₀ = true
      · rw [if_pos hvis]
        obtain ⟨ihInv, ihIff⟩ := ih (fun le hle => hb le (List.mem_cons_of_mem _ hle)) P hInv
        refine ⟨ihInv, ?_⟩
        intro le
        rw [ihIff le, List.mem_cons]
        constructor
        · rintro (h | h)
          · exact Or.inl h
          · exact Or.inr (Or.inr h)
        · rintro (h | h | h)
          · exact Or.inl h
          · subst h
            exact Or.inl hvis
          · exact Or.inr h
      · rw [if_neg hvis]
        obtain ⟨hedges, hnodes, hnn, hne2, hdone, hout⟩ := hInv
        have hstep := phase1Edge_rt hashF H c respect hwf hunit P.1 hedges le₀ hle₀
        have hInv' : RTInv H c M0 (phase1Edge P.1
            (toSubInput H (extractCommunityInducedSectionHypergraph hashF H c respect)) le₀,
            Function.update P.2 le₀ true) := by
          refine ⟨?_, ?_, ?_, ?_, ?_, ?_⟩
          · rw [hstep]
            exact hedges
          · rw [hstep]
            exact hnodes
          · rw [hstep]
            exact hnn
          · rw [hstep]
            exact hne2
          · intro le hvis'
            by_cases heq : le = le₀
            · subst heq
              refine ⟨hle₀, ?_⟩
              intro k hk
              show (phase1Edge P.1 _ le).arr _ = _
              rw [hstep]
              show writeSeq P.1.arr
                  (feOf H ((vesOf H c).getD le 0) + cntLt H c ((vesOf H c).getD le 0))
                  (contentOf H c ((vesOf H c).getD le 0)) _ = _
              rw [writeSeq_inside _ _ _ k (by rw [contentOf_length]; exact hk)]
            · have hvisP : P.2 le = true := by
                have hv2 : Function.update P.2 le₀ true le = true := hvis'
                rw [Function.update_noteq heq] at hv2
                exact hv2
              obtain ⟨hlt, hvals⟩ := hdone le hvisP
              refine ⟨hlt, ?_⟩
              intro k hk
              show (phase1Edge P.1 _ le₀).arr _ = _
              rw [hstep]
              show writeSeq P.1.arr
                  (feOf H ((vesOf H c).getD le₀ 0) + cntLt H c ((vesOf H c).getD le₀ 0))
                  (contentOf H c ((vesOf H c).getD le₀ 0)) _ = _
              rw [writeSeq_outside _ _ _ _ ?_]
              · exact hvals k hk
              · rw [contentOf_length]
                have hnedge : (vesOf H c).getD le 0 ≠ (vesOf H c).getD le₀ 0 := by
                  intro hcontra
                  exact heq (getD_inj_of_nodup _ (vesOf_nodup H c) le le₀ 0 hlt hle₀ hcontra)
                by_contra hin
                push_neg at hin
                exact region_disjoint_edges H c c _ _ hnedge
                  (feOf H ((vesOf H c).getD le 0) + cntLt H c ((vesOf H c).getD le 0) + k)
                  ⟨by omega, by omega⟩ ⟨by omega, by omega⟩
          · intro q hq
            have hq₀ := hq le₀ (Function.update_same le₀ true P.2)
            show (phase1Edge P.1 _ le₀).arr q = _
            rw [hstep]
            show writeSeq P.1.arr
                (feOf H ((vesOf H c).getD le₀ 0) + cntLt H c ((vesOf H c).getD le₀ 0))
                (contentOf H c ((vesOf H c).getD le₀ 0)) q = _
            rw [writeSeq_outside _ _ _ _ (by rw [contentOf_length]; omega)]
            refine hout q ?_
            intro le hvisP
            refine hq le ?_
            show Function.update P.2 le₀ true le = true
            by_cases heq : le = le₀
            · subst heq
              rw [Function.update_same]
            · rw [Function.update_noteq heq]
              exact hvisP
        obtain ⟨ihInv, ihIff⟩ := ih (fun le hle => hb le (List.mem_cons_of_mem _ hle)) _ hInv'
        refine ⟨ihInv, ?_⟩
        intro le
        rw [ihIff le, List.mem_cons]
        show (Function.update P.2 le₀ true le = true ∨ le ∈ rest) ↔ _
        by_cases heq : le = le₀
        · subst heq
          rw [Function.update_same]
          constructor
          · intro _
            exact Or.inr (Or.inl rfl)
          · intro _
            exact Or.inl rfl
        · rw [Function.update_noteq heq]
          constructor
          · rintro (h | h)
            · exact Or.inl h
            · exact Or.inr (Or.inr h)
          · rintro (h | h | h)
            · exact Or.inl h
            · exact absurd h heq
            · exact Or.inr h

theorem extract_subEdges_empty (hashF : Nat → Nat) (H : InputHG) (c : Nat) (respect : Bool)
    (hneg : ¬ 0 < (hnL H c respect).length) :
    (extractCommunityInducedSectionHypergraph hashF H c respect).subEdges = [] := by
  unfold extractCommunityInducedSectionHypergraph
  rw [if_neg (show ¬ 0 < (if respect then
      List.insertionSort (fun a b => a ≤ b) (extractPhaseOne H c).hnList
    else (extractPhaseOne H c).hnList).length from hneg)]

theorem nodeNets_bound (hashF : Nat → Nat) (H : InputHG) (c : Nat) (respect : Bool)
    (hn le : Nat)
    (hle : le ∈ (toSubInput H
      (extractCommunityInducedSectionHypergraph hashF H c respect)).nodeNets hn) :
    le < (vesOf H c).length := by
  have hlt : le < (extractCommunityInducedSectionHypergraph hashF H c
      respect).subEdges.length :=
    List.mem_range.mp (List.mem_filter.mp hle).1
  by_cases hpos : 0 < (hnL H c respect).length
  · rw [extract_subEdges hashF H c respect hpos, builtEdges_length] at hlt
    exact hlt
  · rw [extract_subEdges_empty hashF H c respect hpos] at hlt
    simp at hlt

theorem update_node_WE (H : InputHG) (nodes : Nat → Hypernode) (key : Nat)
    (nets : List Nat) (w : Nat) (en : Bool)
    (hw : w = H.nodeW key) (hen : en = true)
    (hnodes : ∀ q, (nodes q).weight = H.nodeW q ∧ (nodes q).enabled = true) (q : Nat) :
    (Function.update nodes key ⟨nets, w, en⟩ q).weight = H.nodeW q
      ∧ (Function.update nodes key ⟨nets, w, en⟩ q).enabled = true := by
  by_cases hk : q = key
  · subst hk
    rw [Function.update_same]
    exact ⟨hw, hen⟩
  · rw [Function.update_noteq hk]
    exact hnodes q

theorem phase1Node_rt (hashF : Nat → Nat) (H : InputHG) (c : Nat) (respect : Bool)
    (hwf : H.wf) (hunit : ∀ hn, hn < H.n → H.nodeW hn = 1) (M0 : HGState)
    (hn : Nat) (P : HGState × (Nat → Bool)) (hInv : RTInv H c M0 P) :
    RTInv H c M0 (phase1Node
      (toSubInput H (extractCommunityInducedSectionHypergraph hashF H c respect)) P hn) ∧
    (∀ le, P.2 le = true → (phase1Node
      (toSubInput H (extractCommunityInducedSectionHypergraph hashF H c respect)) P hn).2 le
        = true) ∧
    ((toSubInput H (extractCommunityInducedSectionHypergraph hashF H c respect)).subComm hn
        = (toSubInput H
            (extractCommunityInducedSectionHypergraph hashF H c respect)).community_id →
      ∀ le ∈ (toSubInput H
          (extractCommunityInducedSectionHypergraph hashF H c respect)).nodeNets hn,
        (phase1Node
          (toSubInput H (extractCommunityInducedSectionHypergraph hashF H c respect)) P
            hn).2 le = true) := by
  unfold phase1Node
  by_cases hmem : (toSubInput H
      (extractCommunityInducedSectionHypergraph hashF H c respect)).subComm hn
      = (toSubInput H (extractCommunityInducedSectionHypergraph hashF H c respect)).community_id
  · rw [if_pos hmem]
    obtain ⟨hInv2, hIff⟩ := netsFold_rt hashF H c respect hwf hunit M0
      ((toSubInput H (extractCommunityInducedSectionHypergraph hashF H c respect)).nodeNets hn)
      (fun le hle => nodeNets_bound hashF H c respect hn le hle) P hInv
    obtain ⟨he2, hn2, hnn2, hne2, hdone2, hout2⟩ := hInv2
    refine ⟨⟨he2, ?_, hnn2, hne2, hdone2, hout2⟩, ?_, ?_⟩
    · intro hn'
      exact update_node_WE H _ _ _ _ _ rfl rfl hn2 hn'
    · intro le hvis
      exact (hIff le).mpr (Or.inl hvis)
    · intro _ le hle
      exact (hIff le).mpr (Or.inr hle)
  · rw [if_neg hmem]
    exact ⟨hInv, fun le h => h, fun hmem' => absurd hmem' hmem⟩

theorem nodesFold_rt_c3 (hashF : Nat → Nat) (H : InputHG) (c : Nat) (respect : Bool)
    (hwf : H.wf) (hunit : ∀ hn, hn < H.n → H.nodeW hn = 1) (M0 : HGState) :
    ∀ (ns : List Nat) (P : HGState × (Nat → Bool)), RTInv H c M0 P →
    RTInv H c M0 (ns.foldl (phase1Node
      (toSubInput H (extractCommunityInducedSectionHypergraph hashF H c respect))) P) ∧
    (∀ le, P.2 le = true → (ns.foldl (phase1Node
      (toSubInput H (extractCommunityInducedSectionHypergraph hashF H c respect))) P).2 le
        = true) ∧
    (∀ hn ∈ ns,
      (toSubInput H (extractCommunityInducedSectionHypergraph hashF H c respect)).subComm hn
        = (toSubInput H
            (extractCommunityInducedSectionHypergraph hashF H c respect)).community_id →
      ∀ le ∈ (toSubInput H
          (extractCommunityInducedSectionHypergraph hashF H c respect)).nodeNets hn,
        (ns.foldl (phase1Node
          (toSubInput H (extractCommunityInducedSectionHypergraph hashF H c respect))) P).2 le
          = true) := by
  intro ns
  induction ns with
  | nil =>
      intro P hInv
      refine ⟨hInv, fun le h => h, ?_⟩
      intro hn h
      simp at h
  | cons hn0 rest ih =>
      intro P hInv
      rw [List.foldl_cons]
      obtain ⟨hInv1, hmono1, hcov1⟩ :=
        phase1Node_rt hashF H c respect hwf hunit M0 hn0 P hInv
      obtain ⟨hInvF, hmonoF, hcovF⟩ := ih _ hInv1
      refine ⟨hInvF, fun le h => hmonoF le (hmono1 le h), ?_⟩
      intro hn hhn hsc le hle
      rcases List.mem_cons.mp hhn with rfl | hrest
      · exact hmonoF le (hcov1 hsc le hle)
      · exact hcovF hn hrest hsc le hle

theorem phase1Community_rt (hashF : Nat → Nat) (H : InputHG) (c : Nat) (respect : Bool)
    (hwf : H.wf) (hunit : ∀ hn, hn < H.n → H.nodeW hn = 1)
    (M : HGState) (hedges : M.edges = (fromInput H).edges)
    (hnodes : ∀ hn, (M.nodes hn).weight = H.nodeW hn ∧ (M.nodes hn).enabled = true) :
    (phase1Community M (toSubInput H
        (extractCommunityInducedSectionHypergraph hashF H c respect))).edges
      = (fromInput H).edges ∧
    (∀ hn, ((phase1Community M (toSubInput H
        (extractCommunityInducedSectionHypergraph hashF H c respect))).nodes hn).weight
          = H.nodeW hn
      ∧ ((phase1Community M (toSubInput H
          (extractCommunityInducedSectionHypergraph hashF H c respect))).nodes hn).enabled
          = true) ∧
    (phase1Community M (toSubInput H
        (extractCommunityInducedSectionHypergraph hashF H c respect))).numNodes
      = M.numNodes ∧
    (phase1Community M (toSubInput H
        (extractCommunityInducedSectionHypergraph hashF H c respect))).numEdges
      = M.numEdges ∧
    (∀ e, e < H.m → (∃ p ∈ H.pins e, H.comm p = c) →
      ∀ k, k < cntEq H c e →
        (phase1Community M (toSubInput H
            (extractCommunityInducedSectionHypergraph hashF H c respect))).arr
          (feOf H e + cntLt H c e + k) = (contentOf H c e).getD k 0) ∧
    (∀ q, (∀ e, e < H.m → (∃ p ∈ H.pins e, H.comm p = c) →
        ¬ (feOf H e + cntLt H c e ≤ q ∧ q < feOf H e + cntLt H c e + cntEq H c e)) →
      (phase1Community M (toSubInput H
          (extractCommunityInducedSectionHypergraph hashF H c respect))).arr q = M.arr q) := by
  have hInv0 : RTInv H c M (M, fun _ => false) := by
    refine ⟨hedges, hnodes, rfl, rfl, ?_, ?_⟩
    · intro le h
      simp at h
    · intro q _
      rfl
  obtain ⟨hInvF, hmonoF, hcovF⟩ := nodesFold_rt_c3 hashF H c respect hwf hunit M
    (List.range (toSubInput H
      (extractCommunityInducedSectionHypergraph hashF H c respect)).initialNumNodes)
    (M, fun _ => false) hInv0
  obtain ⟨he2, hn2, hnn2, hne2, hdone2, hout2⟩ := hInvF
  have hvisited : ∀ le, le < (vesOf H c).length →
      ((List.range (toSubInput H
        (extractCommunityInducedSectionHypergraph hashF H c respect)).initialNumNodes).foldl
          (phase1Node (toSubInput H
            (extractCommunityInducedSectionHypergraph hashF H c respect)))
          (M, fun _ => false)).2 le = true := by
    intro le hle
    have hmem : (vesOf H c).getD le 0 ∈ vesOf H c := getD_mem_of_lt _ le 0 hle
    obtain ⟨hm, hvis⟩ := (vesOf_mem H c _).mp hmem
    obtain ⟨_, p, hp, hcp⟩ := (extractPhaseOne_visitedE_iff H hwf c _).mp hvis
    have hpL : p ∈ hnL H c respect :=
      (hnL_mem H c respect p).mpr
        ((extractPhaseOne_hnList_mem H c p).mpr ⟨(vesOf H c).getD le 0, hvis, hp⟩)
    have hpos : 0 < (hnL H c respect).length :=
      List.length_pos.mpr (List.ne_nil_of_mem hpL)
    have hhn_lt : (hnL H c respect).indexOf p < (hnL H c respect).length :=
      List.indexOf_lt_length.mpr hpL
    have hinn : (toSubInput H
        (extractCommunityInducedSectionHypergraph hashF H c respect)).initialNumNodes
        = (hnL H c respect).length := by
      show (extractCommunityInducedSectionHypergraph hashF H c respect).numNodes = _
      exact extract_numNodes hashF H c respect
    have hsc : (toSubInput H
        (extractCommunityInducedSectionHypergraph hashF H c respect)).subComm
          ((hnL H c respect).indexOf p)
        = (toSubInput H
            (extractCommunityInducedSectionHypergraph hashF H c respect)).community_id := by
      show H.comm ((extractCommunityInducedSectionHypergraph hashF H c
          respect).hnList.getD ((hnL H c respect).indexOf p) 0)
        = (extractCommunityInducedSectionHypergraph hashF H c respect).community_id
      rw [extract_hnList, getD_indexOf _ p hpL, extract_commId]
      exact hcp
    have hle_nets : le ∈ (toSubInput H
        (extractCommunityInducedSectionHypergraph hashF H c respect)).nodeNets
          ((hnL H c respect).indexOf p) := by
      show le ∈ (List.range (extractCommunityInducedSectionHypergraph hashF H c
          respect).subEdges.length).filter _
      rw [List.mem_filter]
      constructor
      · rw [List.mem_range, extract_subEdges hashF H c respect hpos, builtEdges_length]
        exact hle
      · have : (hnL H c respect).indexOf p ∈ localPinsOfR
            (extractCommunityInducedSectionHypergraph hashF H c respect) le := by
          rw [localPinsOfR_rt hashF H c respect hpos le hle]
          exact List.mem_map_of_mem _ hp
        simpa using this
    exact hcovF ((hnL H c respect).indexOf p)
      (List.mem_range.mpr (by rw [hinn]; exact hhn_lt)) hsc le hle_nets
  refine ⟨he2, hn2, hnn2, hne2, ?_, ?_⟩
  · intro e he hcp k hk
    have hev : e ∈ vesOf H c := (vesOf_mem H c e).mpr
      ⟨he, (extractPhaseOne_visitedE_iff H hwf c e).mpr ⟨he, hcp⟩⟩
    obtain ⟨le, hlelen, hieq⟩ := List.getElem_of_mem hev
    have hgetD : (vesOf H c).getD le 0 = e := by
      rw [List.getD_eq_getElem _ _ hlelen]
      exact hieq
    have hvis := hvisited le hlelen
    obtain ⟨_, hvals⟩ := hdone2 le hvis
    rw [hgetD] at hvals
    exact hvals k hk
  · intro q hq
    refine hout2 q ?_
    intro le hvisle
    obtain ⟨hlelen, _⟩ := hdone2 le hvisle
    have hmem : (vesOf H c).getD le 0 ∈ vesOf H c := getD_mem_of_lt _ le 0 hlelen
    obtain ⟨hm', hvis'⟩ := (vesOf_mem H c _).mp hmem
    obtain ⟨_, p, hp, hcp⟩ := (extractPhaseOne_visitedE_iff H hwf c _).mp hvis'
    exact hq ((vesOf H c).getD le 0) hm' ⟨p, hp, hcp⟩

theorem phase1Fold_rt (hashF : Nat → Nat) (H : InputHG) (respect : Bool)
    (hwf : H.wf) (hunit : ∀ hn, hn < H.n → H.nodeW hn = 1) :
    ∀ (cs : List Nat) (N : HGState),
      N.edges = (fromInput H).edges →
      (∀ hn, (N.nodes hn).weight = H.nodeW hn ∧ (N.nodes hn).enabled = true) →
      (cs.foldl (fun N c => phase1Community N (toSubInput H
          (extractCommunityInducedSectionHypergraph hashF H c respect))) N).edges
        = (fromInput H).edges ∧
      (∀ hn, ((cs.foldl (fun N c => phase1Community N (toSubInput H
            (extractCommunityInducedSectionHypergraph hashF H c respect))) N).nodes hn).weight
          = H.nodeW hn
        ∧ ((cs.foldl (fun N c => phase1Community N (toSubInput H
            (extractCommunityInducedSectionHypergraph hashF H c respect))) N).nodes hn).enabled
          = true) ∧
      (cs.foldl (fun N c => phase1Community N (toSubInput H
          (extractCommunityInducedSectionHypergraph hashF H c respect))) N).numNodes
        = N.numNodes ∧
      (cs.foldl (fun N c => phase1Community N (toSubInput H
          (extractCommunityInducedSectionHypergraph hashF H c respect))) N).numEdges
        = N.numEdges ∧
      (∀ c ∈ cs, ∀ e, e < H.m → (∃ p ∈ H.pins e, H.comm p = c) →
        ∀ k, k < cntEq H c e →
          (cs.foldl (fun N c => phase1Community N (toSubInput H
              (extractCommunityInducedSectionHypergraph hashF H c respect))) N).arr
            (feOf H e + cntLt H c e + k) = (contentOf H c e).getD k 0) ∧
      (∀ q, (∀ c ∈ cs, ∀ e, e < H.m → (∃ p ∈ H.pins e, H.comm p = c) →
          ¬ (feOf H e + cntLt H c e ≤ q ∧ q < feOf H e + cntLt H c e + cntEq H c e)) →
        (cs.foldl (fun N c => phase1Community N (toSubInput H
            (extractCommunityInducedSectionHypergraph hashF H c respect))) N).arr q
          = N.arr q) := by
  intro cs
  induction cs with
  | nil =>
      intro N hE hN
      refine ⟨hE, hN, rfl, rfl, ?_, ?_⟩
      · intro c hc
        simp at hc
      · intro q _
        rfl
  | cons c rest ih =>
      intro N hE hN
      rw [List.foldl_cons]
      obtain ⟨hE1, hN1, hnn1, hne1, hdone1, hout1⟩ :=
        phase1Community_rt hashF H c respect hwf hunit N hE hN
      obtain ⟨hEf, hNf, hnnf, hnef, hdonef, houtf⟩ := ih _ hE1 hN1
      refine ⟨hEf, hNf, hnnf.trans hnn1, hnef.trans hne1, ?_, ?_⟩
      · intro c₀ hc₀ e he hcpin k hk
        by_cases hc₀' : c₀ ∈ rest
        · exact hdonef c₀ hc₀' e he hcpin k hk
        · have hc₀c : c₀ = c := by
            rcases List.mem_cons.mp hc₀ with h | h
            · exact h
            · exact absurd h hc₀'
          subst hc₀c
          have hpress := houtf (feOf H e + cntLt H c₀ e + k) ?side
          · rw [hpress]
            exact hdone1 e he hcpin k hk
          case side =>
            intro c' hc' e' he' hcpin'
            intro hcontra
            by_cases hee : e' = e
            · subst hee
              have hcc : c' ≠ c₀ := by
                intro hcontra2
                subst hcontra2
                exact hc₀' hc'
              exact region_disjoint_comms H c' c₀ e' hcc
                (feOf H e' + cntLt H c₀ e' + k)
                (by constructor <;> omega)
                ⟨by omega, by omega⟩
            · have hne : e ≠ e' := fun hx => hee hx.symm
              exact region_disjoint_edges H c₀ c' e e' hne
                (feOf H e + cntLt H c₀ e + k)
                ⟨by omega, by omega⟩
                ⟨by omega, by omega⟩
      · intro q hq
        have hstep := houtf q (fun c' hc' e' he' hcpin' =>
          hq c' (List.mem_cons_of_mem _ hc') e' he' hcpin')
        rw [hstep]
        exact hout1 q (fun e' he' hcpin' =>
          hq c (List.mem_cons_self c rest) e' he' hcpin')

/-! ### Round-trip (C3): Phase 3 is the identity modulo hash recompute -/

theorem cche_numNodes (hashF : Nat → Nat) (ci : Nat → Int) (M : HGState) (he : Nat) :
    (create_contraction_hierarchy_edge hashF ci M he).numNodes = M.numNodes := rfl

theorem cche_numEdges (hashF : Nat → Nat) (ci : Nat → Int) (M : HGState) (he : Nat) :
    (create_contraction_hierarchy_edge hashF ci M he).numEdges = M.numEdges := rfl

theorem compactRes_all_enabled (hashF : Nat → Nat) (N : HGState) (he : Nat)
    (hen : ∀ p, (N.nodes p).enabled = true) :
    (compactRes hashF N he).1 = N.arr ∧
    (compactRes hashF N he).2.1 = (N.edges he).firstEntry + (N.edges he).size :=
  compactGo_all_enabled hashF (fun p => (N.nodes p).enabled) (N.edges he).size N.arr
    (N.edges he).firstEntry ((N.edges he).firstEntry + (N.edges he).size) kEdgeHashSeed
    (by omega) (fun x _ _ => hen (N.arr x))

theorem cche_id_arr (hashF : Nat → Nat) (ci : Nat → Int) (N : HGState) (he : Nat)
    (hen : ∀ p, (N.nodes p).enabled = true)
    (hfe : (N.edges (he + 1)).firstEntry = (N.edges he).firstEntry + (N.edges he).size) :
    (create_contraction_hierarchy_edge hashF ci N he).arr = N.arr := by
  obtain ⟨hres1, hres2⟩ := compactRes_all_enabled hashF N he hen
  rw [cche_arr, hres1, hres2]
  have harith : (N.edges he).firstEntry
      + ((N.edges he).firstEntry + (N.edges he).size - (N.edges he).firstEntry)
      = (N.edges he).firstEntry + (N.edges he).size := by omega
  rw [harith, hfe, seg_nil _ _ _ (le_refl _)]
  rfl

theorem cche_id_edges (hashF : Nat → Nat) (ci : Nat → Int) (N : HGState) (he : Nat)
    (hen : ∀ p, (N.nodes p).enabled = true) :
    (create_contraction_hierarchy_edge hashF ci N he).edges
      = Function.update N.edges he
          { N.edges he with hash := (compactRes hashF N he).2.2 } := by
  obtain ⟨hres1, hres2⟩ := compactRes_all_enabled hashF N he hen
  rw [cche_edges, hres2]
  have harith : (N.edges he).firstEntry + (N.edges he).size - (N.edges he).firstEntry
      = (N.edges he).size := by omega
  rw [harith]

theorem phase3Fold_rt (hashF : Nat → Nat) (ci : Nat → Int) :
    ∀ (hes : List Nat) (N : HGState),
      (∀ p, (N.nodes p).enabled = true) →
      (∀ e, (N.edges (e + 1)).firstEntry = (N.edges e).firstEntry + (N.edges e).size) →
      (∀ e, (N.edges e).enabled = true) →
      (hes.foldl (create_contraction_hierarchy_edge hashF ci) N).arr = N.arr ∧
      (hes.foldl (create_contraction_hierarchy_edge hashF ci) N).nodes = N.nodes ∧
      (hes.foldl (create_contraction_hierarchy_edge hashF ci) N).numNodes = N.numNodes ∧
      (hes.foldl (create_contraction_hierarchy_edge hashF ci) N).numEdges = N.numEdges ∧
      (∀ e,
        ((hes.foldl (create_contraction_hierarchy_edge hashF ci) N).edges e).firstEntry
            = (N.edges e).firstEntry ∧
        ((hes.foldl (create_contraction_hierarchy_edge hashF ci) N).edges e).size
            = (N.edges e).size ∧
        ((hes.foldl (create_contraction_hierarchy_edge hashF ci) N).edges e).weight
            = (N.edges e).weight ∧
        ((hes.foldl (create_contraction_hierarchy_edge hashF ci) N).edges e).enabled
            = (N.edges e).enabled) := by
  intro hes
  induction hes with
  | nil =>
      intro N _ _ _
      exact ⟨rfl, rfl, rfl, rfl, fun e => ⟨rfl, rfl, rfl, rfl⟩⟩
  | cons he rest ih =>
      intro N hen hfe hE
      rw [List.foldl_cons]
      have hfields : ∀ e,
          ((create_contraction_hierarchy_edge hashF ci N he).edges e).firstEntry
              = (N.edges e).firstEntry ∧
          ((create_contraction_hierarchy_edge hashF ci N he).edges e).size
              = (N.edges e).size ∧
          ((create_contraction_hierarchy_edge hashF ci N he).edges e).weight
              = (N.edges e).weight ∧
          ((create_contraction_hierarchy_edge hashF ci N he).edges e).enabled
              = (N.edges e).enabled := by
        intro e
        rw [cche_id_edges hashF ci N he hen]
        by_cases hk : e = he
        · subst hk
          rw [Function.update_same]
          exact ⟨rfl, rfl, rfl, rfl⟩
        · rw [Function.update_noteq hk]
          exact ⟨rfl, rfl, rfl, rfl⟩
      have hen1 : ∀ p, ((create_contraction_hierarchy_edge hashF ci N he).nodes p).enabled
          = true := by
        intro p
        rw [cche_nodes]
        exact hen p
      have hfe1 : ∀ e,
          ((create_contraction_hierarchy_edge hashF ci N he).edges (e + 1)).firstEntry
            = ((create_contraction_hierarchy_edge hashF ci N he).edges e).firstEntry
              + ((create_contraction_hierarchy_edge hashF ci N he).edges e).size := by
        intro e
        rw [(hfields (e + 1)).1, (hfields e).1, (hfields e).2.1]
        exact hfe e
      have hE1 : ∀ e, ((create_contraction_hierarchy_edge hashF ci N he).edges e).enabled
          = true := by
        intro e
        rw [(hfields e).2.2.2]
        exact hE e
      obtain ⟨ha, hn, hnn, hne, hf⟩ := ih _ hen1 hfe1 hE1
      refine ⟨?_, ?_, ?_, ?_, ?_⟩
      · rw [ha, cche_id_arr hashF ci N he hen (hfe he)]
      · rw [hn, cche_nodes]
      · rw [hnn, cche_numNodes]
      · rw [hne, cche_numEdges]
      · intro e
        obtain ⟨h1, h2, h3, h4⟩ := hf e
        obtain ⟨g1, g2, g3, g4⟩ := hfields e
        exact ⟨h1.trans g1, h2.trans g2, h3.trans g3, h4.trans g4⟩

theorem phase3_eq (hashF : Nat → Nat) (ci : Nat → Int) (M : HGState) (T : Nat) :
    phase3 hashF ci M T
      = (List.range M.numEdges).foldl (create_contraction_hierarchy_edge hashF ci) M := by
  unfold phase3 create_contraction_hierarchy
  exact threadRanges_foldl (create_contraction_hierarchy_edge hashF ci) T M.numEdges M

/-! ### Round-trip (C3): community buckets of an edge's pin list -/

theorem prePhase_fields (communities : List SubInput) :
    ∀ M : HGState,
      (communities.foldl prePhaseStep M).nodes = M.nodes ∧
      (communities.foldl prePhaseStep M).edges = M.edges ∧
      (communities.foldl prePhaseStep M).arr = M.arr ∧
      (communities.foldl prePhaseStep M).numNodes = M.numNodes ∧
      (communities.foldl prePhaseStep M).numEdges = M.numEdges := by
  induction communities with
  | nil => intro M; exact ⟨rfl, rfl, rfl, rfl, rfl⟩
  | cons s rest ih =>
      intro M
      rw [List.foldl_cons]
      exact ih (prePhaseStep M s)

theorem fromInput_arr_span (H : InputHG) (e : Nat) (he : e < H.m) (k : Nat)
    (hk : k < (H.pins e).length) :
    (fromInput H).arr (feOf H e + k) = (H.pins e).getD k 0 := by
  show (flatPins H).getD (feOf H e + k) 0 = _
  unfold flatPins
  have hlm : e < ((List.range H.m).map H.pins).length := by
    rw [List.length_map, List.length_range]
    exact he
  have htake : ((((List.range H.m).map H.pins).take e).flatten).length = feOf H e := by
    rw [← List.map_take, List.take_range, List.length_flatten, List.map_map]
    have hmin : min e H.m = e := by omega
    rw [hmin]
    rfl
  have hblock : ((List.range H.m).map H.pins).getD e [] = H.pins e := by
    rw [getD_map_of_lt H.pins (List.range H.m) e [] 0 (by rw [List.length_range]; exact he)]
    congr 1
    rw [List.getD_eq_getElem _ _ (by rw [List.length_range]; exact he)]
    simp
  rw [flatten_split _ e hlm,
    List.getD_append_right _ _ 0 _ (by rw [htake]; omega), htake, Nat.add_sub_cancel_left,
    List.getD_append _ _ 0 k (by rw [hblock]; exact hk), hblock]

theorem count_filter_comm (commf : Nat → Nat) (x c : Nat) (ps : List Nat) :
    (ps.filter (fun p => commf p = c)).count x
      = if commf x = c then ps.count x else 0 := by
  by_cases h : commf x = c
  · rw [if_pos h]
    exact List.count_filter (by simpa using h)
  · rw [if_neg h]
    rw [List.count_eq_zero]
    intro hmem
    exact h (by simpa using (List.mem_filter.mp hmem).2)

theorem count_flatten_buckets (commf : Nat → Nat) (ps : List Nat) (x : Nat) :
    ∀ (cs : List Nat), cs.Nodup →
      ((cs.map (fun c => ps.filter (fun p => commf p = c))).flatten).count x
        = if commf x ∈ cs then ps.count x else 0 := by
  intro cs
  induction cs with
  | nil =>
      intro _
      simp
  | cons c rest ih =>
      intro hnd
      rw [List.map_cons, List.flatten_cons, List.count_append,
        ih (List.nodup_cons.mp hnd).2, count_filter_comm]
      by_cases h1 : commf x = c
      · rw [if_pos h1]
        have hnotin : commf x ∉ rest := by
          rw [h1]
          exact (List.nodup_cons.mp hnd).1
        rw [if_neg hnotin,
          if_pos (show commf x ∈ c :: rest by rw [h1]; exact List.mem_cons_self c rest)]
        omega
      · rw [if_neg h1]
        by_cases h2 : commf x ∈ rest
        · rw [if_pos h2, if_pos (List.mem_cons_of_mem _ h2)]
          omega
        · rw [if_neg h2, if_neg (show ¬ commf x ∈ c :: rest by
            intro hmem
            rcases List.mem_cons.mp hmem with h | h
            · exact h1 h
            · exact h2 h)]

theorem bucketed_perm (H : InputHG) (e : Nat) : List.Perm (bucketed H e) (H.pins e) := by
  rw [List.perm_iff_count]
  intro x
  unfold bucketed
  have hnd : (((H.pins e).map H.comm).dedup.insertionSort (fun a b => a ≤ b)).Nodup :=
    (List.perm_insertionSort _ _).nodup_iff.mpr (List.nodup_dedup _)
  rw [count_flatten_buckets H.comm (H.pins e) x _ hnd]
  by_cases h : H.comm x ∈ ((H.pins e).map H.comm).dedup.insertionSort (fun a b => a ≤ b)
  · rw [if_pos h]
  · rw [if_neg h]
    symm
    rw [List.count_eq_zero]
    intro hx
    exact h ((List.mem_insertionSort _).mpr
      (List.mem_dedup.mpr (List.mem_map_of_mem H.comm hx)))

theorem sortedComms_pairwise (H : InputHG) (e : Nat) :
    (((H.pins e).map H.comm).dedup.insertionSort (fun a b => a ≤ b)).Pairwise
      (fun a b => a < b) := by
  haveI : IsTotal Nat (fun a b => a ≤ b) := ⟨fun a b => Nat.le_total a b⟩
  haveI : IsTrans Nat (fun a b => a ≤ b) := ⟨fun a b c h1 h2 => Nat.le_trans h1 h2⟩
  have hsorted := List.sorted_insertionSort (fun a b => a ≤ b)
    (((H.pins e).map H.comm).dedup)
  have hnd : (((H.pins e).map H.comm).dedup.insertionSort (fun a b => a ≤ b)).Nodup :=
    (List.perm_insertionSort _ _).nodup_iff.mpr (List.nodup_dedup _)
  have hand := List.Pairwise.and hsorted hnd
  exact hand.imp (fun hab => Nat.lt_of_le_of_ne hab.1 hab.2)

theorem length_filter_mem_cons (commf : Nat → Nat) (c : Nat) (cs : List Nat)
    (hc : c ∉ cs) : ∀ (ps : List Nat),
    (ps.filter (fun p => decide (commf p ∈ c :: cs))).length
      = (ps.filter (fun p => commf p = c)).length
        + (ps.filter (fun p => decide (commf p ∈ cs))).length := by
  intro ps
  induction ps with
  | nil => rfl
  | cons p rest ih =>
      rw [List.filter_cons, List.filter_cons, List.filter_cons]
      by_cases h1 : commf p = c
      · rw [if_pos (by simp [h1]), if_pos (by simpa using h1),
          if_neg (by simp only [decide_eq_true_eq]; rw [h1]; exact hc)]
        simp only [List.length_cons]
        omega
      · by_cases h2 : commf p ∈ cs
        · rw [if_pos (by simp [h2]), if_neg (by simpa using h1), if_pos (by simpa using h2)]
          simp only [List.length_cons]
          omega
        · rw [if_neg (by
              simp only [decide_eq_true_eq, List.mem_cons]
              rintro (h | h)
              · exact h1 h
              · exact h2 h),
            if_neg (by simpa using h1), if_neg (by simpa using h2)]
          exact ih

theorem sum_counts_distinct (commf : Nat → Nat) (ps : List Nat) :
    ∀ (cs : List Nat), cs.Nodup →
      (cs.map (fun c => (ps.filter (fun p => commf p = c)).length)).sum
        = (ps.filter (fun p => decide (commf p ∈ cs))).length := by
  intro cs
  induction cs with
  | nil =>
      intro _
      rw [List.map_nil, List.sum_nil]
      symm
      rw [List.length_eq_zero]
      refine List.filter_eq_nil_iff.mpr ?_
      intro p _
      simp
  | cons c rest ih =>
      intro hnd
      obtain ⟨hc, hnd2⟩ := List.nodup_cons.mp hnd
      rw [List.map_cons, List.sum_cons, ih hnd2, length_filter_mem_cons commf c rest hc ps]

theorem bucketed_getD (H : InputHG) (e c₀ : Nat)
    (hc₀ : ∃ p ∈ H.pins e, H.comm p = c₀) (k : Nat)
    (hk1 : cntLt H c₀ e ≤ k) (hk2 : k < cntLt H c₀ e + cntEq H c₀ e) :
    (bucketed H e).getD k 0 = (contentOf H c₀ e).getD (k - cntLt H c₀ e) 0 := by
  have hc₀cs : c₀ ∈ ((H.pins e).map H.comm).dedup.insertionSort (fun a b => a ≤ b) := by
    obtain ⟨p, hp, hcp⟩ := hc₀
    exact (List.mem_insertionSort _).mpr
      (List.mem_dedup.mpr (hcp ▸ List.mem_map_of_mem H.comm hp))
  obtain ⟨l₁, l₂, hsplit⟩ := List.append_of_mem hc₀cs
  have hpw := sortedComms_pairwise H e
  rw [hsplit] at hpw
  obtain ⟨hpw1, hpw2, hpw3⟩ := List.pairwise_append.mp hpw
  have hl₁lt : ∀ a ∈ l₁, a < c₀ := fun a ha => hpw3 a ha c₀ (List.mem_cons_self c₀ l₂)
  have hl₂gt : ∀ b ∈ l₂, c₀ < b := (List.pairwise_cons.mp hpw2).1
  have hcompl : ∀ p ∈ H.pins e, H.comm p ∈ l₁ ++ c₀ :: l₂ := by
    intro p hp
    rw [← hsplit]
    exact (List.mem_insertionSort _).mpr
      (List.mem_dedup.mpr (List.mem_map_of_mem H.comm hp))
  have hnodup : (l₁ ++ c₀ :: l₂).Nodup := by
    rw [← hsplit]
    exact (List.perm_insertionSort _ _).nodup_iff.mpr (List.nodup_dedup _)
  have hl₁nd : l₁.Nodup := (List.nodup_append.mp hnodup).1
  have hlenA : ((l₁.map (fun c => (H.pins e).filter (fun p => H.comm p = c))).flatten).length
      = cntLt H c₀ e := by
    rw [List.length_flatten, List.map_map]
    have hmapeq : l₁.map (List.length ∘ fun c => (H.pins e).filter (fun p => H.comm p = c))
        = l₁.map (fun c => ((H.pins e).filter (fun p => H.comm p = c)).length) :=
      List.map_congr_left (fun c _ => rfl)
    rw [hmapeq, sum_counts_distinct H.comm (H.pins e) l₁ hl₁nd]
    have hfeq : (H.pins e).filter (fun p => decide (H.comm p ∈ l₁))
        = (H.pins e).filter (fun p => H.comm p < c₀) := by
      refine List.filter_congr ?_
      intro p hp
      refine decide_eq_decide.mpr ?_
      constructor
      · exact fun h => hl₁lt _ h
      · intro hlt
        have hin := hcompl p hp
        rcases List.mem_append.mp hin with h | h
        · exact h
        · rcases List.mem_cons.mp h with h | h
          · omega
          · have := hl₂gt _ h
            omega
    rw [hfeq]
    rfl
  unfold bucketed
  rw [hsplit, List.map_append, List.flatten_append, List.map_cons, List.flatten_cons,
    List.getD_append_right _ _ 0 k (by rw [hlenA]; exact hk1), hlenA,
    List.getD_append _ _ 0 _ (by
      show k - cntLt H c₀ e < ((H.pins e).filter (fun p => H.comm p = c₀)).length
      have : ((H.pins e).filter (fun p => H.comm p = c₀)).length = cntEq H c₀ e := rfl
      omega)]
  rfl

theorem comm_cover (H : InputHG) (e k : Nat) (hk : k < (H.pins e).length) :
    ∃ c₀, (∃ p ∈ H.pins e, H.comm p = c₀) ∧ cntLt H c₀ e ≤ k
      ∧ k < cntLt H c₀ e + cntEq H c₀ e := by
  obtain ⟨cex, hcex⟩ := exists_comm_cover H.comm (H.pins e) k hk
  have hfind := Nat.find_spec (⟨cex, hcex⟩ :
    ∃ c, k < ((H.pins e).filter (fun p => H.comm p ≤ c)).length)
  set c₀ := Nat.find (⟨cex, hcex⟩ :
    ∃ c, k < ((H.pins e).filter (fun p => H.comm p ≤ c)).length) with hc0
  have hlow : ((H.pins e).filter (fun p => H.comm p < c₀)).length ≤ k := by
    rcases Nat.eq_zero_or_pos c₀ with h0 | hpos
    · rw [h0]
      have hnil : (H.pins e).filter (fun p => H.comm p < 0) = [] := by
        refine List.filter_eq_nil_iff.mpr ?_
        intro p _
        simp
      rw [hnil]
      exact Nat.zero_le k
    · have hmin := Nat.find_min (⟨cex, hcex⟩ :
        ∃ c, k < ((H.pins e).filter (fun p => H.comm p ≤ c)).length)
        (show c₀ - 1 < c₀ by omega)
      rw [filter_lt_eq_le_pred H.comm c₀ hpos]
      omega
  have hparts := filter_lt_add_eq H.comm c₀ (H.pins e)
  have hcpin : ∃ p ∈ H.pins e, H.comm p = c₀ := by
    have hpos2 : 0 < ((H.pins e).filter (fun p => H.comm p = c₀)).length := by omega
    obtain ⟨p, hp⟩ := List.exists_mem_of_length_pos hpos2
    exact ⟨p, List.mem_of_mem_filter hp, by simpa using (List.mem_filter.mp hp).2⟩
  refine ⟨c₀, hcpin, ?_, ?_⟩
  · show cntLt H c₀ e ≤ k
    unfold cntLt
    exact hlow
  · show k < cntLt H c₀ e + cntEq H c₀ e
    unfold cntLt cntEq
    omega

/-- Claim C3 (amended: every hypernode has weight 1): extracting every
community, performing zero contractions, and merging back with an empty
history reproduces every hypernode's weight and enable flag, every
hyperedge's weight and enable flag, and every hyperedge's pin multiset
exactly; within each edge the final pin order is the community-bucketed
reordering of the original pins (buckets in increasing community id,
original order inside each bucket). -/
theorem C3_round_trip (hashF : Nat → Nat) (T : Nat) (H : InputHG) (respect : Bool)
    (hwf : H.wf) (hunit : ∀ hn, hn < H.n → H.nodeW hn = 1) :
    (∀ hn, ((roundTrip hashF T H respect).nodes hn).weight = H.nodeW hn
      ∧ ((roundTrip hashF T H respect).nodes hn).enabled = true) ∧
    (∀ e, ((roundTrip hashF T H respect).edges e).weight = H.edgeW e
      ∧ ((roundTrip hashF T H respect).edges e).enabled = true) ∧
    (∀ e, e < H.m →
      seg (roundTrip hashF T H respect).arr (feOf H e) (feOf H e + (H.pins e).length)
        = bucketed H e
      ∧ List.Perm (seg (roundTrip hashF T H respect).arr (feOf H e)
          (feOf H e + (H.pins e).length)) (H.pins e)) := by
  have hrt : roundTrip hashF T H respect
      = phase3 hashF (contractionIndexTable [] T)
        (phase1
          (prePhase (fromInput H) ((commsOf H).map (fun c => toSubInput H
            (extractCommunityInducedSectionHypergraph hashF H c respect))))
          ((commsOf H).map (fun c => toSubInput H
            (extractCommunityInducedSectionHypergraph hashF H c respect)))) T := rfl
  have hphase1 : phase1
      (prePhase (fromInput H) ((commsOf H).map (fun c => toSubInput H
        (extractCommunityInducedSectionHypergraph hashF H c respect))))
      ((commsOf H).map (fun c => toSubInput H
        (extractCommunityInducedSectionHypergraph hashF H c respect)))
      = (commsOf H).foldl (fun N c => phase1Community N (toSubInput H
          (extractCommunityInducedSectionHypergraph hashF H c respect)))
        (prePhase (fromInput H) ((commsOf H).map (fun c => toSubInput H
          (extractCommunityInducedSectionHypergraph hashF H c respect)))) := by
    unfold phase1
    exact List.foldl_map _ _ _ _
  have hE0 : (prePhase (fromInput H) ((commsOf H).map (fun c => toSubInput H
      (extractCommunityInducedSectionHypergraph hashF H c respect)))).edges
      = (fromInput H).edges :=
    (prePhase_fields _ { fromInput H with curNodes := 0, curPins := 0 }).2.1
  have hN0 : (prePhase (fromInput H) ((commsOf H).map (fun c => toSubInput H
      (extractCommunityInducedSectionHypergraph hashF H c respect)))).nodes
      = (fromInput H).nodes :=
    (prePhase_fields _ { fromInput H with curNodes := 0, curPins := 0 }).1
  have hA0 : (prePhase (fromInput H) ((commsOf H).map (fun c => toSubInput H
      (extractCommunityInducedSectionHypergraph hashF H c respect)))).arr
      = (fromInput H).arr :=
    (prePhase_fields _ { fromInput H with curNodes := 0, curPins := 0 }).2.2.1
  have hN0we : ∀ hn, ((prePhase (fromInput H) ((commsOf H).map (fun c => toSubInput H
      (extractCommunityInducedSectionHypergraph hashF H c respect)))).nodes hn).weight
        = H.nodeW hn
      ∧ ((prePhase (fromInput H) ((commsOf H).map (fun c => toSubInput H
        (extractCommunityInducedSectionHypergraph hashF H c respect)))).nodes hn).enabled
        = true := by
    intro hn
    rw [hN0]
    exact ⟨rfl, rfl⟩
  obtain ⟨hEf, hNf, hnnf, hnef, hdonef, houtf⟩ := phase1Fold_rt hashF H respect hwf hunit
    (commsOf H)
    (prePhase (fromInput H) ((commsOf H).map (fun c => toSubInput H
      (extractCommunityInducedSectionHypergraph hashF H c respect)))) hE0 hN0we
  have hen3 : ∀ p, (((commsOf H).foldl (fun N c => phase1Community N (toSubInput H
      (extractCommunityInducedSectionHypergraph hashF H c respect)))
      (prePhase (fromInput H) ((commsOf H).map (fun c => toSubInput H
        (extractCommunityInducedSectionHypergraph hashF H c respect))))).nodes p).enabled
      = true := fun p => (hNf p).2
  have hfe3 : ∀ e, (((commsOf H).foldl (fun N c => phase1Community N (toSubInput H
      (extractCommunityInducedSectionHypergraph hashF H c respect)))
      (prePhase (fromInput H) ((commsOf H).map (fun c => toSubInput H
        (extractCommunityInducedSectionHypergraph hashF H c respect))))).edges (e + 1)).firstEntry
      = (((commsOf H).foldl (fun N c => phase1Community N (toSubInput H
          (extractCommunityInducedSectionHypergraph hashF H c respect)))
        (prePhase (fromInput H) ((commsOf H).map (fun c => toSubInput H
          (extractCommunityInducedSectionHypergraph hashF H c respect))))).edges e).firstEntry
        + (((commsOf H).foldl (fun N c => phase1Community N (toSubInput H
            (extractCommunityInducedSectionHypergraph hashF H c respect)))
          (prePhase (fromInput H) ((commsOf H).map (fun c => toSubInput H
            (extractCommunityInducedSectionHypergraph hashF H c respect))))).edges e).size := by
    intro e
    rw [hEf]
    show feOf H (e + 1) = feOf H e + (H.pins e).length
    exact feOf_succ H e
  have hE3 : ∀ e, (((commsOf H).foldl (fun N c => phase1Community N (toSubInput H
      (extractCommunityInducedSectionHypergraph hashF H c respect)))
      (prePhase (fromInput H) ((commsOf H).map (fun c => toSubInput H
        (extractCommunityInducedSectionHypergraph hashF H c respect))))).edges e).enabled
      = true := by
    intro e
    rw [hEf]
    rfl
  obtain ⟨ha3, hn3, hnn3, hne3, hf3⟩ := phase3Fold_rt hashF (contractionIndexTable [] T)
    (List.range ((commsOf H).foldl (fun N c => phase1Community N (toSubInput H
        (extractCommunityInducedSectionHypergraph hashF H c respect)))
      (prePhase (fromInput H) ((commsOf H).map (fun c => toSubInput H
        (extractCommunityInducedSectionHypergraph hashF H c respect))))).numEdges)
    ((commsOf H).foldl (fun N c => phase1Community N (toSubInput H
        (extractCommunityInducedSectionHypergraph hashF H c respect)))
      (prePhase (fromInput H) ((commsOf H).map (fun c => toSubInput H
        (extractCommunityInducedSectionHypergraph hashF H c respect)))))
    hen3 hfe3 hE3
  have hrt2 : roundTrip hashF T H respect
      = (List.range ((commsOf H).foldl (fun N c => phase1Community N (toSubInput H
            (extractCommunityInducedSectionHypergraph hashF H c respect)))
          (prePhase (fromInput H) ((commsOf H).map (fun c => toSubInput H
            (extractCommunityInducedSectionHypergraph hashF H c respect))))).numEdges).foldl
        (create_contraction_hierarchy_edge hashF (contractionIndexTable [] T))
        ((commsOf H).foldl (fun N c => phase1Community N (toSubInput H
            (extractCommunityInducedSectionHypergraph hashF H c respect)))
          (prePhase (fromInput H) ((commsOf H).map (fun c => toSubInput H
            (extractCommunityInducedSectionHypergraph hashF H c respect))))) := by
    rw [hrt, hphase1, phase3_eq]
  rw [hrt2]
  refine ⟨?_, ?_, ?_⟩
  · intro hn
    rw [hn3]
    exact hNf hn
  · intro e
    constructor
    · rw [(hf3 e).2.2.1, hEf]
      rfl
    · rw [(hf3 e).2.2.2, hEf]
      rfl
  · intro e he
    have hseg : seg ((List.range ((commsOf H).foldl (fun N c => phase1Community N
          (toSubInput H (extractCommunityInducedSectionHypergraph hashF H c respect)))
          (prePhase (fromInput H) ((commsOf H).map (fun c => toSubInput H
            (extractCommunityInducedSectionHypergraph hashF H c respect))))).numEdges).foldl
          (create_contraction_hierarchy_edge hashF (contractionIndexTable [] T))
          ((commsOf H).foldl (fun N c => phase1Community N (toSubInput H
              (extractCommunityInducedSectionHypergraph hashF H c respect)))
            (prePhase (fromInput H) ((commsOf H).map (fun c => toSubInput H
              (extractCommunityInducedSectionHypergraph hashF H c respect)))))).arr
        (feOf H e) (feOf H e + (H.pins e).length) = bucketed H e := by
      have hlen : (seg ((List.range ((commsOf H).foldl (fun N c => phase1Community N
            (toSubInput H (extractCommunityInducedSectionHypergraph hashF H c respect)))
            (prePhase (fromInput H) ((commsOf H).map (fun c => toSubInput H
              (extractCommunityInducedSectionHypergraph hashF H c respect))))).numEdges).foldl
            (create_contraction_hierarchy_edge hashF (contractionIndexTable [] T))
            ((commsOf H).foldl (fun N c => phase1Community N (toSubInput H
                (extractCommunityInducedSectionHypergraph hashF H c respect)))
              (prePhase (fromInput H) ((commsOf H).map (fun c => toSubInput H
                (extractCommunityInducedSectionHypergraph hashF H c respect)))))).arr
          (feOf H e) (feOf H e + (H.pins e).length)).length = (H.pins e).length := by
        rw [seg_length]
        omega
      refine List.ext_getElem (by rw [hlen, (bucketed_perm H e).length_eq]) ?_
      intro i hi1 hi2
      have hik : i < (H.pins e).length := by
        rw [hlen] at hi1
        exact hi1
      rw [← List.getD_eq_getElem _ 0 hi1, ← List.getD_eq_getElem _ 0 hi2,
        seg_getD _ _ _ i (by omega), ha3]
      obtain ⟨c₀, hcpin, hk1, hk2⟩ := comm_cover H e i hik
      have hcmem : c₀ ∈ commsOf H := by
        obtain ⟨p, hp, hcp⟩ := hcpin
        have hpn : p < H.n := (hwf.1 e he).1 p hp
        unfold commsOf
        exact List.mem_dedup.mpr (List.mem_map.mpr ⟨p, List.mem_range.mpr hpn, hcp⟩)
      have hval := hdonef c₀ hcmem e he hcpin (i - cntLt H c₀ e) (by omega)
      have hpos_eq : feOf H e + i = feOf H e + cntLt H c₀ e + (i - cntLt H c₀ e) := by
        omega
      rw [hpos_eq, hval, bucketed_getD H e c₀ hcpin i hk1 hk2]
    exact ⟨hseg, hseg ▸ bucketed_perm H e⟩

/-- Claim C3 (refuted as stated): on a well-formed hypergraph with a
weight-2 hypernode, the reserved ranges are weight-based, so community 1's
write-back into edge 0 lands at offsets 2..3 and overruns into edge 1's
span; after the merge, edge 0's pin span holds [0, 1, 1], which is not a
permutation of its original pin set [0, 1, 2]. -/
theorem C3_round_trip_weighted_violation :
    C3_H.wf ∧
    seg (roundTrip (fun x => x) 1 C3_H true).arr (feOf C3_H 0)
        (feOf C3_H 0 + (C3_H.pins 0).length) = [0, 1, 1] ∧
    C3_H.pins 0 = [0, 1, 2] ∧
    ¬ List.Perm ([0, 1, 1] : List Nat) [0, 1, 2] := by
  refine ⟨⟨?_, ?_⟩, by decide, by decide, by decide⟩
  · intro e he
    have he2 : e < 2 := he
    have hcase : e = 0 ∨ e = 1 := by omega
    rcases hcase with rfl | rfl
    · exact ⟨by decide, by decide⟩
    · exact ⟨by decide, by decide⟩
  · intro e he
    have he2 : 2 ≤ e := he
    have h0 : e ≠ 0 := by omega
    have h1 : e ≠ 1 := by omega
    simp [C3_H, h0, h1]

/-- Witness for the amended C3 on the unit-weight two-pin instance split
between communities 0 and 1. -/
theorem C3_round_trip_witness :
    C2_W.wf ∧ (∀ hn, hn < C2_W.n → C2_W.nodeW hn = 1) ∧
    (∀ e, e < C2_W.m →
      seg (roundTrip (fun x => x) 1 C2_W true).arr (feOf C2_W e)
          (feOf C2_W e + (C2_W.pins e).length) = bucketed C2_W e
      ∧ List.Perm (seg (roundTrip (fun x => x) 1 C2_W true).arr (feOf C2_W e)
          (feOf C2_W e + (C2_W.pins e).length)) (C2_W.pins e)) := by
  have hwf : C2_W.wf := by
    constructor
    · intro e he
      have he1 : e < 1 := he
      have he0 : e = 0 := by omega
      subst he0
      exact ⟨by decide, by decide⟩
    · intro e he
      have he1 : 1 ≤ e := he
      have hne : e ≠ 0 := by omega
      simp [C2_W, hne]
  have hunit : ∀ hn, hn < C2_W.n → C2_W.nodeW hn = 1 := by
    intro hn _
    rfl
  exact ⟨hwf, hunit, (C3_round_trip (fun x => x) 1 C2_W true hwf hunit).2.2⟩

end KahyparProof
